import Mathlib

/-! Reference-counted smart pointers: `SharedPtr` / `WeakPtr`.

A shallow embedding of `src/smart_pointer/smart_pointer.hpp`.

* The heap of control blocks is a partial map from addresses to blocks; address `0` is
  `nullptr`.  Dereferencing `nullptr` or a deallocated block is undefined behaviour in
  C++ and is modelled as failure (`none`).
* `size_t` counters are natural numbers with explicit wrap-around modulo `2 ^ 64`.
* The calls the library makes to user code (deleter, destructor of the managed object,
  allocator) are recorded in a chronological trace of events.
* Handle objects (`SharedPtr`, `WeakPtr` variables of the client program) live in two
  stores indexed by variable number; a destroyed variable leaves `none` behind.
-/

namespace SmartPtr

/-! ## Machine integers -/

/-- Number of values of `size_t` on the 64-bit target. -/
def SIZE_MOD : Nat := 2 ^ 64

/-- The `++` operator on a `size_t`. -/
def size_inc (n : Nat) : Nat := (n + 1) % SIZE_MOD

/-- The `--` operator on a `size_t` (wraps below zero). -/
def size_dec (n : Nat) : Nat := (n + SIZE_MOD - 1) % SIZE_MOD

/-! ## Data model -/

/-- A pointer to a managed object (`T*`): null, the address of an object the caller
allocated, or the inline storage `ptr_in_char` of the embedded control block at an address. -/
inductive ObjPtr where
  | null
  | ext (a : Nat)
  | inline (block : Nat)
  deriving DecidableEq, Repr

/-- The concrete control-block variants deriving from `BaseControlBlock`.
Deleters and allocators are values identified by a number; `storage` is the content of
the inline buffer of `ControlBlockMakeShared` (`none` once the object is destroyed). -/
inductive BlockKind (α : Type) where
  | ControlBlockRegular (ptr : ObjPtr) (del : Nat) (alloc : Nat)
  | ControlBlockMakeShared (storage : Option α) (ptr : ObjPtr) (alloc : Nat)
  deriving DecidableEq, Repr

/-- A control block: the two counters of `BaseControlBlock` and the derived part. -/
structure ControlBlock (α : Type) where
  shared_count : Nat
  weak_count : Nat
  kind : BlockKind α
  deriving DecidableEq, Repr

/-- Calls that leave the library. -/
inductive Event where
  /-- The call `control_block_traits::allocate(alloc, 1)` returning `block`. -/
  | allocate (alloc : Nat) (block : Nat)
  /-- The call `del(ptr)` made by `ControlBlockRegular::destroy_object` of `block`. -/
  | deleter (block : Nat) (del : Nat) (ptr : ObjPtr)
  /-- The call `ptr->~U()` made by `ControlBlockMakeShared::destroy_object` of `block`. -/
  | destructor (block : Nat) (ptr : ObjPtr)
  /-- The effect of `destroy_and_deallocate_block(block)`: the block is destroyed and
  `control_block_traits::deallocate(alloc, block, 1)` is called. -/
  | deallocate (alloc : Nat) (block : Nat)
  deriving DecidableEq, Repr

/-- The memory the library works on. -/
structure Mem (α : Type) where
  /-- Constructed control blocks by address. -/
  blocks : Nat → Option (ControlBlock α)
  /-- The highest address handed out by an allocator so far. -/
  next : Nat
  /-- The calls made so far, oldest first. -/
  trace : List Event

/-- The two fields of a `SharedPtr<T>` and of a `WeakPtr<T>`. -/
structure Handle where
  block_ : Nat
  object_ : ObjPtr
  deriving DecidableEq, Repr

variable {α : Type}

/-- Read through a `BaseControlBlock*`. -/
def Mem.deref (m : Mem α) (p : Nat) : Option (ControlBlock α) :=
  if p = 0 then none else m.blocks p

/-- Write the block at an address. -/
def Mem.setBlock (m : Mem α) (p : Nat) (b : Option (ControlBlock α)) : Mem α :=
  { m with blocks := fun a => if a = p then b else m.blocks a }

/-- Append calls to the trace. -/
def Mem.log (m : Mem α) (es : List Event) : Mem α :=
  { m with trace := m.trace ++ es }

/-- Empty memory. -/
def Mem.init : Mem α := { blocks := fun _ => none, next := 0, trace := [] }

/-! ## Control blocks (lines 4-14, 132-200) -/

/-- The virtual call `block->destroy_object()`:
`del(ptr)` for a regular block, `ptr->~U()` for an embedded one. -/
def destroy_object (m : Mem α) (block : Nat) : Option (Mem α) :=
  match m.deref block with
  | none => none
  | some b =>
    match b.kind with
    | .ControlBlockRegular ptr del _ => some (m.log [Event.deleter block del ptr])
    | .ControlBlockMakeShared _ ptr alloc =>
      some ((m.setBlock block
        (some { b with kind := .ControlBlockMakeShared none ptr alloc })).log
        [Event.destructor block ptr])

/-- The functor `DestroyDeallocateBlock` reached through the virtual call
`block->destroy_and_deallocate_block(block)`. -/
def destroy_and_deallocate_block (m : Mem α) (block : Nat) : Option (Mem α) :=
  match m.deref block with
  | none => none
  | some b =>
    match b.kind with
    | .ControlBlockRegular _ _ alloc =>
      some ((m.setBlock block none).log [Event.deallocate alloc block])
    | .ControlBlockMakeShared _ _ alloc =>
      some ((m.setBlock block none).log [Event.deallocate alloc block])

/-! ## `SharedPtr` (lines 16-213) -/

/-- The constructor `SharedPtr()`. -/
def SharedPtr.default : Handle := { block_ := 0, object_ := ObjPtr.null }

/-- The constructor `SharedPtr(std::nullptr_t)`. -/
def SharedPtr.nullptr : Handle := { block_ := 0, object_ := ObjPtr.null }

/-- The constructor `SharedPtr(Y* ptr, Deleter del, Allocator alloc)`: one block is
allocated and constructed with the arguments `1, 0, ptr, del, alloc`. -/
def SharedPtr.fromRaw (m : Mem α) (ptr : ObjPtr) (del alloc : Nat) : Mem α × Handle :=
  let conblockptr := m.next + 1
  let m1 : Mem α := { m with next := conblockptr, trace := m.trace ++ [Event.allocate alloc conblockptr] }
  let m2 := m1.setBlock conblockptr
    (some { shared_count := 1, weak_count := 0, kind := .ControlBlockRegular ptr del alloc })
  (m2, { block_ := conblockptr, object_ := ptr })

/-- The private constructor `SharedPtr(BaseControlBlock* cblock, T* object)`. -/
def SharedPtr.fromBlock (m : Mem α) (cblock : Nat) (object : ObjPtr) : Option (Mem α × Handle) :=
  match m.deref cblock with
  | none => none
  | some b =>
    some (m.setBlock cblock (some { b with shared_count := size_inc b.shared_count }),
          { block_ := cblock, object_ := object })

/-- The copy constructor `SharedPtr(const SharedPtr& shared)`. -/
def SharedPtr.copy (m : Mem α) (shared : Handle) : Option (Mem α × Handle) :=
  match m.deref shared.block_ with
  | none => none
  | some b =>
    some (m.setBlock shared.block_ (some { b with shared_count := size_inc b.shared_count }),
          { block_ := shared.block_, object_ := shared.object_ })

/-- The move constructor `SharedPtr(SharedPtr&& shared)`: the new handle and what is left
in `shared`. -/
def SharedPtr.move (shared : Handle) : Handle × Handle :=
  ({ block_ := shared.block_, object_ := shared.object_ }, { block_ := 0, object_ := ObjPtr.null })

/-- The destructor `~SharedPtr()`. -/
def SharedPtr.destructor (m : Mem α) (h : Handle) : Option (Mem α) :=
  if h.block_ = 0 ∧ h.object_ = ObjPtr.null then some m
  else
    match m.deref h.block_ with
    | none => none
    | some b =>
      let m1 := m.setBlock h.block_ (some { b with shared_count := size_dec b.shared_count })
      if size_dec b.shared_count ≠ 0 then some m1
      else if b.weak_count ≠ 0 then destroy_object m1 h.block_
      else (destroy_object m1 h.block_).bind (fun m2 => destroy_and_deallocate_block m2 h.block_)

/-- The member `use_count()`. -/
def SharedPtr.use_count (m : Mem α) (h : Handle) : Option Nat :=
  if h.block_ ≠ 0 then (m.deref h.block_).map (fun b => b.shared_count) else some 0

/-- The member `get()`. -/
def SharedPtr.get (h : Handle) : ObjPtr := h.object_

/-- The object a `T*` points at, for pointers into the inline storage of a block. -/
def Mem.object (m : Mem α) : ObjPtr → Option α
  | ObjPtr.inline b =>
    match m.deref b with
    | some { kind := .ControlBlockMakeShared storage _ _, .. } => storage
    | _ => none
  | _ => none

/-- The member `operator*()`, that is `*get()`. -/
def SharedPtr.star (m : Mem α) (h : Handle) : Option α := m.object (SharedPtr.get h)

/-! ## `WeakPtr` (lines 215-266) -/

/-- The constructor `WeakPtr()`. -/
def WeakPtr.default : Handle := { block_ := 0, object_ := ObjPtr.null }

/-- The constructors `WeakPtr(const WeakPtr& other)` and `WeakPtr(const SharedPtr<T>& other)`,
which have the same body. -/
def WeakPtr.copy (m : Mem α) (other : Handle) : Option (Mem α × Handle) :=
  match m.deref other.block_ with
  | none => none
  | some b =>
    some (m.setBlock other.block_ (some { b with weak_count := size_inc b.weak_count }),
          { block_ := other.block_, object_ := other.object_ })

/-- The move constructor `WeakPtr(WeakPtr&& other)`. -/
def WeakPtr.move (other : Handle) : Handle × Handle :=
  ({ block_ := other.block_, object_ := other.object_ }, { block_ := 0, object_ := ObjPtr.null })

/-- The destructor `~WeakPtr()`. -/
def WeakPtr.destructor (m : Mem α) (h : Handle) : Option (Mem α) :=
  if h.block_ = 0 ∧ h.object_ = ObjPtr.null then some m
  else
    match m.deref h.block_ with
    | none => none
    | some b =>
      let m1 := m.setBlock h.block_ (some { b with weak_count := size_dec b.weak_count })
      if b.shared_count ≠ 0 ∨ size_dec b.weak_count ≠ 0 then some m1
      else destroy_and_deallocate_block m1 h.block_

/-- The member `expired()`. -/
def WeakPtr.expired (m : Mem α) (h : Handle) : Option Bool :=
  (m.deref h.block_).map (fun b => decide (b.shared_count = 0))

/-- The member `lock()`. -/
def WeakPtr.lock (m : Mem α) (h : Handle) : Option (Mem α × Handle) :=
  SharedPtr.fromBlock m h.block_ h.object_

/-! ## Factories (lines 268-288) -/

/-- The allocator `std::allocator<T>()`. -/
def std_allocator : Nat := 0

/-- The deleter `std::default_delete<Y>()`. -/
def std_default_delete : Nat := 0

/-- The function `AllocateShared<T>(alloc, args...)`.  `args` is the object `T(args...)`
builds, or `none` when that constructor throws.  The result is the memory afterwards and
the handle returned (`none` when the exception leaves the function). -/
def AllocateShared (m : Mem α) (alloc : Nat) (args : Option α) : Mem α × Option Handle :=
  let block := m.next + 1
  let m1 : Mem α := { m with next := block, trace := m.trace ++ [Event.allocate alloc block] }
  match args with
  | none => (m1, none)
  | some v =>
    let m2 := m1.setBlock block
      (some { shared_count := 1, weak_count := 0,
              kind := .ControlBlockMakeShared (some v) (ObjPtr.inline block) alloc })
    (m2, some { block_ := block, object_ := ObjPtr.inline block })

/-- The function `MakeShared<T>(args...)`. -/
def MakeShared (m : Mem α) (args : Option α) : Mem α × Option Handle :=
  AllocateShared m std_allocator args

/-! ## Client programs -/

/-- Memory together with the handle variables of the client. -/
structure State (α : Type) where
  mem : Mem α
  strong : List (Option Handle)
  weak : List (Option Handle)

/-- The state before anything happened. -/
def State.init : State α := { mem := Mem.init, strong := [], weak := [] }

/-- The live handle stored in variable `i`. -/
def getVar (l : List (Option Handle)) (i : Nat) : Option Handle := (l.get? i).join

/-- The copy assignment `SharedPtr::operator=(const SharedPtr& other)` on variables. -/
def SharedPtr.copy_assign (s : State α) (this other : Nat) : Option (State α) :=
  match getVar s.strong this, getVar s.strong other with
  | some t, some o =>
    -- SharedPtr<T> copy = other;
    match SharedPtr.copy s.mem o with
    | none => none
    | some (m1, copy) =>
      -- std::swap(block_, copy.block_); std::swap(object_, copy.object_);
      let this1 : Handle := { block_ := copy.block_, object_ := copy.object_ }
      let copy1 : Handle := { block_ := t.block_, object_ := t.object_ }
      -- return *this; then ~copy
      (SharedPtr.destructor m1 copy1).map
        (fun m2 => { mem := m2, strong := s.strong.set this (some this1), weak := s.weak })
  | _, _ => none

/-- The move assignment `SharedPtr::operator=(SharedPtr&& other)` on variables. -/
def SharedPtr.move_assign (s : State α) (this other : Nat) : Option (State α) :=
  match getVar s.strong this, getVar s.strong other with
  | some t, some _ =>
    -- SharedPtr copy = std::move(*this);
    let copy := (SharedPtr.move t).1
    let st1 := s.strong.set this (some (SharedPtr.move t).2)
    -- block_ = other.block_; object_ = other.object_;
    match getVar st1 other with
    | none => none
    | some o =>
      let st2 := st1.set this (some { block_ := o.block_, object_ := o.object_ })
      -- other.block_ = nullptr; other.object_ = nullptr;
      let st3 := st2.set other (some { block_ := 0, object_ := ObjPtr.null })
      -- return *this; then ~copy
      (SharedPtr.destructor s.mem copy).map
        (fun m1 => { mem := m1, strong := st3, weak := s.weak })
  | _, _ => none

/-- The member `reset()` on a variable. -/
def SharedPtr.reset (s : State α) (this : Nat) : Option (State α) :=
  match getVar s.strong this with
  | none => none
  | some t =>
    -- SharedPtr shared; shared.block_ = block_; shared.object_ = object_;
    let shared : Handle := { block_ := t.block_, object_ := t.object_ }
    -- block_ = nullptr; object_ = nullptr;
    let st1 := s.strong.set this (some { block_ := 0, object_ := ObjPtr.null })
    -- ~shared
    (SharedPtr.destructor s.mem shared).map
      (fun m1 => { mem := m1, strong := st1, weak := s.weak })

/-- The copy assignment `WeakPtr::operator=(const WeakPtr& other)` on variables. -/
def WeakPtr.copy_assign (s : State α) (this other : Nat) : Option (State α) :=
  match getVar s.weak this, getVar s.weak other with
  | some t, some o =>
    -- WeakPtr copy = other;
    match WeakPtr.copy s.mem o with
    | none => none
    | some (m1, copy) =>
      -- std::swap(object_, copy.object_); std::swap(block_, copy.block_);
      let this1 : Handle := { block_ := copy.block_, object_ := copy.object_ }
      let copy1 : Handle := { block_ := t.block_, object_ := t.object_ }
      (WeakPtr.destructor m1 copy1).map
        (fun m2 => { mem := m2, strong := s.strong, weak := s.weak.set this (some this1) })
  | _, _ => none

/-- The move assignment `WeakPtr::operator=(WeakPtr&& other)` on variables. -/
def WeakPtr.move_assign (s : State α) (this other : Nat) : Option (State α) :=
  match getVar s.weak this, getVar s.weak other with
  | some t, some _ =>
    -- WeakPtr copy = std::move(*this);
    let copy := (WeakPtr.move t).1
    let wk1 := s.weak.set this (some (WeakPtr.move t).2)
    -- std::swap(object_, other.object_); std::swap(block_, other.block_);
    match getVar wk1 this, getVar wk1 other with
    | some t1, some o =>
      let wk2 := wk1.set this (some { block_ := o.block_, object_ := o.object_ })
      let wk3 := wk2.set other (some { block_ := t1.block_, object_ := t1.object_ })
      (WeakPtr.destructor s.mem copy).map
        (fun m1 => { mem := m1, strong := s.strong, weak := wk3 })
    | _, _ => none
  | _, _ => none

/-- One statement of a client program.  Numbers name handle variables; a statement that
declares a handle puts it in the next unused variable. -/
inductive Op (α : Type) where
  | sp_default
  | sp_nullptr
  | sp_raw (ptr : ObjPtr) (del alloc : Nat)
  | sp_copy (i : Nat)
  | sp_move (i : Nat)
  | sp_copy_assign (i j : Nat)
  | sp_move_assign (i j : Nat)
  | sp_reset (i : Nat)
  | sp_destroy (i : Nat)
  | allocate_shared (alloc : Nat) (args : Option α)
  | make_shared (args : Option α)
  | wp_default
  | wp_from_shared (i : Nat)
  | wp_copy (i : Nat)
  | wp_move (i : Nat)
  | wp_copy_assign (i j : Nat)
  | wp_move_assign (i j : Nat)
  | wp_destroy (i : Nat)
  | wp_lock (i : Nat)

/-- Run one statement; `none` when it has undefined behaviour or names a dead variable. -/
def step (s : State α) : Op α → Option (State α)
  | .sp_default => some { s with strong := s.strong ++ [some SharedPtr.default] }
  | .sp_nullptr => some { s with strong := s.strong ++ [some SharedPtr.nullptr] }
  | .sp_raw ptr del alloc =>
    some { s with mem := (SharedPtr.fromRaw s.mem ptr del alloc).1,
                  strong := s.strong ++ [some (SharedPtr.fromRaw s.mem ptr del alloc).2] }
  | .sp_copy i =>
    match getVar s.strong i with
    | none => none
    | some o =>
      (SharedPtr.copy s.mem o).map
        (fun r => { s with mem := r.1, strong := s.strong ++ [some r.2] })
  | .sp_move i =>
    match getVar s.strong i with
    | none => none
    | some o =>
      some { s with strong := (s.strong.set i (some (SharedPtr.move o).2)) ++
                                [some (SharedPtr.move o).1] }
  | .sp_copy_assign i j => SharedPtr.copy_assign s i j
  | .sp_move_assign i j => SharedPtr.move_assign s i j
  | .sp_reset i => SharedPtr.reset s i
  | .sp_destroy i =>
    match getVar s.strong i with
    | none => none
    | some h =>
      (SharedPtr.destructor s.mem h).map
        (fun m1 => { s with mem := m1, strong := s.strong.set i none })
  | .allocate_shared alloc args =>
    match (AllocateShared s.mem alloc args).2 with
    | none => some { s with mem := (AllocateShared s.mem alloc args).1 }
    | some h => some { s with mem := (AllocateShared s.mem alloc args).1,
                              strong := s.strong ++ [some h] }
  | .make_shared args =>
    match (MakeShared s.mem args).2 with
    | none => some { s with mem := (MakeShared s.mem args).1 }
    | some h => some { s with mem := (MakeShared s.mem args).1,
                              strong := s.strong ++ [some h] }
  | .wp_default => some { s with weak := s.weak ++ [some WeakPtr.default] }
  | .wp_from_shared i =>
    match getVar s.strong i with
    | none => none
    | some o =>
      (WeakPtr.copy s.mem o).map
        (fun r => { s with mem := r.1, weak := s.weak ++ [some r.2] })
  | .wp_copy i =>
    match getVar s.weak i with
    | none => none
    | some o =>
      (WeakPtr.copy s.mem o).map
        (fun r => { s with mem := r.1, weak := s.weak ++ [some r.2] })
  | .wp_move i =>
    match getVar s.weak i with
    | none => none
    | some o =>
      some { s with weak := (s.weak.set i (some (WeakPtr.move o).2)) ++
                              [some (WeakPtr.move o).1] }
  | .wp_copy_assign i j => WeakPtr.copy_assign s i j
  | .wp_move_assign i j => WeakPtr.move_assign s i j
  | .wp_destroy i =>
    match getVar s.weak i with
    | none => none
    | some h =>
      (WeakPtr.destructor s.mem h).map
        (fun m1 => { s with mem := m1, weak := s.weak.set i none })
  | .wp_lock i =>
    match getVar s.weak i with
    | none => none
    | some w =>
      (WeakPtr.lock s.mem w).map
        (fun r => { s with mem := r.1, strong := s.strong ++ [some r.2] })

/-- Number of live handle variables in a store. -/
def live (l : List (Option Handle)) : Nat := l.countP (fun o => o.isSome)

/-- Whether a variable holds a live handle on block `b`. -/
def pointsTo (b : Nat) : Option Handle → Bool
  | some h => decide (h.block_ = b)
  | none => false

/-- Number of live handle variables in a store that point at block `b`. -/
def refs (l : List (Option Handle)) (b : Nat) : Nat := l.countP (pointsTo b)

/-- A handle object occupies two 8-byte words, so fewer than `2 ^ 60` of them fit in the
64-bit address space at once. -/
def HANDLE_CAP : Nat := 2 ^ 60

/-- The precondition of `lock()`: the weak handle is engaged and not expired. -/
def lockAllowed (s : State α) : Op α → Bool
  | .wp_lock i =>
    match getVar s.weak i with
    | none => false
    | some w => WeakPtr.expired s.mem w == some false
  | _ => true

/-- Run one statement of a program that respects the precondition of `lock()` on a
machine whose memory holds the handle variables. -/
def exec (s : State α) (op : Op α) : Option (State α) :=
  if lockAllowed s op then
    match step s op with
    | none => none
    | some s1 => if live s1.strong + live s1.weak ≤ HANDLE_CAP then some s1 else none
  else none

/-- Run a program from a state. -/
def runFrom (s : State α) : List (Op α) → Option (State α)
  | [] => some s
  | op :: ops =>
    match exec s op with
    | none => none
    | some s1 => runFrom s1 ops

/-- Run a program from the initial state. -/
def run (ops : List (Op α)) : Option (State α) := runFrom State.init ops

/-! ## Observations on the trace -/

/-- Whether an event is a `destroy_object()` call of block `b`. -/
def Event.isDestroyObject (b : Nat) : Event → Bool
  | Event.deleter c _ _ => decide (c = b)
  | Event.destructor c _ => decide (c = b)
  | _ => false

/-- Whether an event is a `destroy_and_deallocate_block` call of block `b`. -/
def Event.isDeallocate (b : Nat) : Event → Bool
  | Event.deallocate _ c => decide (c = b)
  | _ => false

/-- Number of `destroy_object()` calls made on block `b`. -/
def destroyCount (m : Mem α) (b : Nat) : Nat := m.trace.countP (Event.isDestroyObject b)

/-- Number of `destroy_and_deallocate_block` calls made on block `b`. -/
def deallocCount (m : Mem α) (b : Nat) : Nat := m.trace.countP (Event.isDeallocate b)

/-- The counter `shared_count` of block `b`, `0` when there is no such block. -/
def sharedOf (m : Mem α) (b : Nat) : Nat :=
  match m.deref b with
  | some blk => blk.shared_count
  | none => 0

/-- The counter `weak_count` of block `b`, `0` when there is no such block. -/
def weakOf (m : Mem α) (b : Nat) : Nat :=
  match m.deref b with
  | some blk => blk.weak_count
  | none => 0

/-- Whether a constructed block is at address `b`. -/
def isLive (m : Mem α) (b : Nat) : Bool := (m.deref b).isSome

/-! ## Invariants -/

/-- Every handle of a store whose block pointer is null has a null object pointer. -/
def nullOk (l : List (Option Handle)) : Prop :=
  ∀ h, some h ∈ l → h.block_ = 0 → h.object_ = ObjPtr.null

/-- The counting invariant between a memory, the strong handles `S` and the weak handles
`W` that exist (variables of the client and temporaries of the running member function). -/
structure Inv (m : Mem α) (S W : List (Option Handle)) : Prop where
  null_free : m.blocks 0 = none
  fresh : ∀ b, m.next < b → m.blocks b = none ∧ destroyCount m b = 0 ∧ deallocCount m b = 0
  counts : ∀ b blk, m.blocks b = some blk →
    blk.shared_count = refs S b ∧ blk.weak_count = refs W b
  held : ∀ b blk, m.blocks b = some blk → 0 < refs S b + refs W b
  live_trace : ∀ b blk, m.blocks b = some blk →
    deallocCount m b = 0 ∧ destroyCount m b = if refs S b = 0 then 1 else 0
  dead : ∀ b, m.blocks b = none →
    (b ≠ 0 → refs S b = 0 ∧ refs W b = 0) ∧
      destroyCount m b = deallocCount m b ∧ deallocCount m b ≤ 1
  bound : live S < SIZE_MOD ∧ live W < SIZE_MOD
  strong_null : nullOk S
  weak_null : nullOk W

/-- The invariant of a state between two statements. -/
def State.Ok (s : State α) : Prop :=
  Inv s.mem s.strong s.weak ∧ live s.strong + live s.weak ≤ HANDLE_CAP

/-- The effect on memory of a constructor that allocates a control block. -/
inductive Allocates : Mem α → Mem α → Prop where
  | fromRaw (m : Mem α) (ptr : ObjPtr) (del alloc : Nat) :
      Allocates m (SharedPtr.fromRaw m ptr del alloc).1
  | allocateShared (m : Mem α) (alloc : Nat) (args : Option α) :
      Allocates m (AllocateShared m alloc args).1

/-- The effect on memory of one constructor or destructor call that does not allocate. -/
inductive MemStep : Mem α → Mem α → Prop where
  | sharedCopy {m m1 : Mem α} {h h1 : Handle} :
      SharedPtr.copy m h = some (m1, h1) → MemStep m m1
  | sharedDestructor {m m1 : Mem α} {h : Handle} :
      SharedPtr.destructor m h = some m1 → MemStep m m1
  | weakCopy {m m1 : Mem α} {h h1 : Handle} :
      WeakPtr.copy m h = some (m1, h1) → MemStep m m1
  | weakDestructor {m m1 : Mem α} {h : Handle} :
      WeakPtr.destructor m h = some m1 → MemStep m m1

/-- Several constructor and destructor calls in a row. -/
inductive MemSteps : Mem α → Mem α → Prop where
  | refl (m : Mem α) : MemSteps m m
  | tail {m m1 m2 : Mem α} : MemSteps m m1 → MemStep m1 m2 → MemSteps m m2

/-- What never changes about memory: the trace only grows, addresses are not reused,
a block that is gone stays gone and silent, and a block disappears only through
`destroy_and_deallocate_block`. -/
structure Grows (m m1 : Mem α) : Prop where
  trace_ext : ∃ es, m1.trace = m.trace ++ es
  next_le : m.next ≤ m1.next
  null_stays : m.blocks 0 = none → m1.blocks 0 = none
  dead_stays : ∀ b, b ≤ m.next → m.blocks b = none →
    m1.blocks b = none ∧ destroyCount m1 b = destroyCount m b ∧
      deallocCount m1 b = deallocCount m b
  gone : ∀ b, (m.blocks b).isSome → m1.blocks b = none → 1 ≤ deallocCount m1 b

/-- The empty handle, as left by the default constructors and in a moved-from object. -/
def Handle.null : Handle := { block_ := 0, object_ := ObjPtr.null }

/-- The handle variables a move assignment `this = std::move(other)` leaves, where `u` is
the value read from `other` after `*this` was moved from. -/
def moveAssigned (l : List (Option Handle)) (this other : Nat) (u : Handle) :
    List (Option Handle) :=
  ((l.set this (some Handle.null)).set this
    (some { block_ := u.block_, object_ := u.object_ })).set other (some Handle.null)

/-- The successful runs of `step`, statement by statement, with the values read on the
way. -/
inductive StepRel (s : State α) : Op α → State α → Prop where
  | sp_default :
      StepRel s Op.sp_default
        { mem := s.mem, strong := s.strong ++ [some Handle.null], weak := s.weak }
  | sp_nullptr :
      StepRel s Op.sp_nullptr
        { mem := s.mem, strong := s.strong ++ [some Handle.null], weak := s.weak }
  | sp_raw (ptr : ObjPtr) (del alloc : Nat) :
      StepRel s (Op.sp_raw ptr del alloc)
        { mem := (SharedPtr.fromRaw s.mem ptr del alloc).1,
          strong := s.strong ++ [some { block_ := s.mem.next + 1, object_ := ptr }],
          weak := s.weak }
  | sp_copy {i : Nat} {o : Handle} {m1 : Mem α} :
      getVar s.strong i = some o →
      SharedPtr.copy s.mem o = some (m1, { block_ := o.block_, object_ := o.object_ }) →
      StepRel s (Op.sp_copy i)
        { mem := m1,
          strong := s.strong ++ [some { block_ := o.block_, object_ := o.object_ }],
          weak := s.weak }
  | sp_move {i : Nat} {o : Handle} :
      getVar s.strong i = some o →
      StepRel s (Op.sp_move i)
        { mem := s.mem,
          strong := s.strong.set i (some Handle.null) ++
            [some { block_ := o.block_, object_ := o.object_ }],
          weak := s.weak }
  | sp_copy_assign {i j : Nat} {t o : Handle} {m1 m2 : Mem α} :
      getVar s.strong i = some t → getVar s.strong j = some o →
      SharedPtr.copy s.mem o = some (m1, { block_ := o.block_, object_ := o.object_ }) →
      SharedPtr.destructor m1 t = some m2 →
      StepRel s (Op.sp_copy_assign i j)
        { mem := m2,
          strong := s.strong.set i (some { block_ := o.block_, object_ := o.object_ }),
          weak := s.weak }
  | sp_move_assign {i j : Nat} {t o u : Handle} {m1 : Mem α} :
      getVar s.strong i = some t → getVar s.strong j = some o →
      getVar (s.strong.set i (some Handle.null)) j = some u →
      SharedPtr.destructor s.mem t = some m1 →
      StepRel s (Op.sp_move_assign i j)
        { mem := m1, strong := moveAssigned s.strong i j u, weak := s.weak }
  | sp_reset {i : Nat} {t : Handle} {m1 : Mem α} :
      getVar s.strong i = some t → SharedPtr.destructor s.mem t = some m1 →
      StepRel s (Op.sp_reset i)
        { mem := m1, strong := s.strong.set i (some Handle.null), weak := s.weak }
  | sp_destroy {i : Nat} {t : Handle} {m1 : Mem α} :
      getVar s.strong i = some t → SharedPtr.destructor s.mem t = some m1 →
      StepRel s (Op.sp_destroy i)
        { mem := m1, strong := s.strong.set i none, weak := s.weak }
  | allocate_throws (alloc : Nat) :
      StepRel s (Op.allocate_shared alloc none)
        { mem := (AllocateShared s.mem alloc none).1, strong := s.strong, weak := s.weak }
  | allocate_shared (alloc : Nat) (v : α) :
      StepRel s (Op.allocate_shared alloc (some v))
        { mem := (AllocateShared s.mem alloc (some v)).1,
          strong := s.strong ++
            [some { block_ := s.mem.next + 1, object_ := ObjPtr.inline (s.mem.next + 1) }],
          weak := s.weak }
  | make_throws :
      StepRel s (Op.make_shared none)
        { mem := (AllocateShared s.mem std_allocator none).1, strong := s.strong,
          weak := s.weak }
  | make_shared (v : α) :
      StepRel s (Op.make_shared (some v))
        { mem := (AllocateShared s.mem std_allocator (some v)).1,
          strong := s.strong ++
            [some { block_ := s.mem.next + 1, object_ := ObjPtr.inline (s.mem.next + 1) }],
          weak := s.weak }
  | wp_default :
      StepRel s Op.wp_default
        { mem := s.mem, strong := s.strong, weak := s.weak ++ [some Handle.null] }
  | wp_from_shared {i : Nat} {o : Handle} {m1 : Mem α} :
      getVar s.strong i = some o →
      WeakPtr.copy s.mem o = some (m1, { block_ := o.block_, object_ := o.object_ }) →
      StepRel s (Op.wp_from_shared i)
        { mem := m1, strong := s.strong,
          weak := s.weak ++ [some { block_ := o.block_, object_ := o.object_ }] }
  | wp_copy {i : Nat} {o : Handle} {m1 : Mem α} :
      getVar s.weak i = some o →
      WeakPtr.copy s.mem o = some (m1, { block_ := o.block_, object_ := o.object_ }) →
      StepRel s (Op.wp_copy i)
        { mem := m1, strong := s.strong,
          weak := s.weak ++ [some { block_ := o.block_, object_ := o.object_ }] }
  | wp_move {i : Nat} {o : Handle} :
      getVar s.weak i = some o →
      StepRel s (Op.wp_move i)
        { mem := s.mem, strong := s.strong,
          weak := s.weak.set i (some Handle.null) ++
            [some { block_ := o.block_, object_ := o.object_ }] }
  | wp_copy_assign {i j : Nat} {t o : Handle} {m1 m2 : Mem α} :
      getVar s.weak i = some t → getVar s.weak j = some o →
      WeakPtr.copy s.mem o = some (m1, { block_ := o.block_, object_ := o.object_ }) →
      WeakPtr.destructor m1 t = some m2 →
      StepRel s (Op.wp_copy_assign i j)
        { mem := m2, strong := s.strong,
          weak := s.weak.set i (some { block_ := o.block_, object_ := o.object_ }) }
  | wp_move_assign {i j : Nat} {t o u : Handle} {m1 : Mem α} :
      getVar s.weak i = some t → getVar s.weak j = some o →
      getVar (s.weak.set i (some Handle.null)) j = some u →
      WeakPtr.destructor s.mem t = some m1 →
      StepRel s (Op.wp_move_assign i j)
        { mem := m1, strong := s.strong, weak := moveAssigned s.weak i j u }
  | wp_destroy {i : Nat} {t : Handle} {m1 : Mem α} :
      getVar s.weak i = some t → WeakPtr.destructor s.mem t = some m1 →
      StepRel s (Op.wp_destroy i)
        { mem := m1, strong := s.strong, weak := s.weak.set i none }
  | wp_lock {i : Nat} {w : Handle} {m1 : Mem α} :
      getVar s.weak i = some w →
      SharedPtr.copy s.mem w = some (m1, { block_ := w.block_, object_ := w.object_ }) →
      StepRel s (Op.wp_lock i)
        { mem := m1,
          strong := s.strong ++ [some { block_ := w.block_, object_ := w.object_ }],
          weak := s.weak }

/-- Block `b` is a regular block for pointer `ptr` and deleter `del`, and every
`destroy_object` call made on it so far was the call `del(ptr)`. -/
def DeleterOnly (m : Mem α) (b del : Nat) (ptr : ObjPtr) : Prop :=
  b ≠ 0 ∧ b ≤ m.next ∧
    (∀ blk, m.blocks b = some blk →
      ∃ alloc, blk.kind = BlockKind.ControlBlockRegular ptr del alloc) ∧
    (∀ e, e ∈ m.trace → e.isDestroyObject b = true → e = Event.deleter b del ptr)

/-- The scenario `p = SharedPtr(new Trace, custom_deleter)`: pointer `ext 7`, deleter 5. -/
def rawDemo1 : State Nat := (exec State.init (Op.sp_raw (ObjPtr.ext 7) 5 0)).getD State.init

/-- The scenario `p = SharedPtr(new Trace, custom_deleter); destroy p`. -/
def rawDemo2 : State Nat := (runFrom rawDemo1 [Op.sp_destroy 0]).getD State.init

/-- The scenario `p = MakeShared<Trace>(); w = WeakPtr(p); destroy p`. -/
def expiredDemo : State Nat :=
  (run [Op.make_shared (some 0), Op.wp_from_shared 0, Op.sp_destroy 0]).getD State.init

/-- The scenario `p = MakeShared<Trace>(); w = WeakPtr(p)`. -/
def lockDemo : State Nat :=
  (run [Op.make_shared (some 0), Op.wp_from_shared 0]).getD State.init

/-- Whether a statement that adopts a raw pointer is given one that is not null. -/
def Op.rawNonNull : Op α → Bool
  | Op.sp_raw ptr _ _ => decide (ptr ≠ ObjPtr.null)
  | _ => true

/-- A handle has its two pointers both null or both non-null. -/
def Handle.paired (h : Handle) : Prop := h.block_ = 0 ↔ h.object_ = ObjPtr.null

/-- Every handle of a store has its two pointers both null or both non-null. -/
def allPaired (l : List (Option Handle)) : Prop := ∀ h, some h ∈ l → h.paired

/-- The scenario `SharedPtr<T> p(static_cast<T*>(nullptr))`. -/
def nullRawDemo : State Nat :=
  (run [Op.sp_raw ObjPtr.null std_default_delete std_allocator]).getD State.init

/-- The scenario `SharedPtr<T> a; SharedPtr<T> b;`. -/
def emptyPairDemo : State Nat := (run [Op.sp_default, Op.sp_default]).getD State.init

/-- The scenario `a = MakeShared<T>(1); b = MakeShared<T>(2)`. -/
def twoBlocksDemo : State Nat :=
  (run [Op.make_shared (some 1), Op.make_shared (some 2)]).getD State.init

/-- The scenario `p = MakeShared<T>(0)`. -/
def oneBlockDemo : State Nat := (run [Op.make_shared (some 0)]).getD State.init

/-- Whether an event is an `allocate` call through allocator `a`. -/
def Event.isAllocateBy (a : Nat) : Event → Bool
  | Event.allocate al _ => decide (al = a)
  | _ => false

/-- Whether an event is a `deallocate` call through allocator `a`. -/
def Event.isDeallocateBy (a : Nat) : Event → Bool
  | Event.deallocate al _ => decide (al = a)
  | _ => false

/-- Number of allocations the allocator `a` has recorded. -/
def allocations (m : Mem α) (a : Nat) : Nat := m.trace.countP (Event.isAllocateBy a)

/-- Number of deallocations the allocator `a` has recorded. -/
def deallocations (m : Mem α) (a : Nat) : Nat := m.trace.countP (Event.isDeallocateBy a)

/-- The scenario `p = MakeShared<T>(0); w = WeakPtr(p); q = p`. -/
def sharedPairDemo : State Nat :=
  (run [Op.make_shared (some 0), Op.wp_from_shared 0, Op.sp_copy 0]).getD State.init

/-- The destructor call a statement ends with, if it has one: whether it is `~WeakPtr()`
(otherwise `~SharedPtr()`), the memory it runs in and the handle it destroys.  For the
copy assignments that is the temporary `copy` after the swap, in the memory left by the
copy constructor; for the move assignments the temporary `copy` moved from `*this`; for
`reset()` the local `shared`; for a destruction the variable itself. -/
def finalDestructor (s : State α) : Op α → Option (Bool × Mem α × Handle)
  | Op.sp_copy_assign i j =>
    match getVar s.strong i, getVar s.strong j with
    | some t, some o => (SharedPtr.copy s.mem o).map (fun r => (false, r.1, t))
    | _, _ => none
  | Op.sp_move_assign i j =>
    match getVar s.strong i, getVar s.strong j with
    | some t, some _ => some (false, s.mem, t)
    | _, _ => none
  | Op.sp_reset i => (getVar s.strong i).map (fun t => (false, s.mem, t))
  | Op.sp_destroy i => (getVar s.strong i).map (fun t => (false, s.mem, t))
  | Op.wp_copy_assign i j =>
    match getVar s.weak i, getVar s.weak j with
    | some t, some o => (WeakPtr.copy s.mem o).map (fun r => (true, r.1, t))
    | _, _ => none
  | Op.wp_move_assign i j =>
    match getVar s.weak i, getVar s.weak j with
    | some t, some _ => some (true, s.mem, t)
    | _, _ => none
  | Op.wp_destroy i => (getVar s.weak i).map (fun t => (true, s.mem, t))
  | _ => none

/-- The scenario `p = MakeShared<T>(0); w = WeakPtr(p); destroy p; q = w.lock()`. -/
def revivedDemo : State Nat := (step expiredDemo (Op.wp_lock 0)).getD State.init

/-! ## Lemmas -/

/-! ### Counter arithmetic -/

theorem size_inc_eq {n : Nat} (h : n + 1 < SIZE_MOD) : size_inc n = n + 1 := by
  unfold size_inc
  exact Nat.mod_eq_of_lt h

theorem size_dec_eq {n : Nat} (h0 : 0 < n) (h : n < SIZE_MOD) : size_dec n = n - 1 := by
  unfold size_dec
  have : n + SIZE_MOD - 1 = (n - 1) + SIZE_MOD := by omega
  rw [this, Nat.add_mod_right]
  exact Nat.mod_eq_of_lt (by omega)

theorem HANDLE_CAP_lt : HANDLE_CAP + 2 < SIZE_MOD := by
  unfold HANDLE_CAP SIZE_MOD
  norm_num

/-! ### Handle stores -/

theorem getVar_eq_some {l : List (Option Handle)} {i : Nat} {h : Handle} :
    getVar l i = some h ↔ ∃ hi : i < l.length, l.get ⟨i, hi⟩ = some h := by
  unfold getVar
  constructor
  · intro hg
    by_cases hi : i < l.length
    · refine ⟨hi, ?_⟩
      rw [List.get?_eq_get hi] at hg
      simpa using hg
    · rw [List.get?_eq_none.mpr (by omega)] at hg
      simp at hg
  · rintro ⟨hi, hg⟩
    rw [List.get?_eq_get hi, hg]
    rfl

theorem getVar_mem {l : List (Option Handle)} {i : Nat} {h : Handle}
    (hg : getVar l i = some h) : some h ∈ l := by
  obtain ⟨hi, hg⟩ := getVar_eq_some.mp hg
  rw [← hg]
  exact List.get_mem l i hi

theorem getVar_set_self {l : List (Option Handle)} {i : Nat} {x : Option Handle}
    (hi : i < l.length) : getVar (l.set i x) i = x := by
  unfold getVar
  rw [List.get?_eq_getElem?, List.getElem?_set_self hi]
  rfl

theorem getVar_set_ne {l : List (Option Handle)} {i j : Nat} {x : Option Handle}
    (hij : i ≠ j) : getVar (l.set i x) j = getVar l j := by
  unfold getVar
  rw [List.get?_eq_getElem?, List.get?_eq_getElem?, List.getElem?_set_ne hij]

theorem getVar_lt {l : List (Option Handle)} {i : Nat} {h : Handle}
    (hg : getVar l i = some h) : i < l.length :=
  (getVar_eq_some.mp hg).1

theorem getVar_append_left {l : List (Option Handle)} {i : Nat} {x : Option Handle}
    (hi : i < l.length) : getVar (l ++ [x]) i = getVar l i := by
  unfold getVar
  rw [List.get?_eq_getElem?, List.get?_eq_getElem?, List.getElem?_append_left hi]

theorem getVar_append_length (l : List (Option Handle)) (x : Option Handle) :
    getVar (l ++ [x]) l.length = x := by
  unfold getVar
  rw [List.get?_eq_getElem?]
  simp

theorem refs_nil (b : Nat) : refs [] b = 0 := rfl

theorem refs_cons (x : Option Handle) (l : List (Option Handle)) (b : Nat) :
    refs (x :: l) b = refs l b + if pointsTo b x then 1 else 0 := by
  unfold refs
  exact List.countP_cons _ _ _

theorem refs_append_one (l : List (Option Handle)) (x : Option Handle) (b : Nat) :
    refs (l ++ [x]) b = refs l b + if pointsTo b x then 1 else 0 := by
  unfold refs
  rw [List.countP_append, List.countP_cons]
  simp

theorem refs_set {l : List (Option Handle)} {i : Nat} {h : Handle}
    (hg : getVar l i = some h) (x : Option Handle) (b : Nat) :
    refs (l.set i x) b + (if pointsTo b (some h) then 1 else 0)
      = refs l b + if pointsTo b x then 1 else 0 := by
  obtain ⟨hi, hget⟩ := getVar_eq_some.mp hg
  unfold refs
  rw [List.countP_set _ _ _ _ hi]
  have hle := List.boole_getElem_le_countP (pointsTo b) l i hi
  have hget2 : l[i] = some h := by simpa [List.get_eq_getElem] using hget
  rw [hget2] at hle ⊢
  omega

theorem live_cons (x : Option Handle) (l : List (Option Handle)) :
    live (x :: l) = live l + if x.isSome then 1 else 0 := by
  unfold live
  exact List.countP_cons _ _ _

theorem live_append_one (l : List (Option Handle)) (x : Option Handle) :
    live (l ++ [x]) = live l + if x.isSome then 1 else 0 := by
  unfold live
  rw [List.countP_append, List.countP_cons]
  simp

theorem live_set {l : List (Option Handle)} {i : Nat} {h : Handle}
    (hg : getVar l i = some h) (x : Option Handle) :
    live (l.set i x) + 1 = live l + if x.isSome then 1 else 0 := by
  obtain ⟨hi, hget⟩ := getVar_eq_some.mp hg
  unfold live
  rw [List.countP_set _ _ _ _ hi]
  have hle := List.boole_getElem_le_countP (fun o : Option Handle => o.isSome) l i hi
  have hget2 : l[i] = some h := by simpa [List.get_eq_getElem] using hget
  simp only [hget2, Option.isSome_some, if_true] at hle ⊢
  omega

theorem refs_le_live (l : List (Option Handle)) (b : Nat) : refs l b ≤ live l := by
  unfold refs live
  apply List.countP_mono_left
  intro x _ hx
  cases x with
  | none => simp [pointsTo] at hx
  | some h => rfl

theorem refs_pos_of_mem {l : List (Option Handle)} {h : Handle} (hm : some h ∈ l) :
    0 < refs l h.block_ := by
  unfold refs
  rw [List.countP_pos_iff]
  exact ⟨some h, hm, by simp [pointsTo]⟩

theorem exists_of_refs_pos {l : List (Option Handle)} {b : Nat} (hp : 0 < refs l b) :
    ∃ h, some h ∈ l ∧ h.block_ = b := by
  unfold refs at hp
  rw [List.countP_pos_iff] at hp
  obtain ⟨x, hx, hpx⟩ := hp
  cases x with
  | none => simp [pointsTo] at hpx
  | some h => exact ⟨h, hx, by simpa [pointsTo] using hpx⟩

/-! ### Memory -/

@[simp] theorem setBlock_blocks (m : Mem α) (p : Nat) (x : Option (ControlBlock α)) (a : Nat) :
    (m.setBlock p x).blocks a = if a = p then x else m.blocks a := rfl

@[simp] theorem setBlock_next (m : Mem α) (p : Nat) (x : Option (ControlBlock α)) :
    (m.setBlock p x).next = m.next := rfl

@[simp] theorem setBlock_trace (m : Mem α) (p : Nat) (x : Option (ControlBlock α)) :
    (m.setBlock p x).trace = m.trace := rfl

@[simp] theorem log_blocks (m : Mem α) (es : List Event) : (m.log es).blocks = m.blocks := rfl

@[simp] theorem log_next (m : Mem α) (es : List Event) : (m.log es).next = m.next := rfl

@[simp] theorem log_trace (m : Mem α) (es : List Event) :
    (m.log es).trace = m.trace ++ es := rfl

theorem deref_of_ne {m : Mem α} {p : Nat} (hp : p ≠ 0) : m.deref p = m.blocks p := by
  simp [Mem.deref, hp]

theorem deref_zero (m : Mem α) : m.deref 0 = none := by
  simp [Mem.deref]

theorem deref_eq_some {m : Mem α} {p : Nat} {blk : ControlBlock α}
    (h : m.deref p = some blk) : p ≠ 0 ∧ m.blocks p = some blk := by
  unfold Mem.deref at h
  by_cases hp : p = 0
  · simp [hp] at h
  · simpa [hp] using h

theorem destroyCount_of_trace {m m1 : Mem α} {es : List Event} (h : m1.trace = m.trace ++ es)
    (b : Nat) : destroyCount m1 b = destroyCount m b + es.countP (Event.isDestroyObject b) := by
  unfold destroyCount
  rw [h, List.countP_append]

theorem deallocCount_of_trace {m m1 : Mem α} {es : List Event} (h : m1.trace = m.trace ++ es)
    (b : Nat) : deallocCount m1 b = deallocCount m b + es.countP (Event.isDeallocate b) := by
  unfold deallocCount
  rw [h, List.countP_append]

theorem destroyCount_of_trace_eq {m m1 : Mem α} (h : m1.trace = m.trace) (b : Nat) :
    destroyCount m1 b = destroyCount m b := by
  unfold destroyCount
  rw [h]

theorem deallocCount_of_trace_eq {m m1 : Mem α} (h : m1.trace = m.trace) (b : Nat) :
    deallocCount m1 b = deallocCount m b := by
  unfold deallocCount
  rw [h]

/-- What `destroy_object` does to a constructed block. -/
theorem destroy_object_spec {m : Mem α} {b0 : Nat} {blk : ControlBlock α}
    (hb : m.deref b0 = some blk) :
    ∃ m1 k e, destroy_object m b0 = some m1 ∧ m1.next = m.next ∧
      m1.trace = m.trace ++ [e] ∧ e.isDestroyObject b0 = true ∧
      (∀ b, e.isDestroyObject b = decide (b0 = b)) ∧ (∀ b, e.isDeallocate b = false) ∧
      (∀ b, b ≠ b0 → m1.blocks b = m.blocks b) ∧
      m1.blocks b0 = some { shared_count := blk.shared_count, weak_count := blk.weak_count,
                            kind := k } := by
  obtain ⟨hne, hbl⟩ := deref_eq_some hb
  cases hk : blk.kind with
  | ControlBlockRegular ptr del alloc =>
    simp only [destroy_object, hb, hk]
    refine ⟨_, blk.kind, _, rfl, rfl, rfl, by simp [Event.isDestroyObject],
      fun b => by simp [Event.isDestroyObject], fun b => by simp [Event.isDeallocate],
      fun b _ => rfl, ?_⟩
    simp [hbl]
  | ControlBlockMakeShared st ptr alloc =>
    simp only [destroy_object, hb, hk]
    refine ⟨_, BlockKind.ControlBlockMakeShared none ptr alloc, _, rfl, rfl, rfl,
      by simp [Event.isDestroyObject],
      fun b => by simp [Event.isDestroyObject], fun b => by simp [Event.isDeallocate],
      fun b hbne => by simp [hbne], ?_⟩
    simp

/-- What `destroy_and_deallocate_block` does to a constructed block. -/
theorem destroy_and_deallocate_block_spec {m : Mem α} {b0 : Nat} {blk : ControlBlock α}
    (hb : m.deref b0 = some blk) :
    ∃ m1 e, destroy_and_deallocate_block m b0 = some m1 ∧ m1.next = m.next ∧
      m1.trace = m.trace ++ [e] ∧ e.isDeallocate b0 = true ∧
      (∀ b, e.isDeallocate b = decide (b0 = b)) ∧ (∀ b, e.isDestroyObject b = false) ∧
      (∀ b, b ≠ b0 → m1.blocks b = m.blocks b) ∧ m1.blocks b0 = none := by
  cases hk : blk.kind with
  | ControlBlockRegular ptr del alloc =>
    simp only [destroy_and_deallocate_block, hb, hk]
    exact ⟨_, _, rfl, rfl, rfl, by simp [Event.isDeallocate],
      fun b => by simp [Event.isDeallocate], fun b => by simp [Event.isDestroyObject],
      fun b hbne => by simp [hbne], by simp⟩
  | ControlBlockMakeShared st ptr alloc =>
    simp only [destroy_and_deallocate_block, hb, hk]
    exact ⟨_, _, rfl, rfl, rfl, by simp [Event.isDeallocate],
      fun b => by simp [Event.isDeallocate], fun b => by simp [Event.isDestroyObject],
      fun b hbne => by simp [hbne], by simp⟩

/-- What `~SharedPtr()` does for a handle on a constructed block. -/
theorem SharedPtr.shared_destructor_spec {m : Mem α} {h : Handle} {blk : ControlBlock α}
    (hb : m.deref h.block_ = some blk) :
    ∃ m1 es k, SharedPtr.destructor m h = some m1 ∧ m1.next = m.next ∧
      m1.trace = m.trace ++ es ∧
      (∀ b, b ≠ h.block_ → m1.blocks b = m.blocks b) ∧
      (∀ b, es.countP (Event.isDestroyObject b) =
        if b = h.block_ ∧ size_dec blk.shared_count = 0 then 1 else 0) ∧
      (∀ b, es.countP (Event.isDeallocate b) =
        if b = h.block_ ∧ size_dec blk.shared_count = 0 ∧ blk.weak_count = 0 then 1 else 0) ∧
      m1.blocks h.block_ =
        if size_dec blk.shared_count = 0 ∧ blk.weak_count = 0 then none
        else some { shared_count := size_dec blk.shared_count, weak_count := blk.weak_count,
                    kind := k } := by
  obtain ⟨hne, hbl⟩ := deref_eq_some hb
  have hnull : ¬ (h.block_ = 0 ∧ h.object_ = ObjPtr.null) := fun hc => hne hc.1
  have hb1 : (m.setBlock h.block_ (some { blk with shared_count := size_dec blk.shared_count })).deref
      h.block_ = some { blk with shared_count := size_dec blk.shared_count } := by
    rw [deref_of_ne hne]
    simp
  by_cases hs : size_dec blk.shared_count = 0
  · obtain ⟨m2, k, e, hd, hn2, ht2, _, he1, he2, hbo2, hbb2⟩ := destroy_object_spec hb1
    by_cases hw : blk.weak_count = 0
    · have hb2 : m2.deref h.block_ =
          some (ControlBlock.mk (size_dec blk.shared_count) blk.weak_count k) := by
        rw [deref_of_ne hne]
        exact hbb2
      obtain ⟨m3, e3, hd3, hn3, ht3, _, he31, he32, hbo3, hbb3⟩ :=
        destroy_and_deallocate_block_spec hb2
      refine ⟨m3, [e, e3], k, ?_, ?_, ?_, ?_, ?_, ?_, ?_⟩
      · simp only [SharedPtr.destructor, hnull, if_false, hb]
        rw [if_neg (not_not.mpr hs), if_neg (not_not.mpr hw), hd]
        exact hd3
      · rw [hn3, hn2]
        rfl
      · rw [ht3, ht2]
        simp
      · intro b hbne
        rw [hbo3 b hbne, hbo2 b hbne]
        simp [hbne]
      · intro b
        by_cases hbe : b = h.block_
        · subst hbe
          simp [List.countP_cons, he1, he32, hs]
        · have : ¬ h.block_ = b := fun hc => hbe hc.symm
          simp [List.countP_cons, he1, he32, hbe, this]
      · intro b
        by_cases hbe : b = h.block_
        · subst hbe
          simp [List.countP_cons, he2, he31, hs, hw]
        · have : ¬ h.block_ = b := fun hc => hbe hc.symm
          simp [List.countP_cons, he2, he31, hbe, this]
      · simp [hbb3, hs, hw]
    · refine ⟨m2, [e], k, ?_, ?_, ?_, ?_, ?_, ?_, ?_⟩
      · simp only [SharedPtr.destructor, hnull, if_false, hb]
        rw [if_neg (not_not.mpr hs), if_pos hw, hd]
      · rw [hn2]
        rfl
      · rw [ht2]
        simp
      · intro b hbne
        rw [hbo2 b hbne]
        simp [hbne]
      · intro b
        by_cases hbe : b = h.block_
        · subst hbe
          simp [List.countP_cons, he1, hs]
        · have : ¬ h.block_ = b := fun hc => hbe hc.symm
          simp [List.countP_cons, he1, hbe, this]
      · intro b
        simp [List.countP_cons, he2, hw]
      · simp [hbb2, hw]
  · refine ⟨m.setBlock h.block_ (some { blk with shared_count := size_dec blk.shared_count }),
      [], blk.kind, ?_, ?_, ?_, ?_, ?_, ?_, ?_⟩
    · simp only [SharedPtr.destructor, hnull, if_false, hb]
      rw [if_pos hs]
    · rfl
    · simp
    · intro b hbne
      simp [hbne]
    · intro b
      simp [hs]
    · intro b
      simp [hs]
    · simp [hs]

/-- What `~SharedPtr()` does for an empty handle. -/
theorem SharedPtr.shared_destructor_null (m : Mem α) {h : Handle} (hb : h.block_ = 0)
    (ho : h.object_ = ObjPtr.null) : SharedPtr.destructor m h = some m := by
  simp [SharedPtr.destructor, hb, ho]

/-- What `~WeakPtr()` does for a handle on a constructed block. -/
theorem WeakPtr.weak_destructor_spec {m : Mem α} {h : Handle} {blk : ControlBlock α}
    (hb : m.deref h.block_ = some blk) :
    ∃ m1 es, WeakPtr.destructor m h = some m1 ∧ m1.next = m.next ∧
      m1.trace = m.trace ++ es ∧
      (∀ b, b ≠ h.block_ → m1.blocks b = m.blocks b) ∧
      (∀ b, es.countP (Event.isDestroyObject b) = 0) ∧
      (∀ b, es.countP (Event.isDeallocate b) =
        if b = h.block_ ∧ blk.shared_count = 0 ∧ size_dec blk.weak_count = 0 then 1 else 0) ∧
      m1.blocks h.block_ =
        if blk.shared_count = 0 ∧ size_dec blk.weak_count = 0 then none
        else some { shared_count := blk.shared_count, weak_count := size_dec blk.weak_count,
                    kind := blk.kind } := by
  obtain ⟨hne, hbl⟩ := deref_eq_some hb
  have hnull : ¬ (h.block_ = 0 ∧ h.object_ = ObjPtr.null) := fun hc => hne hc.1
  have hb1 : (m.setBlock h.block_ (some { blk with weak_count := size_dec blk.weak_count })).deref
      h.block_ = some { blk with weak_count := size_dec blk.weak_count } := by
    rw [deref_of_ne hne]
    simp
  by_cases hs : blk.shared_count = 0 ∧ size_dec blk.weak_count = 0
  · obtain ⟨m3, e3, hd3, hn3, ht3, _, he31, he32, hbo3, hbb3⟩ :=
      destroy_and_deallocate_block_spec hb1
    refine ⟨m3, [e3], ?_, ?_, ?_, ?_, ?_, ?_, ?_⟩
    · simp only [WeakPtr.destructor, hnull, if_false, hb]
      rw [if_neg (by simp [hs.1, hs.2]), hd3]
    · rw [hn3]
      rfl
    · rw [ht3]
      simp
    · intro b hbne
      rw [hbo3 b hbne]
      simp [hbne]
    · intro b
      simp [List.countP_cons, he32]
    · intro b
      by_cases hbe : b = h.block_
      · subst hbe
        simp [List.countP_cons, he31, hs.1, hs.2]
      · have : ¬ h.block_ = b := fun hc => hbe hc.symm
        simp [List.countP_cons, he31, hbe, this]
    · simp [hbb3, hs.1, hs.2]
  · have hs2 : blk.shared_count ≠ 0 ∨ size_dec blk.weak_count ≠ 0 := by
      by_cases h1 : blk.shared_count = 0
      · right
        exact fun h2 => hs ⟨h1, h2⟩
      · left
        exact h1
    refine ⟨m.setBlock h.block_ (some { blk with weak_count := size_dec blk.weak_count }), [],
      ?_, ?_, ?_, ?_, ?_, ?_, ?_⟩
    · simp only [WeakPtr.destructor, hnull, if_false, hb]
      rw [if_pos hs2]
    · rfl
    · simp
    · intro b hbne
      simp [hbne]
    · intro b
      simp
    · intro b
      simp [hs]
    · simp [hs]

/-- What `~WeakPtr()` does for an empty handle. -/
theorem WeakPtr.weak_destructor_null (m : Mem α) {h : Handle} (hb : h.block_ = 0)
    (ho : h.object_ = ObjPtr.null) : WeakPtr.destructor m h = some m := by
  simp [WeakPtr.destructor, hb, ho]

/-! ### The counting invariant -/

theorem pointsTo_some (b : Nat) (h : Handle) : pointsTo b (some h) = decide (h.block_ = b) := rfl

theorem refs_cons_some (h : Handle) (l : List (Option Handle)) (b : Nat) :
    refs (some h :: l) b = refs l b + if h.block_ = b then 1 else 0 := by
  rw [refs_cons, pointsTo_some]
  simp

theorem nullOk_of_cons {x : Option Handle} {l : List (Option Handle)} (h : nullOk (x :: l)) :
    nullOk l :=
  fun t ht hb => h t (List.mem_cons_of_mem _ ht) hb

theorem nullOk_cons {t : Handle} {l : List (Option Handle)} (ht : t.block_ = 0 → t.object_ = ObjPtr.null)
    (h : nullOk l) : nullOk (some t :: l) := by
  intro u hu hb
  rcases List.mem_cons.mp hu with he | hm
  · cases he
    exact ht hb
  · exact h u hm hb

theorem Inv.blocks_ne_zero {m : Mem α} {S W : List (Option Handle)} (hI : Inv m S W)
    {b : Nat} {blk : ControlBlock α} (hb : m.blocks b = some blk) : b ≠ 0 := by
  intro h0
  rw [h0, hI.null_free] at hb
  cases hb

theorem Inv.deref_eq {m : Mem α} {S W : List (Option Handle)} (hI : Inv m S W) (b : Nat) :
    m.deref b = m.blocks b := by
  by_cases hb : b = 0
  · rw [hb, deref_zero, hI.null_free]
  · exact deref_of_ne hb

theorem Inv.block_le_next {m : Mem α} {S W : List (Option Handle)} (hI : Inv m S W)
    {b : Nat} {blk : ControlBlock α} (hb : m.blocks b = some blk) : b ≤ m.next := by
  by_contra hlt
  have := (hI.fresh b (by omega)).1
  rw [this] at hb
  cases hb

/-- A block that a strong handle points at is constructed. -/
theorem Inv.block_of_strong {m : Mem α} {S W : List (Option Handle)} (hI : Inv m S W)
    {b : Nat} (hb : b ≠ 0) (hr : 0 < refs S b) : ∃ blk, m.blocks b = some blk := by
  cases hm : m.blocks b with
  | none =>
    have := ((hI.dead b hm).1 hb).1
    omega
  | some blk => exact ⟨blk, rfl⟩

/-- A block that a weak handle points at is constructed. -/
theorem Inv.block_of_weak {m : Mem α} {S W : List (Option Handle)} (hI : Inv m S W)
    {b : Nat} (hb : b ≠ 0) (hr : 0 < refs W b) : ∃ blk, m.blocks b = some blk := by
  cases hm : m.blocks b with
  | none =>
    have := ((hI.dead b hm).1 hb).2
    omega
  | some blk => exact ⟨blk, rfl⟩

/-- The invariant only depends on how many handles point at each block. -/
theorem Inv.congr {m : Mem α} {S W S1 W1 : List (Option Handle)} (hI : Inv m S W)
    (hS : ∀ b, b ≠ 0 → refs S1 b = refs S b) (hW : ∀ b, b ≠ 0 → refs W1 b = refs W b)
    (hbS : live S1 < SIZE_MOD) (hbW : live W1 < SIZE_MOD)
    (hnS : nullOk S1) (hnW : nullOk W1) : Inv m S1 W1 where
  null_free := hI.null_free
  fresh := hI.fresh
  counts := fun b blk hb => by
    rw [hS b (hI.blocks_ne_zero hb), hW b (hI.blocks_ne_zero hb)]
    exact hI.counts b blk hb
  held := fun b blk hb => by
    rw [hS b (hI.blocks_ne_zero hb), hW b (hI.blocks_ne_zero hb)]
    exact hI.held b blk hb
  live_trace := fun b blk hb => by
    rw [hS b (hI.blocks_ne_zero hb)]
    exact hI.live_trace b blk hb
  dead := fun b hb => by
    refine ⟨fun hne => ?_, (hI.dead b hb).2⟩
    rw [hS b hne, hW b hne]
    exact (hI.dead b hb).1 hne
  bound := ⟨hbS, hbW⟩
  strong_null := hnS
  weak_null := hnW

/-- Destroying a strong handle keeps the invariant, and cannot fail. -/
theorem Inv.shared_destructor {m : Mem α} {S W : List (Option Handle)} {t : Handle}
    (hI : Inv m (some t :: S) W) :
    ∃ m1, SharedPtr.destructor m t = some m1 ∧ Inv m1 S W := by
  have hliveS1 : live S + 1 < SIZE_MOD := by
    have := hI.bound.1
    rw [live_cons] at this
    simpa using this
  have hliveS : live S < SIZE_MOD := by omega
  by_cases h0 : t.block_ = 0
  · have ho : t.object_ = ObjPtr.null := hI.strong_null t (List.mem_cons_self _ _) h0
    refine ⟨m, SharedPtr.shared_destructor_null m h0 ho, ?_⟩
    refine hI.congr (fun b hb => ?_) (fun _ _ => rfl) hliveS hI.bound.2
      (nullOk_of_cons hI.strong_null) hI.weak_null
    rw [refs_cons_some, h0]
    have : ¬ 0 = b := fun hc => hb hc.symm
    simp [this]
  · have hpos : 0 < refs (some t :: S) t.block_ := by
      rw [refs_cons_some]
      simp
    obtain ⟨blk, hblk⟩ := hI.block_of_strong h0 hpos
    have hder : m.deref t.block_ = some blk := by
      rw [deref_of_ne h0]
      exact hblk
    obtain ⟨hsc, hwc⟩ := hI.counts _ _ hblk
    have hlt := hI.live_trace _ _ hblk
    rw [refs_cons_some] at hsc hlt
    simp only [if_true] at hsc hlt
    have hle : refs S t.block_ ≤ live S := refs_le_live S t.block_
    have hsd : size_dec blk.shared_count = refs S t.block_ := by
      rw [size_dec_eq (by omega) (by omega), hsc]
      omega
    obtain ⟨m1, es, k, hd, hn, ht, hbo, hcd, hca, hbb⟩ := SharedPtr.shared_destructor_spec hder
    refine ⟨m1, hd, ?_⟩
    have hD : ∀ b, destroyCount m1 b = destroyCount m b +
        if b = t.block_ ∧ refs S t.block_ = 0 then 1 else 0 := by
      intro b
      rw [destroyCount_of_trace ht, hcd b, hsd]
    have hA : ∀ b, deallocCount m1 b = deallocCount m b +
        if b = t.block_ ∧ refs S t.block_ = 0 ∧ refs W t.block_ = 0 then 1 else 0 := by
      intro b
      rw [deallocCount_of_trace ht, hca b, hsd, hwc]
    rw [hsd, hwc] at hbb
    have hR : ∀ b, b ≠ t.block_ → refs (some t :: S) b = refs S b := by
      intro b hb
      rw [refs_cons_some]
      have : ¬ t.block_ = b := fun hc => hb hc.symm
      simp [this]
    constructor
    · rw [hbo 0 (fun hc => h0 hc.symm)]
      exact hI.null_free
    · intro b hb
      rw [hn] at hb
      have hne : b ≠ t.block_ := by
        have := hI.block_le_next hblk
        omega
      rw [hbo b hne, hD b, hA b]
      simp only [hne, false_and, if_false, Nat.add_zero]
      exact hI.fresh b hb
    · intro b blk1 hb1
      by_cases hbe : b = t.block_
      · subst hbe
        rw [hbb] at hb1
        split at hb1
        · cases hb1
        · cases hb1
          exact ⟨rfl, rfl⟩
      · rw [hbo b hbe] at hb1
        rw [← hR b hbe]
        exact hI.counts b blk1 hb1
    · intro b blk1 hb1
      by_cases hbe : b = t.block_
      · subst hbe
        rw [hbb] at hb1
        split at hb1
        · cases hb1
        · rename_i hc
          omega
      · rw [hbo b hbe] at hb1
        rw [← hR b hbe]
        exact hI.held b blk1 hb1
    · intro b blk1 hb1
      by_cases hbe : b = t.block_
      · subst hbe
        rw [hbb] at hb1
        rw [hD, hA]
        split at hb1
        · cases hb1
        · rename_i hc
          have h1 := hlt.1
          have h2 := hlt.2
          rw [if_neg (by omega)] at h2
          rw [h1, h2]
          constructor
          · rw [if_neg (by intro hx; exact hc ⟨hx.2.1, hx.2.2⟩)]
          · by_cases hz : refs S t.block_ = 0
            · simp [hz]
            · simp [hz]
      · rw [hbo b hbe] at hb1
        rw [hD b, hA b, ← hR b hbe]
        simp only [hbe, false_and, if_false, Nat.add_zero]
        exact hI.live_trace b blk1 hb1
    · intro b hb1
      by_cases hbe : b = t.block_
      · subst hbe
        rw [hbb] at hb1
        rw [hD, hA]
        split at hb1
        · rename_i hc
          have h1 := hlt.1
          have h2 := hlt.2
          rw [if_neg (by omega)] at h2
          rw [h1, h2]
          simp [hc.1, hc.2]
        · cases hb1
      · rw [hbo b hbe] at hb1
        rw [hD b, hA b]
        simp only [hbe, false_and, if_false, Nat.add_zero]
        have := hI.dead b hb1
        refine ⟨fun hne => ?_, this.2⟩
        rw [← hR b hbe]
        exact this.1 hne
    · exact ⟨hliveS, hI.bound.2⟩
    · exact nullOk_of_cons hI.strong_null
    · exact hI.weak_null

/-- Destroying a weak handle keeps the invariant, and cannot fail. -/
theorem Inv.weak_destructor {m : Mem α} {S W : List (Option Handle)} {t : Handle}
    (hI : Inv m S (some t :: W)) :
    ∃ m1, WeakPtr.destructor m t = some m1 ∧ Inv m1 S W := by
  have hliveW1 : live W + 1 < SIZE_MOD := by
    have := hI.bound.2
    rw [live_cons] at this
    simpa using this
  have hliveW : live W < SIZE_MOD := by omega
  by_cases h0 : t.block_ = 0
  · have ho : t.object_ = ObjPtr.null := hI.weak_null t (List.mem_cons_self _ _) h0
    refine ⟨m, WeakPtr.weak_destructor_null m h0 ho, ?_⟩
    refine hI.congr (fun _ _ => rfl) (fun b hb => ?_) hI.bound.1 hliveW
      hI.strong_null (nullOk_of_cons hI.weak_null)
    rw [refs_cons_some, h0]
    have : ¬ 0 = b := fun hc => hb hc.symm
    simp [this]
  · have hpos : 0 < refs (some t :: W) t.block_ := by
      rw [refs_cons_some]
      simp
    obtain ⟨blk, hblk⟩ := hI.block_of_weak h0 hpos
    have hder : m.deref t.block_ = some blk := by
      rw [deref_of_ne h0]
      exact hblk
    obtain ⟨hsc, hwc⟩ := hI.counts _ _ hblk
    have hlt := hI.live_trace _ _ hblk
    rw [refs_cons_some] at hwc
    simp only [if_true] at hwc
    have hle : refs W t.block_ ≤ live W := refs_le_live W t.block_
    have hsd : size_dec blk.weak_count = refs W t.block_ := by
      rw [size_dec_eq (by omega) (by omega), hwc]
      omega
    obtain ⟨m1, es, hd, hn, ht, hbo, hcd, hca, hbb⟩ := WeakPtr.weak_destructor_spec hder
    refine ⟨m1, hd, ?_⟩
    have hD : ∀ b, destroyCount m1 b = destroyCount m b := by
      intro b
      rw [destroyCount_of_trace ht, hcd b]
      rfl
    have hA : ∀ b, deallocCount m1 b = deallocCount m b +
        if b = t.block_ ∧ refs S t.block_ = 0 ∧ refs W t.block_ = 0 then 1 else 0 := by
      intro b
      rw [deallocCount_of_trace ht, hca b, hsd, hsc]
    rw [hsd, hsc] at hbb
    have hR : ∀ b, b ≠ t.block_ → refs (some t :: W) b = refs W b := by
      intro b hb
      rw [refs_cons_some]
      have : ¬ t.block_ = b := fun hc => hb hc.symm
      simp [this]
    constructor
    · rw [hbo 0 (fun hc => h0 hc.symm)]
      exact hI.null_free
    · intro b hb
      rw [hn] at hb
      have hne : b ≠ t.block_ := by
        have := hI.block_le_next hblk
        omega
      rw [hbo b hne, hD b, hA b]
      simp only [hne, false_and, if_false, Nat.add_zero]
      exact hI.fresh b hb
    · intro b blk1 hb1
      by_cases hbe : b = t.block_
      · subst hbe
        rw [hbb] at hb1
        split at hb1
        · cases hb1
        · cases hb1
          exact ⟨rfl, rfl⟩
      · rw [hbo b hbe] at hb1
        rw [← hR b hbe]
        exact hI.counts b blk1 hb1
    · intro b blk1 hb1
      by_cases hbe : b = t.block_
      · subst hbe
        rw [hbb] at hb1
        split at hb1
        · cases hb1
        · rename_i hc
          omega
      · rw [hbo b hbe] at hb1
        rw [← hR b hbe]
        exact hI.held b blk1 hb1
    · intro b blk1 hb1
      by_cases hbe : b = t.block_
      · subst hbe
        rw [hbb] at hb1
        rw [hD, hA]
        split at hb1
        · cases hb1
        · rename_i hc
          rw [hlt.1, hlt.2]
          refine ⟨?_, rfl⟩
          rw [if_neg (by intro hx; exact hc ⟨hx.2.1, hx.2.2⟩)]
      · rw [hbo b hbe] at hb1
        rw [hD b, hA b]
        simp only [hbe, false_and, if_false, Nat.add_zero]
        exact hI.live_trace b blk1 hb1
    · intro b hb1
      by_cases hbe : b = t.block_
      · subst hbe
        rw [hbb] at hb1
        rw [hD, hA]
        split at hb1
        · rename_i hc
          rw [hlt.1, hlt.2]
          simp [hc.1, hc.2]
        · cases hb1
      · rw [hbo b hbe] at hb1
        rw [hD b, hA b]
        simp only [hbe, false_and, if_false, Nat.add_zero]
        have := hI.dead b hb1
        refine ⟨fun hne => ?_, this.2⟩
        rw [← hR b hbe]
        exact this.1 hne
    · exact ⟨hI.bound.1, hliveW⟩
    · exact hI.strong_null
    · exact nullOk_of_cons hI.weak_null

/-- Writing one block together with the matching change of the handles keeps the
invariant. -/
theorem Inv.update {m m1 : Mem α} {S W S1 W1 : List (Option Handle)} (hI : Inv m S W)
    (b0 : Nat) (blk1 : ControlBlock α) (hb0 : b0 ≠ 0) (hblk : m1.blocks b0 = some blk1)
    (hbo : ∀ b, b ≠ b0 → m1.blocks b = m.blocks b)
    (hD : ∀ b, destroyCount m1 b = destroyCount m b)
    (hA : ∀ b, deallocCount m1 b = deallocCount m b)
    (hn : m.next ≤ m1.next) (hle : b0 ≤ m1.next)
    (hS : ∀ b, b ≠ b0 → refs S1 b = refs S b) (hW : ∀ b, b ≠ b0 → refs W1 b = refs W b)
    (hsc : blk1.shared_count = refs S1 b0) (hwc : blk1.weak_count = refs W1 b0)
    (hheld : 0 < refs S1 b0 + refs W1 b0)
    (htr : deallocCount m b0 = 0 ∧ destroyCount m b0 = if refs S1 b0 = 0 then 1 else 0)
    (hbS : live S1 < SIZE_MOD) (hbW : live W1 < SIZE_MOD)
    (hnS : nullOk S1) (hnW : nullOk W1) : Inv m1 S1 W1 where
  null_free := by
    rw [hbo 0 (fun hc => hb0 hc.symm)]
    exact hI.null_free
  fresh := fun b hb => by
    have hne : b ≠ b0 := by omega
    rw [hbo b hne, hD b, hA b]
    exact hI.fresh b (by omega)
  counts := fun b blk hb => by
    by_cases hbe : b = b0
    · subst hbe
      rw [hblk] at hb
      cases hb
      exact ⟨hsc, hwc⟩
    · rw [hbo b hbe] at hb
      rw [hS b hbe, hW b hbe]
      exact hI.counts b blk hb
  held := fun b blk hb => by
    by_cases hbe : b = b0
    · subst hbe
      exact hheld
    · rw [hbo b hbe] at hb
      rw [hS b hbe, hW b hbe]
      exact hI.held b blk hb
  live_trace := fun b blk hb => by
    rw [hD b, hA b]
    by_cases hbe : b = b0
    · subst hbe
      exact htr
    · rw [hbo b hbe] at hb
      rw [hS b hbe]
      exact hI.live_trace b blk hb
  dead := fun b hb => by
    have hbe : b ≠ b0 := by
      intro hc
      rw [hc, hblk] at hb
      cases hb
    rw [hbo b hbe] at hb
    rw [hD b, hA b, hS b hbe, hW b hbe]
    exact hI.dead b hb
  bound := ⟨hbS, hbW⟩
  strong_null := hnS
  weak_null := hnW

/-- A new strong handle on a block whose object is alive, with `shared_count`
incremented, keeps the invariant. -/
theorem Inv.shared_acquire {m : Mem α} {S W : List (Option Handle)} (hI : Inv m S W)
    {b0 : Nat} {blk : ControlBlock α} (hblk : m.blocks b0 = some blk)
    (hsc : blk.shared_count ≠ 0) (hcap : live S + 1 < SIZE_MOD) (o : ObjPtr) :
    Inv (m.setBlock b0 (some { blk with shared_count := size_inc blk.shared_count }))
      (some { block_ := b0, object_ := o } :: S) W := by
  have hb0 := hI.blocks_ne_zero hblk
  obtain ⟨hc1, hc2⟩ := hI.counts _ _ hblk
  have hle : refs S b0 ≤ live S := refs_le_live S b0
  refine hI.update b0 { blk with shared_count := size_inc blk.shared_count } hb0 (by simp)
    (fun b hb => by simp [hb]) (fun b => rfl) (fun b => rfl)
    (Nat.le_refl _) (hI.block_le_next hblk) (fun b hb => ?_) (fun _ _ => rfl) ?_ hc2 ?_ ?_ ?_
    hI.bound.2 (nullOk_cons (fun h => absurd h hb0) hI.strong_null) hI.weak_null
  · rw [refs_cons_some]
    have : ¬ b0 = b := fun hc => hb hc.symm
    simp [this]
  · rw [refs_cons_some]
    simp only [if_true]
    rw [← hc1]
    exact size_inc_eq (n := blk.shared_count) (by omega)
  · rw [refs_cons_some]
    simp
  · have := hI.live_trace _ _ hblk
    rw [refs_cons_some]
    simp only [if_true]
    rw [if_neg (by omega)] at this
    rw [if_neg (by omega)]
    exact this
  · rw [live_cons]
    simpa using hcap

/-- A new weak handle on a constructed block, with `weak_count` incremented, keeps the
invariant. -/
theorem Inv.weak_acquire {m : Mem α} {S W : List (Option Handle)} (hI : Inv m S W)
    {b0 : Nat} {blk : ControlBlock α} (hblk : m.blocks b0 = some blk)
    (hcap : live W + 1 < SIZE_MOD) (o : ObjPtr) :
    Inv (m.setBlock b0 (some { blk with weak_count := size_inc blk.weak_count }))
      S (some { block_ := b0, object_ := o } :: W) := by
  have hb0 := hI.blocks_ne_zero hblk
  obtain ⟨hc1, hc2⟩ := hI.counts _ _ hblk
  have hle : refs W b0 ≤ live W := refs_le_live W b0
  refine hI.update b0 { blk with weak_count := size_inc blk.weak_count } hb0 (by simp)
    (fun b hb => by simp [hb]) (fun b => rfl) (fun b => rfl)
    (Nat.le_refl _) (hI.block_le_next hblk) (fun _ _ => rfl) (fun b hb => ?_) hc1 ?_ ?_
    (hI.live_trace _ _ hblk) hI.bound.1 ?_ hI.strong_null
    (nullOk_cons (fun h => absurd h hb0) hI.weak_null)
  · rw [refs_cons_some]
    have : ¬ b0 = b := fun hc => hb hc.symm
    simp [this]
  · rw [refs_cons_some]
    simp only [if_true]
    rw [← hc2]
    exact size_inc_eq (n := blk.weak_count) (by omega)
  · rw [refs_cons_some]
    simp
  · rw [live_cons]
    simpa using hcap

/-- A block constructed at a fresh address with its first strong handle keeps the
invariant. -/
theorem Inv.construct {m : Mem α} {S W : List (Option Handle)} (hI : Inv m S W)
    (hcap : live S + 1 < SIZE_MOD) (es : List Event)
    (hes : ∀ b, es.countP (Event.isDestroyObject b) = 0 ∧ es.countP (Event.isDeallocate b) = 0)
    (k : BlockKind α) (o : ObjPtr) :
    Inv (Mem.setBlock { m with next := m.next + 1, trace := m.trace ++ es } (m.next + 1)
        (some { shared_count := 1, weak_count := 0, kind := k }))
      (some { block_ := m.next + 1, object_ := o } :: S) W := by
  have hfr := hI.fresh (m.next + 1) (by omega)
  have hdead := (hI.dead _ hfr.1).1 (by omega)
  refine hI.update (m.next + 1) { shared_count := 1, weak_count := 0, kind := k }
    (by omega) (by simp) (fun b hb => by simp [hb])
    (fun b => ?_) (fun b => ?_) (by simp) (by simp) (fun b hb => ?_) (fun _ _ => rfl) ?_ ?_ ?_ ?_ ?_
    hI.bound.2 (nullOk_cons (fun h => by simp at h) hI.strong_null) hI.weak_null
  · rw [@destroyCount_of_trace _ m _ es rfl, (hes b).1]
    rfl
  · rw [@deallocCount_of_trace _ m _ es rfl, (hes b).2]
    rfl
  · rw [refs_cons_some]
    have : ¬ m.next + 1 = b := fun hc => hb hc.symm
    simp [this]
  · rw [refs_cons_some, hdead.1]
    simp
  · rw [hdead.2]
  · rw [refs_cons_some]
    simp
  · rw [refs_cons_some, hdead.1]
    simp only [if_true]
    exact ⟨hfr.2.2, hfr.2.1⟩
  · rw [live_cons]
    simpa using hcap

/-- An allocation that constructs nothing keeps the invariant. -/
theorem Inv.allocate_only {m : Mem α} {S W : List (Option Handle)} (hI : Inv m S W)
    (es : List Event)
    (hes : ∀ b, es.countP (Event.isDestroyObject b) = 0 ∧ es.countP (Event.isDeallocate b) = 0) :
    Inv { m with next := m.next + 1, trace := m.trace ++ es } S W := by
  have hD : ∀ b, destroyCount { m with next := m.next + 1, trace := m.trace ++ es } b
      = destroyCount m b := by
    intro b
    rw [@destroyCount_of_trace _ m _ es rfl, (hes b).1]
    rfl
  have hA : ∀ b, deallocCount { m with next := m.next + 1, trace := m.trace ++ es } b
      = deallocCount m b := by
    intro b
    rw [@deallocCount_of_trace _ m _ es rfl, (hes b).2]
    rfl
  constructor
  · exact hI.null_free
  · intro b hb
    rw [hD, hA]
    exact hI.fresh b (by simp at hb; omega)
  · exact hI.counts
  · exact hI.held
  · intro b blk hb
    rw [hD, hA]
    exact hI.live_trace b blk hb
  · intro b hb
    rw [hD, hA]
    exact hI.dead b hb
  · exact hI.bound
  · exact hI.strong_null
  · exact hI.weak_null

/-! ### Handle stores and the invariant -/

theorem refs_append_eq_cons (l : List (Option Handle)) (x : Option Handle) (b : Nat) :
    refs (l ++ [x]) b = refs (x :: l) b := by
  rw [refs_append_one, refs_cons]

theorem live_append_eq_cons (l : List (Option Handle)) (x : Option Handle) :
    live (l ++ [x]) = live (x :: l) := by
  rw [live_append_one, live_cons]

theorem nullOk_append_one {t : Handle} {l : List (Option Handle)}
    (ht : t.block_ = 0 → t.object_ = ObjPtr.null) (h : nullOk l) : nullOk (l ++ [some t]) := by
  intro u hu hb
  rcases List.mem_append.mp hu with hm | he
  · exact h u hm hb
  · simp only [List.mem_singleton, Option.some.injEq] at he
    subst he
    exact ht hb

theorem nullOk_set {l : List (Option Handle)} (i : Nat) {x : Option Handle} (h : nullOk l)
    (hx : ∀ t, x = some t → t.block_ = 0 → t.object_ = ObjPtr.null) : nullOk (l.set i x) := by
  intro u hu hb
  rcases List.mem_or_eq_of_mem_set hu with hm | he
  · exact h u hm hb
  · exact hx u he.symm hb

theorem live_set_le {l : List (Option Handle)} {i : Nat} {h : Handle}
    (hg : getVar l i = some h) (x : Option Handle) : live (l.set i x) ≤ live l := by
  have := live_set hg x
  split at this <;> omega

theorem refs_set_null {l : List (Option Handle)} {i : Nat} {h : Handle}
    (hg : getVar l i = some h) {b : Nat} (hb : b ≠ 0) (o : ObjPtr) :
    refs (l.set i (some { block_ := 0, object_ := o })) b + (if h.block_ = b then 1 else 0)
      = refs l b := by
  have := refs_set hg (some { block_ := 0, object_ := o }) b
  rw [pointsTo_some, pointsTo_some] at this
  have h0 : ¬ (0 = b) := fun hc => hb hc.symm
  simpa [h0] using this

theorem refs_set_none {l : List (Option Handle)} {i : Nat} {h : Handle}
    (hg : getVar l i = some h) (b : Nat) :
    refs (l.set i none) b + (if h.block_ = b then 1 else 0) = refs l b := by
  have := refs_set hg none b
  rw [pointsTo_some] at this
  simpa [pointsTo] using this

theorem refs_set_some {l : List (Option Handle)} {i : Nat} {h : Handle}
    (hg : getVar l i = some h) (x : Handle) (b : Nat) :
    refs (l.set i (some x)) b + (if h.block_ = b then 1 else 0)
      = refs l b + if x.block_ = b then 1 else 0 := by
  have := refs_set hg (some x) b
  rw [pointsTo_some, pointsTo_some] at this
  simpa using this

theorem State.Ok.cap {s : State α} (h : s.Ok) :
    live s.strong + 2 < SIZE_MOD ∧ live s.weak + 2 < SIZE_MOD := by
  have h1 := h.2
  have h2 := HANDLE_CAP_lt
  constructor <;> omega

/-- A strong variable of a good state holds a handle that is empty or whose block is
constructed with `shared_count` at least one. -/
theorem State.Ok.strong_block {s : State α} (h : s.Ok) {i : Nat} {o : Handle}
    (hg : getVar s.strong i = some o) (hb : o.block_ ≠ 0) :
    ∃ blk, s.mem.blocks o.block_ = some blk ∧ blk.shared_count = refs s.strong o.block_ ∧
      blk.shared_count ≠ 0 := by
  have hpos := refs_pos_of_mem (getVar_mem hg)
  obtain ⟨blk, hblk⟩ := h.1.block_of_strong hb hpos
  refine ⟨blk, hblk, (h.1.counts _ _ hblk).1, ?_⟩
  rw [(h.1.counts _ _ hblk).1]
  omega

/-- A weak variable of a good state holds a handle that is empty or whose block is
constructed. -/
theorem State.Ok.weak_block {s : State α} (h : s.Ok) {i : Nat} {o : Handle}
    (hg : getVar s.weak i = some o) (hb : o.block_ ≠ 0) :
    ∃ blk, s.mem.blocks o.block_ = some blk ∧ blk.weak_count = refs s.weak o.block_ ∧
      blk.weak_count ≠ 0 := by
  have hpos := refs_pos_of_mem (getVar_mem hg)
  obtain ⟨blk, hblk⟩ := h.1.block_of_weak hb hpos
  refine ⟨blk, hblk, (h.1.counts _ _ hblk).2, ?_⟩
  rw [(h.1.counts _ _ hblk).2]
  omega

theorem SharedPtr.shared_copy_eq_some {m m1 : Mem α} {o h : Handle}
    (hc : SharedPtr.copy m o = some (m1, h)) :
    ∃ blk, m.deref o.block_ = some blk ∧
      m1 = m.setBlock o.block_ (some { blk with shared_count := size_inc blk.shared_count }) ∧
      h = { block_ := o.block_, object_ := o.object_ } := by
  unfold SharedPtr.copy at hc
  cases hd : m.deref o.block_ with
  | none => simp [hd] at hc
  | some blk =>
    simp only [hd, Option.some.injEq, Prod.mk.injEq] at hc
    exact ⟨blk, rfl, hc.1.symm, hc.2.symm⟩

theorem SharedPtr.fromBlock_eq_some {m m1 : Mem α} {b : Nat} {o : ObjPtr} {h : Handle}
    (hc : SharedPtr.fromBlock m b o = some (m1, h)) :
    ∃ blk, m.deref b = some blk ∧
      m1 = m.setBlock b (some { blk with shared_count := size_inc blk.shared_count }) ∧
      h = { block_ := b, object_ := o } := by
  unfold SharedPtr.fromBlock at hc
  cases hd : m.deref b with
  | none => simp [hd] at hc
  | some blk =>
    simp only [hd, Option.some.injEq, Prod.mk.injEq] at hc
    exact ⟨blk, rfl, hc.1.symm, hc.2.symm⟩

theorem WeakPtr.weak_copy_eq_some {m m1 : Mem α} {o h : Handle}
    (hc : WeakPtr.copy m o = some (m1, h)) :
    ∃ blk, m.deref o.block_ = some blk ∧
      m1 = m.setBlock o.block_ (some { blk with weak_count := size_inc blk.weak_count }) ∧
      h = { block_ := o.block_, object_ := o.object_ } := by
  unfold WeakPtr.copy at hc
  cases hd : m.deref o.block_ with
  | none => simp [hd] at hc
  | some blk =>
    simp only [hd, Option.some.injEq, Prod.mk.injEq] at hc
    exact ⟨blk, rfl, hc.1.symm, hc.2.symm⟩

/-- Copy construction from a strong variable keeps the invariant, with the copy as an
extra handle. -/
theorem State.Ok.shared_copy {s : State α} (hok : s.Ok) {i : Nat} {o h : Handle} {m1 : Mem α}
    (hg : getVar s.strong i = some o) (hc : SharedPtr.copy s.mem o = some (m1, h)) :
    Inv m1 (some h :: s.strong) s.weak := by
  obtain ⟨blk, hd, hm1, hh⟩ := SharedPtr.shared_copy_eq_some hc
  obtain ⟨hne, hbl⟩ := deref_eq_some hd
  obtain ⟨blk2, hbl2, _, hnz⟩ := hok.strong_block hg hne
  rw [hbl] at hbl2
  cases hbl2
  rw [hm1, hh]
  exact hok.1.shared_acquire hbl hnz (by have := hok.cap.1; omega) _

/-- Copy construction of a weak handle from a variable on a constructed block keeps the
invariant, with the copy as an extra handle. -/
theorem State.Ok.weak_copy {s : State α} (hok : s.Ok) {o h : Handle} {m1 : Mem α}
    (hc : WeakPtr.copy s.mem o = some (m1, h)) :
    Inv m1 s.strong (some h :: s.weak) := by
  obtain ⟨blk, hd, hm1, hh⟩ := WeakPtr.weak_copy_eq_some hc
  obtain ⟨hne, hbl⟩ := deref_eq_some hd
  rw [hm1, hh]
  exact hok.1.weak_acquire hbl (by have := hok.cap.2; omega) _

/-! ### Every statement keeps the invariant -/

theorem Inv.push_strong {m : Mem α} {S W : List (Option Handle)} {h : Handle}
    (hI : Inv m (some h :: S) W) : Inv m (S ++ [some h]) W := by
  refine hI.congr (fun b _ => refs_append_eq_cons _ _ b) (fun _ _ => rfl) ?_ hI.bound.2 ?_
    hI.weak_null
  · rw [live_append_eq_cons]
    exact hI.bound.1
  · exact nullOk_append_one (hI.strong_null h (List.mem_cons_self _ _))
      (nullOk_of_cons hI.strong_null)

theorem Inv.push_weak {m : Mem α} {S W : List (Option Handle)} {h : Handle}
    (hI : Inv m S (some h :: W)) : Inv m S (W ++ [some h]) := by
  refine hI.congr (fun _ _ => rfl) (fun b _ => refs_append_eq_cons _ _ b) hI.bound.1 ?_
    hI.strong_null ?_
  · rw [live_append_eq_cons]
    exact hI.bound.2
  · exact nullOk_append_one (hI.weak_null h (List.mem_cons_self _ _))
      (nullOk_of_cons hI.weak_null)

theorem Inv.push_strong_null {m : Mem α} {S W : List (Option Handle)} (hI : Inv m S W)
    (hcap : live S + 1 < SIZE_MOD) :
    Inv m (S ++ [some { block_ := 0, object_ := ObjPtr.null }]) W := by
  refine hI.congr (fun b hb => ?_) (fun _ _ => rfl) ?_ hI.bound.2 ?_ hI.weak_null
  · rw [refs_append_one, pointsTo_some]
    have : ¬ (0 = b) := fun hc => hb hc.symm
    simp [this]
  · rw [live_append_one]
    simpa using hcap
  · exact nullOk_append_one (fun _ => rfl) hI.strong_null

theorem Inv.push_weak_null {m : Mem α} {S W : List (Option Handle)} (hI : Inv m S W)
    (hcap : live W + 1 < SIZE_MOD) :
    Inv m S (W ++ [some { block_ := 0, object_ := ObjPtr.null }]) := by
  refine hI.congr (fun _ _ => rfl) (fun b hb => ?_) hI.bound.1 ?_ hI.strong_null ?_
  · rw [refs_append_one, pointsTo_some]
    have : ¬ (0 = b) := fun hc => hb hc.symm
    simp [this]
  · rw [live_append_one]
    simpa using hcap
  · exact nullOk_append_one (fun _ => rfl) hI.weak_null

theorem allocate_event_counts (alloc block b : Nat) :
    [Event.allocate alloc block].countP (Event.isDestroyObject b) = 0 ∧
      [Event.allocate alloc block].countP (Event.isDeallocate b) = 0 := by
  simp [List.countP_cons, Event.isDestroyObject, Event.isDeallocate]

theorem inv_sp_raw {s s1 : State α} {ptr : ObjPtr} {del alloc : Nat} (hok : s.Ok)
    (hs : step s (Op.sp_raw ptr del alloc) = some s1) : Inv s1.mem s1.strong s1.weak := by
  simp only [step, Option.some.injEq] at hs
  subst hs
  have hcap := hok.cap.1
  exact (hok.1.construct (by omega) [Event.allocate alloc (s.mem.next + 1)]
    (allocate_event_counts _ _) (BlockKind.ControlBlockRegular ptr del alloc) ptr).push_strong

theorem inv_allocate_shared {s s1 : State α} {alloc : Nat} {args : Option α} (hok : s.Ok)
    (hs : step s (Op.allocate_shared alloc args) = some s1) : Inv s1.mem s1.strong s1.weak := by
  have hcap := hok.cap.1
  cases args with
  | none =>
    simp only [step, AllocateShared, Option.some.injEq] at hs
    subst hs
    exact hok.1.allocate_only [Event.allocate alloc (s.mem.next + 1)] (allocate_event_counts _ _)
  | some v =>
    simp only [step, AllocateShared, Option.some.injEq] at hs
    subst hs
    exact (hok.1.construct (by omega) [Event.allocate alloc (s.mem.next + 1)]
      (allocate_event_counts _ _)
      (BlockKind.ControlBlockMakeShared (some v) (ObjPtr.inline (s.mem.next + 1)) alloc)
      (ObjPtr.inline (s.mem.next + 1))).push_strong

theorem inv_sp_copy {s s1 : State α} {i : Nat} (hok : s.Ok)
    (hs : step s (Op.sp_copy i) = some s1) : Inv s1.mem s1.strong s1.weak := by
  simp only [step] at hs
  cases hg : getVar s.strong i with
  | none => simp [hg] at hs
  | some o =>
    simp only [hg] at hs
    cases hc : SharedPtr.copy s.mem o with
    | none => simp [hc] at hs
    | some r =>
      obtain ⟨m1, h⟩ := r
      simp only [hc, Option.map_some', Option.some.injEq] at hs
      subst hs
      exact (hok.shared_copy hg hc).push_strong

theorem inv_sp_move {s s1 : State α} {i : Nat} (hok : s.Ok)
    (hs : step s (Op.sp_move i) = some s1) : Inv s1.mem s1.strong s1.weak := by
  have hcap := hok.cap.1
  simp only [step] at hs
  cases hg : getVar s.strong i with
  | none => simp [hg] at hs
  | some o =>
    simp only [hg, Option.some.injEq, SharedPtr.move] at hs
    subst hs
    refine hok.1.congr (fun b hb => ?_) (fun _ _ => rfl) ?_ hok.1.bound.2 ?_ hok.1.weak_null
    · have h1 := refs_set_null hg hb ObjPtr.null
      show refs (s.strong.set i _ ++ [_]) b = _
      rw [refs_append_one, pointsTo_some]
      simp only [decide_eq_true_eq]
      omega
    · show live (s.strong.set i _ ++ [_]) < _
      rw [live_append_one]
      have := live_set_le hg (some { block_ := 0, object_ := ObjPtr.null })
      simp only [Option.isSome_some, if_true]
      omega
    · refine nullOk_append_one (fun hb => ?_) (nullOk_set i hok.1.strong_null ?_)
      · exact hok.1.strong_null o (getVar_mem hg) hb
      · intro t ht _
        cases ht
        rfl

/-- Releasing the share held by a temporary strong handle `c` after the variables were
rewritten keeps the invariant. -/
theorem Inv.release_strong {m : Mem α} {T S W : List (Option Handle)} {c : Handle}
    (hI : Inv m T W) (hrefs : ∀ b, b ≠ 0 → refs S b + (if c.block_ = b then 1 else 0) = refs T b)
    (hlive : live S + 1 < SIZE_MOD) (hc : c.block_ = 0 → c.object_ = ObjPtr.null)
    (hn : nullOk S) :
    ∃ m1, SharedPtr.destructor m c = some m1 ∧ Inv m1 S W := by
  apply Inv.shared_destructor
  refine hI.congr (fun b hb => ?_) (fun _ _ => rfl) ?_ hI.bound.2 (nullOk_cons hc hn)
    hI.weak_null
  · rw [refs_cons_some]
    exact hrefs b hb
  · rw [live_cons]
    simpa using hlive

/-- Releasing the share held by a temporary weak handle `c` after the variables were
rewritten keeps the invariant. -/
theorem Inv.release_weak {m : Mem α} {T S W : List (Option Handle)} {c : Handle}
    (hI : Inv m S T) (hrefs : ∀ b, b ≠ 0 → refs W b + (if c.block_ = b then 1 else 0) = refs T b)
    (hlive : live W + 1 < SIZE_MOD) (hc : c.block_ = 0 → c.object_ = ObjPtr.null)
    (hn : nullOk W) :
    ∃ m1, WeakPtr.destructor m c = some m1 ∧ Inv m1 S W := by
  apply Inv.weak_destructor
  refine hI.congr (fun _ _ => rfl) (fun b hb => ?_) hI.bound.1 ?_ hI.strong_null
    (nullOk_cons hc hn)
  · rw [refs_cons_some]
    exact hrefs b hb
  · rw [live_cons]
    simpa using hlive

/-- Copy assignment `a = b` with `b` engaged: it cannot fail, and what it leaves. -/
theorem sp_copy_assign_ok {s : State α} (hok : s.Ok) {i j : Nat} {t o : Handle}
    (hgi : getVar s.strong i = some t) (hgj : getVar s.strong j = some o)
    (hne : o.block_ ≠ 0) :
    ∃ m1 m2, SharedPtr.copy s.mem o = some (m1, { block_ := o.block_, object_ := o.object_ }) ∧
      SharedPtr.destructor m1 t = some m2 ∧
      step s (Op.sp_copy_assign i j) = some
        { mem := m2, strong := s.strong.set i (some { block_ := o.block_, object_ := o.object_ }),
          weak := s.weak } ∧
      Inv m2 (s.strong.set i (some { block_ := o.block_, object_ := o.object_ })) s.weak := by
  have hcap := hok.cap.1
  obtain ⟨blk, hblk, _, _⟩ := hok.strong_block hgj hne
  have hc : SharedPtr.copy s.mem o = some
      (s.mem.setBlock o.block_ (some { blk with shared_count := size_inc blk.shared_count }),
        { block_ := o.block_, object_ := o.object_ }) := by
    simp [SharedPtr.copy, deref_of_ne hne, hblk]
  have hI := hok.shared_copy hgj hc
  obtain ⟨m2, hd, hI2⟩ := hI.release_strong
    (S := s.strong.set i (some { block_ := o.block_, object_ := o.object_ })) (c := t)
    (fun b _ => by
      rw [refs_cons_some]
      exact refs_set_some hgi _ b)
    (by have := live_set_le hgi (some { block_ := o.block_, object_ := o.object_ }); omega)
    (hok.1.strong_null t (getVar_mem hgi))
    (nullOk_set i hok.1.strong_null (fun u hu hb => by
      cases hu
      exact absurd hb hne))
  refine ⟨_, m2, hc, hd, ?_, hI2⟩
  simp only [step, SharedPtr.copy_assign, hgi, hgj, hc]
  have hd2 : SharedPtr.destructor
      (s.mem.setBlock o.block_ (some { blk with shared_count := size_inc blk.shared_count }))
      { block_ := t.block_, object_ := t.object_ } = some m2 := hd
  rw [hd2]
  rfl

theorem inv_sp_copy_assign {s s1 : State α} {i j : Nat} (hok : s.Ok)
    (hs : step s (Op.sp_copy_assign i j) = some s1) : Inv s1.mem s1.strong s1.weak := by
  cases hgi : getVar s.strong i with
  | none => simp [step, SharedPtr.copy_assign, hgi] at hs
  | some t =>
    cases hgj : getVar s.strong j with
    | none => simp [step, SharedPtr.copy_assign, hgi, hgj] at hs
    | some o =>
      by_cases hne : o.block_ = 0
      · simp [step, SharedPtr.copy_assign, hgi, hgj, SharedPtr.copy, hne, deref_zero] at hs
      · obtain ⟨m1, m2, _, _, hst, hI⟩ := sp_copy_assign_ok hok hgi hgj hne
        rw [hst] at hs
        cases hs
        exact hI

/-- Move assignment `a = std::move(b)`: it cannot fail, and what it leaves. -/
theorem sp_move_assign_ok {s : State α} (hok : s.Ok) {i j : Nat} {t o : Handle}
    (hgi : getVar s.strong i = some t) (hgj : getVar s.strong j = some o) :
    ∃ m1 u, SharedPtr.destructor s.mem t = some m1 ∧
      getVar (s.strong.set i (some { block_ := 0, object_ := ObjPtr.null })) j = some u ∧
      (i ≠ j → u = o) ∧ (i = j → u = { block_ := 0, object_ := ObjPtr.null }) ∧
      step s (Op.sp_move_assign i j) = some
        { mem := m1,
          strong := (((s.strong.set i (some { block_ := 0, object_ := ObjPtr.null })).set i
            (some { block_ := u.block_, object_ := u.object_ })).set j
            (some { block_ := 0, object_ := ObjPtr.null })),
          weak := s.weak } ∧
      Inv m1 (((s.strong.set i (some { block_ := 0, object_ := ObjPtr.null })).set i
            (some { block_ := u.block_, object_ := u.object_ })).set j
            (some { block_ := 0, object_ := ObjPtr.null })) s.weak := by
  have hcap := hok.cap.1
  have hi := getVar_lt hgi
  have hj := getVar_lt hgj
  obtain ⟨u, hgu, hu1, hu2⟩ : ∃ u,
      getVar (s.strong.set i (some { block_ := 0, object_ := ObjPtr.null })) j = some u ∧
      (i ≠ j → u = o) ∧ (i = j → u = { block_ := 0, object_ := ObjPtr.null }) := by
    by_cases hij : i = j
    · subst hij
      exact ⟨_, getVar_set_self hi, fun h => absurd rfl h, fun _ => rfl⟩
    · refine ⟨o, ?_, fun _ => rfl, fun h => absurd h hij⟩
      rw [getVar_set_ne hij]
      exact hgj
  have hunull : u.block_ = 0 → u.object_ = ObjPtr.null := by
    by_cases hij : i = j
    · rw [hu2 hij]
      intro _
      rfl
    · rw [hu1 hij]
      exact hok.1.strong_null o (getVar_mem hgj)
  have hg1i : getVar (s.strong.set i (some { block_ := 0, object_ := ObjPtr.null })) i
      = some { block_ := 0, object_ := ObjPtr.null } := getVar_set_self hi
  obtain ⟨x, hg2j, hx⟩ : ∃ x, getVar
      ((s.strong.set i (some { block_ := 0, object_ := ObjPtr.null })).set i
        (some { block_ := u.block_, object_ := u.object_ })) j = some x ∧
      x.block_ = u.block_ := by
    by_cases hij : i = j
    · subst hij
      exact ⟨_, getVar_set_self (by simpa using hi), rfl⟩
    · refine ⟨u, ?_, rfl⟩
      rw [getVar_set_ne hij]
      exact hgu
  obtain ⟨m1, hd, hI⟩ := hok.1.release_strong
    (S := (((s.strong.set i (some { block_ := 0, object_ := ObjPtr.null })).set i
            (some { block_ := u.block_, object_ := u.object_ })).set j
            (some { block_ := 0, object_ := ObjPtr.null }))) (c := t)
    (fun b hb => by
      have h1 := refs_set_null hgi hb ObjPtr.null
      have h2 := refs_set_some hg1i { block_ := u.block_, object_ := u.object_ } b
      have h3 := refs_set_null hg2j hb ObjPtr.null
      have h0 : ¬ (0 = b) := fun hc => hb hc.symm
      simp only [h0, if_false, Nat.add_zero] at h2
      rw [hx] at h3
      omega)
    (by
      have h1 := live_set_le hgi (some { block_ := 0, object_ := ObjPtr.null })
      have h2 := live_set_le hg1i (some { block_ := u.block_, object_ := u.object_ })
      have h3 := live_set_le hg2j (some { block_ := 0, object_ := ObjPtr.null })
      omega)
    (hok.1.strong_null t (getVar_mem hgi))
    (nullOk_set j (nullOk_set i (nullOk_set i hok.1.strong_null
      (fun u hu _ => by cases hu; rfl))
      (fun v hv hb => by cases hv; exact hunull hb))
      (fun u hu _ => by cases hu; rfl))
  refine ⟨m1, u, hd, hgu, hu1, hu2, ?_, hI⟩
  simp only [step, SharedPtr.move_assign, hgi, hgj, SharedPtr.move, hgu]
  have hd2 : SharedPtr.destructor s.mem { block_ := t.block_, object_ := t.object_ } = some m1 :=
    hd
  rw [hd2]
  rfl

theorem inv_sp_move_assign {s s1 : State α} {i j : Nat} (hok : s.Ok)
    (hs : step s (Op.sp_move_assign i j) = some s1) : Inv s1.mem s1.strong s1.weak := by
  cases hgi : getVar s.strong i with
  | none => simp [step, SharedPtr.move_assign, hgi] at hs
  | some t =>
    cases hgj : getVar s.strong j with
    | none => simp [step, SharedPtr.move_assign, hgi, hgj] at hs
    | some o =>
      obtain ⟨m1, u, _, _, _, _, hst, hI⟩ := sp_move_assign_ok hok hgi hgj
      rw [hst] at hs
      cases hs
      exact hI

/-- The member `reset()`: it cannot fail, and what it leaves. -/
theorem sp_reset_ok {s : State α} (hok : s.Ok) {i : Nat} {t : Handle}
    (hgi : getVar s.strong i = some t) :
    ∃ m1, SharedPtr.destructor s.mem t = some m1 ∧
      step s (Op.sp_reset i) = some
        { mem := m1, strong := s.strong.set i (some { block_ := 0, object_ := ObjPtr.null }),
          weak := s.weak } ∧
      Inv m1 (s.strong.set i (some { block_ := 0, object_ := ObjPtr.null })) s.weak := by
  have hcap := hok.cap.1
  obtain ⟨m1, hd, hI⟩ := hok.1.release_strong
    (S := s.strong.set i (some { block_ := 0, object_ := ObjPtr.null })) (c := t)
    (fun b hb => refs_set_null hgi hb ObjPtr.null)
    (by have := live_set_le hgi (some { block_ := 0, object_ := ObjPtr.null }); omega)
    (hok.1.strong_null t (getVar_mem hgi))
    (nullOk_set i hok.1.strong_null (fun u hu _ => by cases hu; rfl))
  refine ⟨m1, hd, ?_, hI⟩
  simp only [step, SharedPtr.reset, hgi]
  have hd2 : SharedPtr.destructor s.mem { block_ := t.block_, object_ := t.object_ } = some m1 :=
    hd
  rw [hd2]
  rfl

theorem inv_sp_reset {s s1 : State α} {i : Nat} (hok : s.Ok)
    (hs : step s (Op.sp_reset i) = some s1) : Inv s1.mem s1.strong s1.weak := by
  cases hgi : getVar s.strong i with
  | none => simp [step, SharedPtr.reset, hgi] at hs
  | some t =>
    obtain ⟨m1, _, hst, hI⟩ := sp_reset_ok hok hgi
    rw [hst] at hs
    cases hs
    exact hI

/-- Destroying a strong variable: it cannot fail, and what it leaves. -/
theorem sp_destroy_ok {s : State α} (hI0 : Inv s.mem s.strong s.weak) {i : Nat} {t : Handle}
    (hgi : getVar s.strong i = some t) :
    ∃ m1, SharedPtr.destructor s.mem t = some m1 ∧
      step s (Op.sp_destroy i) = some
        { mem := m1, strong := s.strong.set i none, weak := s.weak } ∧
      Inv m1 (s.strong.set i none) s.weak := by
  have hcap := hI0.bound.1
  obtain ⟨m1, hd, hI⟩ := hI0.release_strong (S := s.strong.set i none) (c := t)
    (fun b _ => refs_set_none hgi b)
    (by
      have := live_set hgi none
      simp only [Option.isSome_none, Bool.false_eq_true, if_false, Nat.add_zero] at this
      omega)
    (hI0.strong_null t (getVar_mem hgi))
    (nullOk_set i hI0.strong_null (fun u hu _ => by cases hu))
  refine ⟨m1, hd, ?_, hI⟩
  simp only [step, hgi, hd]
  rfl

theorem inv_sp_destroy {s s1 : State α} {i : Nat} (hok : s.Ok)
    (hs : step s (Op.sp_destroy i) = some s1) : Inv s1.mem s1.strong s1.weak := by
  cases hgi : getVar s.strong i with
  | none => simp [step, hgi] at hs
  | some t =>
    obtain ⟨m1, _, hst, hI⟩ := sp_destroy_ok hok.1 hgi
    rw [hst] at hs
    cases hs
    exact hI

theorem inv_wp_from_shared {s s1 : State α} {i : Nat} (hok : s.Ok)
    (hs : step s (Op.wp_from_shared i) = some s1) : Inv s1.mem s1.strong s1.weak := by
  simp only [step] at hs
  cases hg : getVar s.strong i with
  | none => simp [hg] at hs
  | some o =>
    simp only [hg] at hs
    cases hc : WeakPtr.copy s.mem o with
    | none => simp [hc] at hs
    | some r =>
      obtain ⟨m1, h⟩ := r
      simp only [hc, Option.map_some', Option.some.injEq] at hs
      subst hs
      exact (hok.weak_copy hc).push_weak

theorem inv_wp_copy {s s1 : State α} {i : Nat} (hok : s.Ok)
    (hs : step s (Op.wp_copy i) = some s1) : Inv s1.mem s1.strong s1.weak := by
  simp only [step] at hs
  cases hg : getVar s.weak i with
  | none => simp [hg] at hs
  | some o =>
    simp only [hg] at hs
    cases hc : WeakPtr.copy s.mem o with
    | none => simp [hc] at hs
    | some r =>
      obtain ⟨m1, h⟩ := r
      simp only [hc, Option.map_some', Option.some.injEq] at hs
      subst hs
      exact (hok.weak_copy hc).push_weak

theorem inv_wp_move {s s1 : State α} {i : Nat} (hok : s.Ok)
    (hs : step s (Op.wp_move i) = some s1) : Inv s1.mem s1.strong s1.weak := by
  have hcap := hok.cap.2
  simp only [step] at hs
  cases hg : getVar s.weak i with
  | none => simp [hg] at hs
  | some o =>
    simp only [hg, Option.some.injEq, WeakPtr.move] at hs
    subst hs
    refine hok.1.congr (fun _ _ => rfl) (fun b hb => ?_) hok.1.bound.1 ?_ hok.1.strong_null ?_
    · have h1 := refs_set_null hg hb ObjPtr.null
      show refs (s.weak.set i _ ++ [_]) b = _
      rw [refs_append_one, pointsTo_some]
      simp only [decide_eq_true_eq]
      omega
    · show live (s.weak.set i _ ++ [_]) < _
      rw [live_append_one]
      have := live_set_le hg (some { block_ := 0, object_ := ObjPtr.null })
      simp only [Option.isSome_some, if_true]
      omega
    · refine nullOk_append_one (fun hb => ?_) (nullOk_set i hok.1.weak_null ?_)
      · exact hok.1.weak_null o (getVar_mem hg) hb
      · intro t ht _
        cases ht
        rfl

/-- Weak copy assignment `a = b` with `b` engaged: it cannot fail, and what it leaves. -/
theorem wp_copy_assign_ok {s : State α} (hok : s.Ok) {i j : Nat} {t o : Handle}
    (hgi : getVar s.weak i = some t) (hgj : getVar s.weak j = some o)
    (hne : o.block_ ≠ 0) :
    ∃ m1 m2, WeakPtr.copy s.mem o = some (m1, { block_ := o.block_, object_ := o.object_ }) ∧
      WeakPtr.destructor m1 t = some m2 ∧
      step s (Op.wp_copy_assign i j) = some
        { mem := m2, strong := s.strong,
          weak := s.weak.set i (some { block_ := o.block_, object_ := o.object_ }) } ∧
      Inv m2 s.strong (s.weak.set i (some { block_ := o.block_, object_ := o.object_ })) := by
  have hcap := hok.cap.2
  obtain ⟨blk, hblk, _, _⟩ := hok.weak_block hgj hne
  have hc : WeakPtr.copy s.mem o = some
      (s.mem.setBlock o.block_ (some { blk with weak_count := size_inc blk.weak_count }),
        { block_ := o.block_, object_ := o.object_ }) := by
    simp [WeakPtr.copy, deref_of_ne hne, hblk]
  have hI := hok.weak_copy hc
  obtain ⟨m2, hd, hI2⟩ := hI.release_weak
    (W := s.weak.set i (some { block_ := o.block_, object_ := o.object_ })) (c := t)
    (fun b _ => by
      rw [refs_cons_some]
      exact refs_set_some hgi _ b)
    (by have := live_set_le hgi (some { block_ := o.block_, object_ := o.object_ }); omega)
    (hok.1.weak_null t (getVar_mem hgi))
    (nullOk_set i hok.1.weak_null (fun u hu hb => by
      cases hu
      exact absurd hb hne))
  refine ⟨_, m2, hc, hd, ?_, hI2⟩
  simp only [step, WeakPtr.copy_assign, hgi, hgj, hc]
  have hd2 : WeakPtr.destructor
      (s.mem.setBlock o.block_ (some { blk with weak_count := size_inc blk.weak_count }))
      { block_ := t.block_, object_ := t.object_ } = some m2 := hd
  rw [hd2]
  rfl

theorem inv_wp_copy_assign {s s1 : State α} {i j : Nat} (hok : s.Ok)
    (hs : step s (Op.wp_copy_assign i j) = some s1) : Inv s1.mem s1.strong s1.weak := by
  cases hgi : getVar s.weak i with
  | none => simp [step, WeakPtr.copy_assign, hgi] at hs
  | some t =>
    cases hgj : getVar s.weak j with
    | none => simp [step, WeakPtr.copy_assign, hgi, hgj] at hs
    | some o =>
      by_cases hne : o.block_ = 0
      · simp [step, WeakPtr.copy_assign, hgi, hgj, WeakPtr.copy, hne, deref_zero] at hs
      · obtain ⟨m1, m2, _, _, hst, hI⟩ := wp_copy_assign_ok hok hgi hgj hne
        rw [hst] at hs
        cases hs
        exact hI

/-- Weak move assignment `a = std::move(b)`: it cannot fail, and what it leaves. -/
theorem wp_move_assign_ok {s : State α} (hok : s.Ok) {i j : Nat} {t o : Handle}
    (hgi : getVar s.weak i = some t) (hgj : getVar s.weak j = some o) :
    ∃ m1 u, WeakPtr.destructor s.mem t = some m1 ∧
      getVar (s.weak.set i (some { block_ := 0, object_ := ObjPtr.null })) j = some u ∧
      (i ≠ j → u = o) ∧ (i = j → u = { block_ := 0, object_ := ObjPtr.null }) ∧
      step s (Op.wp_move_assign i j) = some
        { mem := m1, strong := s.strong,
          weak := (((s.weak.set i (some { block_ := 0, object_ := ObjPtr.null })).set i
            (some { block_ := u.block_, object_ := u.object_ })).set j
            (some { block_ := 0, object_ := ObjPtr.null })) } ∧
      Inv m1 s.strong (((s.weak.set i (some { block_ := 0, object_ := ObjPtr.null })).set i
            (some { block_ := u.block_, object_ := u.object_ })).set j
            (some { block_ := 0, object_ := ObjPtr.null })) := by
  have hcap := hok.cap.2
  have hi := getVar_lt hgi
  have hj := getVar_lt hgj
  obtain ⟨u, hgu, hu1, hu2⟩ : ∃ u,
      getVar (s.weak.set i (some { block_ := 0, object_ := ObjPtr.null })) j = some u ∧
      (i ≠ j → u = o) ∧ (i = j → u = { block_ := 0, object_ := ObjPtr.null }) := by
    by_cases hij : i = j
    · subst hij
      exact ⟨_, getVar_set_self hi, fun h => absurd rfl h, fun _ => rfl⟩
    · refine ⟨o, ?_, fun _ => rfl, fun h => absurd h hij⟩
      rw [getVar_set_ne hij]
      exact hgj
  have hunull : u.block_ = 0 → u.object_ = ObjPtr.null := by
    by_cases hij : i = j
    · rw [hu2 hij]
      intro _
      rfl
    · rw [hu1 hij]
      exact hok.1.weak_null o (getVar_mem hgj)
  have hg1i : getVar (s.weak.set i (some { block_ := 0, object_ := ObjPtr.null })) i
      = some { block_ := 0, object_ := ObjPtr.null } := getVar_set_self hi
  obtain ⟨x, hg2j, hx⟩ : ∃ x, getVar
      ((s.weak.set i (some { block_ := 0, object_ := ObjPtr.null })).set i
        (some { block_ := u.block_, object_ := u.object_ })) j = some x ∧
      x.block_ = u.block_ := by
    by_cases hij : i = j
    · subst hij
      exact ⟨_, getVar_set_self (by simpa using hi), rfl⟩
    · refine ⟨u, ?_, rfl⟩
      rw [getVar_set_ne hij]
      exact hgu
  obtain ⟨m1, hd, hI⟩ := hok.1.release_weak
    (W := (((s.weak.set i (some { block_ := 0, object_ := ObjPtr.null })).set i
            (some { block_ := u.block_, object_ := u.object_ })).set j
            (some { block_ := 0, object_ := ObjPtr.null }))) (c := t)
    (fun b hb => by
      have h1 := refs_set_null hgi hb ObjPtr.null
      have h2 := refs_set_some hg1i { block_ := u.block_, object_ := u.object_ } b
      have h3 := refs_set_null hg2j hb ObjPtr.null
      have h0 : ¬ (0 = b) := fun hc => hb hc.symm
      simp only [h0, if_false, Nat.add_zero] at h2
      rw [hx] at h3
      omega)
    (by
      have h1 := live_set_le hgi (some { block_ := 0, object_ := ObjPtr.null })
      have h2 := live_set_le hg1i (some { block_ := u.block_, object_ := u.object_ })
      have h3 := live_set_le hg2j (some { block_ := 0, object_ := ObjPtr.null })
      omega)
    (hok.1.weak_null t (getVar_mem hgi))
    (nullOk_set j (nullOk_set i (nullOk_set i hok.1.weak_null
      (fun u hu _ => by cases hu; rfl))
      (fun v hv hb => by cases hv; exact hunull hb))
      (fun u hu _ => by cases hu; rfl))
  refine ⟨m1, u, hd, hgu, hu1, hu2, ?_, hI⟩
  simp only [step, WeakPtr.move_assign, hgi, hgj, WeakPtr.move, hgu, hg1i]
  have hd2 : WeakPtr.destructor s.mem { block_ := t.block_, object_ := t.object_ } = some m1 :=
    hd
  rw [hd2]
  rfl

theorem inv_wp_move_assign {s s1 : State α} {i j : Nat} (hok : s.Ok)
    (hs : step s (Op.wp_move_assign i j) = some s1) : Inv s1.mem s1.strong s1.weak := by
  cases hgi : getVar s.weak i with
  | none => simp [step, WeakPtr.move_assign, hgi] at hs
  | some t =>
    cases hgj : getVar s.weak j with
    | none => simp [step, WeakPtr.move_assign, hgi, hgj] at hs
    | some o =>
      obtain ⟨m1, u, _, _, _, _, hst, hI⟩ := wp_move_assign_ok hok hgi hgj
      rw [hst] at hs
      cases hs
      exact hI

/-- Destroying a weak variable: it cannot fail, and what it leaves. -/
theorem wp_destroy_ok {s : State α} (hok : s.Ok) {i : Nat} {t : Handle}
    (hgi : getVar s.weak i = some t) :
    ∃ m1, WeakPtr.destructor s.mem t = some m1 ∧
      step s (Op.wp_destroy i) = some
        { mem := m1, strong := s.strong, weak := s.weak.set i none } ∧
      Inv m1 s.strong (s.weak.set i none) := by
  have hcap := hok.cap.2
  obtain ⟨m1, hd, hI⟩ := hok.1.release_weak (W := s.weak.set i none) (c := t)
    (fun b _ => refs_set_none hgi b)
    (by have := live_set_le hgi none; omega)
    (hok.1.weak_null t (getVar_mem hgi))
    (nullOk_set i hok.1.weak_null (fun u hu _ => by cases hu))
  refine ⟨m1, hd, ?_, hI⟩
  simp only [step, hgi, hd]
  rfl

theorem inv_wp_destroy {s s1 : State α} {i : Nat} (hok : s.Ok)
    (hs : step s (Op.wp_destroy i) = some s1) : Inv s1.mem s1.strong s1.weak := by
  cases hgi : getVar s.weak i with
  | none => simp [step, hgi] at hs
  | some t =>
    obtain ⟨m1, _, hst, hI⟩ := wp_destroy_ok hok hgi
    rw [hst] at hs
    cases hs
    exact hI

theorem expired_eq_false {m : Mem α} {w : Handle}
    (h : (WeakPtr.expired m w == some false) = true) :
    ∃ blk, m.deref w.block_ = some blk ∧ blk.shared_count ≠ 0 := by
  unfold WeakPtr.expired at h
  cases hd : m.deref w.block_ with
  | none => simp [hd] at h
  | some blk =>
    refine ⟨blk, rfl, ?_⟩
    simpa [hd] using h

/-- The member `lock()` on a weak variable that is not expired: it cannot fail, and what
it leaves. -/
theorem wp_lock_ok {s : State α} (hok : s.Ok) {i : Nat} {w : Handle} {blk : ControlBlock α}
    (hgi : getVar s.weak i = some w) (hd : s.mem.deref w.block_ = some blk)
    (hsc : blk.shared_count ≠ 0) :
    step s (Op.wp_lock i) = some
        { mem := s.mem.setBlock w.block_
            (some { blk with shared_count := size_inc blk.shared_count }),
          strong := s.strong ++ [some { block_ := w.block_, object_ := w.object_ }],
          weak := s.weak } ∧
      Inv (s.mem.setBlock w.block_ (some { blk with shared_count := size_inc blk.shared_count }))
        (s.strong ++ [some { block_ := w.block_, object_ := w.object_ }]) s.weak := by
  have hcap := hok.cap.1
  obtain ⟨hne, hbl⟩ := deref_eq_some hd
  constructor
  · simp only [step, hgi, WeakPtr.lock, SharedPtr.fromBlock, hd]
    rfl
  · exact (hok.1.shared_acquire hbl hsc (by omega) w.object_).push_strong

theorem inv_wp_lock {s s1 : State α} {i : Nat} (hok : s.Ok)
    (hl : lockAllowed s (Op.wp_lock i) = true)
    (hs : step s (Op.wp_lock i) = some s1) : Inv s1.mem s1.strong s1.weak := by
  cases hgi : getVar s.weak i with
  | none => simp [step, hgi] at hs
  | some w =>
    simp only [lockAllowed, hgi] at hl
    obtain ⟨blk, hd, hsc⟩ := expired_eq_false hl
    obtain ⟨hst, hI⟩ := wp_lock_ok hok hgi hd hsc
    rw [hst] at hs
    cases hs
    exact hI

/-- Every statement keeps the counting invariant. -/
theorem step_inv {s s1 : State α} {op : Op α} (hok : s.Ok)
    (hl : lockAllowed s op = true) (hs : step s op = some s1) :
    Inv s1.mem s1.strong s1.weak := by
  have hcapS := hok.cap.1
  have hcapW := hok.cap.2
  cases op with
  | sp_default =>
    simp only [step, Option.some.injEq] at hs
    subst hs
    exact hok.1.push_strong_null (by omega)
  | sp_nullptr =>
    simp only [step, Option.some.injEq] at hs
    subst hs
    exact hok.1.push_strong_null (by omega)
  | sp_raw ptr del alloc => exact inv_sp_raw hok hs
  | sp_copy i => exact inv_sp_copy hok hs
  | sp_move i => exact inv_sp_move hok hs
  | sp_copy_assign i j => exact inv_sp_copy_assign hok hs
  | sp_move_assign i j => exact inv_sp_move_assign hok hs
  | sp_reset i => exact inv_sp_reset hok hs
  | sp_destroy i => exact inv_sp_destroy hok hs
  | allocate_shared alloc args => exact inv_allocate_shared hok hs
  | make_shared args => exact @inv_allocate_shared _ s s1 std_allocator args hok hs
  | wp_default =>
    simp only [step, Option.some.injEq] at hs
    subst hs
    exact hok.1.push_weak_null (by omega)
  | wp_from_shared i => exact inv_wp_from_shared hok hs
  | wp_copy i => exact inv_wp_copy hok hs
  | wp_move i => exact inv_wp_move hok hs
  | wp_copy_assign i j => exact inv_wp_copy_assign hok hs
  | wp_move_assign i j => exact inv_wp_move_assign hok hs
  | wp_destroy i => exact inv_wp_destroy hok hs
  | wp_lock i => exact inv_wp_lock hok hl hs

theorem exec_eq_some {s s1 : State α} {op : Op α} (h : exec s op = some s1) :
    lockAllowed s op = true ∧ step s op = some s1 ∧
      live s1.strong + live s1.weak ≤ HANDLE_CAP := by
  unfold exec at h
  by_cases hl : lockAllowed s op = true
  · rw [if_pos hl] at h
    cases hst : step s op with
    | none => simp [hst] at h
    | some s2 =>
      simp only [hst] at h
      by_cases hc : live s2.strong + live s2.weak ≤ HANDLE_CAP
      · rw [if_pos hc] at h
        cases h
        exact ⟨hl, rfl, hc⟩
      · rw [if_neg hc] at h
        cases h
  · rw [if_neg hl] at h
    cases h

/-- Every statement of a program keeps the state invariant. -/
theorem exec_ok {s s1 : State α} {op : Op α} (hok : s.Ok) (h : exec s op = some s1) :
    s1.Ok := by
  obtain ⟨hl, hst, hc⟩ := exec_eq_some h
  exact ⟨step_inv hok hl hst, hc⟩

theorem init_ok : (State.init : State α).Ok := by
  refine ⟨?_, by simp [State.init, live, HANDLE_CAP]⟩
  constructor
  · rfl
  · intro b _
    exact ⟨rfl, rfl, rfl⟩
  · intro b blk hb
    cases hb
  · intro b blk hb
    cases hb
  · intro b blk hb
    cases hb
  · intro b _
    exact ⟨fun _ => ⟨rfl, rfl⟩, rfl, Nat.zero_le _⟩
  · exact ⟨by simp [State.init, live, SIZE_MOD], by simp [State.init, live, SIZE_MOD]⟩
  · intro h hm
    simp [State.init] at hm
  · intro h hm
    simp [State.init] at hm

theorem runFrom_ok {ops : List (Op α)} {s s1 : State α} (hok : s.Ok)
    (h : runFrom s ops = some s1) : s1.Ok := by
  induction ops generalizing s with
  | nil =>
    simp only [runFrom, Option.some.injEq] at h
    subst h
    exact hok
  | cons op ops ih =>
    simp only [runFrom] at h
    cases he : exec s op with
    | none => simp [he] at h
    | some s2 =>
      simp only [he] at h
      exact ih (exec_ok hok he) h

/-- Every state a program reaches satisfies the state invariant. -/
theorem run_ok {ops : List (Op α)} {s : State α} (h : run ops = some s) : s.Ok :=
  runFrom_ok init_ok h

/-! ### What a statement does to memory -/

theorem Grows.refl (m : Mem α) : Grows m m where
  trace_ext := ⟨[], by simp⟩
  next_le := Nat.le_refl _
  null_stays := fun h => h
  dead_stays := fun _ _ h => ⟨h, rfl, rfl⟩
  gone := fun b h1 h2 => by
    rw [h2] at h1
    cases h1

theorem Grows.destroyCount_le {m m1 : Mem α} (h : Grows m m1) (b : Nat) :
    destroyCount m b ≤ destroyCount m1 b := by
  obtain ⟨es, hes⟩ := h.trace_ext
  rw [destroyCount_of_trace hes]
  omega

theorem Grows.deallocCount_le {m m1 : Mem α} (h : Grows m m1) (b : Nat) :
    deallocCount m b ≤ deallocCount m1 b := by
  obtain ⟨es, hes⟩ := h.trace_ext
  rw [deallocCount_of_trace hes]
  omega

theorem Grows.trans {m m1 m2 : Mem α} (h1 : Grows m m1) (h2 : Grows m1 m2) : Grows m m2 where
  trace_ext := by
    obtain ⟨es1, he1⟩ := h1.trace_ext
    obtain ⟨es2, he2⟩ := h2.trace_ext
    exact ⟨es1 ++ es2, by rw [he2, he1, List.append_assoc]⟩
  next_le := Nat.le_trans h1.next_le h2.next_le
  null_stays := fun h => h2.null_stays (h1.null_stays h)
  dead_stays := fun b hb hd => by
    obtain ⟨ha, hb1, hc1⟩ := h1.dead_stays b hb hd
    obtain ⟨ha2, hb2, hc2⟩ := h2.dead_stays b (Nat.le_trans hb h1.next_le) ha
    exact ⟨ha2, by rw [hb2, hb1], by rw [hc2, hc1]⟩
  gone := fun b hl hd => by
    cases hm : m1.blocks b with
    | none =>
      have := h1.gone b hl hm
      have := h2.deallocCount_le b
      omega
    | some blk =>
      exact h2.gone b (by rw [hm]; rfl) hd

/-- A change confined to one constructed block is a growth of memory. -/
theorem Grows.of_block {m m1 : Mem α} (b0 : Nat) (es : List Event)
    (hlive : (m.blocks b0).isSome) (hn : m1.next = m.next) (ht : m1.trace = m.trace ++ es)
    (hbo : ∀ b, b ≠ b0 → m1.blocks b = m.blocks b)
    (hes : ∀ b, b ≠ b0 → es.countP (Event.isDestroyObject b) = 0 ∧
      es.countP (Event.isDeallocate b) = 0)
    (hgone : m1.blocks b0 = none → 1 ≤ es.countP (Event.isDeallocate b0)) : Grows m m1 where
  trace_ext := ⟨es, ht⟩
  next_le := by rw [hn]
  null_stays := fun h => by
    have : (0 : Nat) ≠ b0 := by
      intro hc
      rw [← hc, h] at hlive
      cases hlive
    rw [hbo 0 this]
    exact h
  dead_stays := fun b _ hd => by
    have hne : b ≠ b0 := by
      intro hc
      rw [hc] at hd
      rw [hd] at hlive
      cases hlive
    rw [hbo b hne, destroyCount_of_trace ht, deallocCount_of_trace ht, (hes b hne).1,
      (hes b hne).2]
    exact ⟨hd, rfl, rfl⟩
  gone := fun b hl hd => by
    by_cases hbe : b = b0
    · subst hbe
      rw [deallocCount_of_trace ht]
      have := hgone hd
      omega
    · rw [hbo b hbe] at hd
      rw [hd] at hl
      cases hl

theorem SharedPtr.shared_destructor_cases {m m1 : Mem α} {h : Handle}
    (hd : SharedPtr.destructor m h = some m1) :
    m1 = m ∨ ∃ blk, m.deref h.block_ = some blk := by
  by_cases hn : h.block_ = 0 ∧ h.object_ = ObjPtr.null
  · left
    rw [SharedPtr.shared_destructor_null m hn.1 hn.2] at hd
    cases hd
    rfl
  · right
    cases hder : m.deref h.block_ with
    | none => simp [SharedPtr.destructor, hn, hder] at hd
    | some blk => exact ⟨blk, rfl⟩

theorem WeakPtr.weak_destructor_cases {m m1 : Mem α} {h : Handle}
    (hd : WeakPtr.destructor m h = some m1) :
    m1 = m ∨ ∃ blk, m.deref h.block_ = some blk := by
  by_cases hn : h.block_ = 0 ∧ h.object_ = ObjPtr.null
  · left
    rw [WeakPtr.weak_destructor_null m hn.1 hn.2] at hd
    cases hd
    rfl
  · right
    cases hder : m.deref h.block_ with
    | none => simp [WeakPtr.destructor, hn, hder] at hd
    | some blk => exact ⟨blk, rfl⟩

theorem MemStep.one_next_eq {m m1 : Mem α} (h : MemStep m m1) : m1.next = m.next := by
  cases h with
  | sharedCopy hc =>
    obtain ⟨blk, _, hm1, _⟩ := SharedPtr.shared_copy_eq_some hc
    rw [hm1]
    rfl
  | sharedDestructor hd =>
    rcases SharedPtr.shared_destructor_cases hd with he | ⟨blk, hb⟩
    · rw [he]
    · obtain ⟨m2, es, k, hd2, hn, _⟩ := SharedPtr.shared_destructor_spec hb
      rw [hd] at hd2
      cases hd2
      exact hn
  | weakCopy hc =>
    obtain ⟨blk, _, hm1, _⟩ := WeakPtr.weak_copy_eq_some hc
    rw [hm1]
    rfl
  | weakDestructor hd =>
    rcases WeakPtr.weak_destructor_cases hd with he | ⟨blk, hb⟩
    · rw [he]
    · obtain ⟨m2, es, hd2, hn, _⟩ := WeakPtr.weak_destructor_spec hb
      rw [hd] at hd2
      cases hd2
      exact hn

theorem MemStep.one_grows {m m1 : Mem α} (h : MemStep m m1) : Grows m m1 := by
  cases h with
  | sharedCopy hc =>
    obtain ⟨blk, hb, hm1, _⟩ := SharedPtr.shared_copy_eq_some hc
    obtain ⟨_, hbl⟩ := deref_eq_some hb
    rw [hm1]
    exact Grows.of_block _ [] (by rw [hbl]; rfl) rfl (by simp) (fun b hb => by simp [hb])
      (fun b _ => ⟨rfl, rfl⟩) (fun hc => by simp at hc)
  | sharedDestructor hd =>
    rcases SharedPtr.shared_destructor_cases hd with he | ⟨blk, hb⟩
    · rw [he]
      exact Grows.refl m
    · obtain ⟨m2, es, k, hd2, hn, ht, hbo, hcd, hca, hbb⟩ := SharedPtr.shared_destructor_spec hb
      rw [hd] at hd2
      cases hd2
      obtain ⟨_, hbl⟩ := deref_eq_some hb
      refine Grows.of_block _ es (by rw [hbl]; rfl) hn ht hbo (fun b hb => ?_) (fun hc => ?_)
      · rw [hcd b, hca b]
        simp [hb]
      · rw [hbb] at hc
        rw [hca]
        split at hc
        · rename_i hcond
          simp [hcond.1, hcond.2]
        · cases hc
  | weakCopy hc =>
    obtain ⟨blk, hb, hm1, _⟩ := WeakPtr.weak_copy_eq_some hc
    obtain ⟨_, hbl⟩ := deref_eq_some hb
    rw [hm1]
    exact Grows.of_block _ [] (by rw [hbl]; rfl) rfl (by simp) (fun b hb => by simp [hb])
      (fun b _ => ⟨rfl, rfl⟩) (fun hc => by simp at hc)
  | weakDestructor hd =>
    rcases WeakPtr.weak_destructor_cases hd with he | ⟨blk, hb⟩
    · rw [he]
      exact Grows.refl m
    · obtain ⟨m2, es, hd2, hn, ht, hbo, hcd, hca, hbb⟩ := WeakPtr.weak_destructor_spec hb
      rw [hd] at hd2
      cases hd2
      obtain ⟨_, hbl⟩ := deref_eq_some hb
      refine Grows.of_block _ es (by rw [hbl]; rfl) hn ht hbo (fun b hb => ?_) (fun hc => ?_)
      · rw [hcd b, hca b]
        simp [hb]
      · rw [hbb] at hc
        rw [hca]
        split at hc
        · rename_i hcond
          simp [hcond.1, hcond.2]
        · cases hc

theorem MemSteps.all_next_eq {m m1 : Mem α} (h : MemSteps m m1) : m1.next = m.next := by
  induction h with
  | refl => rfl
  | tail _ hs ih => rw [hs.one_next_eq, ih]

theorem MemSteps.all_grows {m m1 : Mem α} (h : MemSteps m m1) : Grows m m1 := by
  induction h with
  | refl => exact Grows.refl _
  | tail _ hs ih => exact ih.trans hs.one_grows

theorem MemSteps.single {m m1 : Mem α} (h : MemStep m m1) : MemSteps m m1 :=
  MemSteps.tail (MemSteps.refl m) h

/-- What an allocating constructor does: a fresh address, one `allocate` call, and a
block at that address or nothing. -/
theorem Allocates.spec {m m1 : Mem α} (h : Allocates m m1) :
    ∃ alloc, m1.next = m.next + 1 ∧ m1.trace = m.trace ++ [Event.allocate alloc (m.next + 1)] ∧
      ∀ b, b ≠ m.next + 1 → m1.blocks b = m.blocks b := by
  cases h with
  | fromRaw ptr del alloc =>
    exact ⟨alloc, rfl, rfl, fun b hb => by simp [SharedPtr.fromRaw, hb]⟩
  | allocateShared alloc args =>
    cases args with
    | none => exact ⟨alloc, rfl, rfl, fun b _ => rfl⟩
    | some v => exact ⟨alloc, rfl, rfl, fun b hb => by simp [AllocateShared, hb]⟩

theorem Allocates.destroyCount_eq {m m1 : Mem α} (h : Allocates m m1) (b : Nat) :
    destroyCount m1 b = destroyCount m b := by
  obtain ⟨alloc, _, ht, _⟩ := h.spec
  rw [destroyCount_of_trace ht, (allocate_event_counts _ _ b).1]
  rfl

theorem Allocates.deallocCount_eq {m m1 : Mem α} (h : Allocates m m1) (b : Nat) :
    deallocCount m1 b = deallocCount m b := by
  obtain ⟨alloc, _, ht, _⟩ := h.spec
  rw [deallocCount_of_trace ht, (allocate_event_counts _ _ b).2]
  rfl

/-- The memory effect of a statement: either one allocating constructor, or constructor
and destructor calls that do not allocate. -/
theorem step_effect {s s1 : State α} {op : Op α} (hs : step s op = some s1) :
    Allocates s.mem s1.mem ∨ MemSteps s.mem s1.mem := by
  cases op with
  | sp_default =>
    simp only [step, Option.some.injEq] at hs
    subst hs
    exact Or.inr (MemSteps.refl _)
  | sp_nullptr =>
    simp only [step, Option.some.injEq] at hs
    subst hs
    exact Or.inr (MemSteps.refl _)
  | sp_raw ptr del alloc =>
    simp only [step, Option.some.injEq] at hs
    subst hs
    exact Or.inl (Allocates.fromRaw _ _ _ _)
  | sp_copy i =>
    simp only [step] at hs
    cases hg : getVar s.strong i with
    | none => simp [hg] at hs
    | some o =>
      simp only [hg] at hs
      cases hc : SharedPtr.copy s.mem o with
      | none => simp [hc] at hs
      | some r =>
        obtain ⟨m1, h⟩ := r
        simp only [hc, Option.map_some', Option.some.injEq] at hs
        subst hs
        exact Or.inr (MemSteps.single (MemStep.sharedCopy hc))
  | sp_move i =>
    simp only [step] at hs
    cases hg : getVar s.strong i with
    | none => simp [hg] at hs
    | some o =>
      simp only [hg, Option.some.injEq] at hs
      subst hs
      exact Or.inr (MemSteps.refl _)
  | sp_copy_assign i j =>
    simp only [step, SharedPtr.copy_assign] at hs
    cases hgi : getVar s.strong i with
    | none => simp [hgi] at hs
    | some t =>
      cases hgj : getVar s.strong j with
      | none => simp [hgi, hgj] at hs
      | some o =>
        simp only [hgi, hgj] at hs
        cases hc : SharedPtr.copy s.mem o with
        | none => simp [hc] at hs
        | some r =>
          obtain ⟨m1, h⟩ := r
          simp only [hc] at hs
          cases hd : SharedPtr.destructor m1 { block_ := t.block_, object_ := t.object_ } with
          | none => simp [hd] at hs
          | some m2 =>
            simp only [hd, Option.map_some', Option.some.injEq] at hs
            subst hs
            exact Or.inr (MemSteps.tail (MemSteps.single (MemStep.sharedCopy hc))
              (MemStep.sharedDestructor hd))
  | sp_move_assign i j =>
    simp only [step, SharedPtr.move_assign] at hs
    cases hgi : getVar s.strong i with
    | none => simp [hgi] at hs
    | some t =>
      cases hgj : getVar s.strong j with
      | none => simp [hgi, hgj] at hs
      | some o =>
        simp only [hgi, hgj] at hs
        cases hgu : getVar (s.strong.set i (some (SharedPtr.move t).2)) j with
        | none => simp [hgu] at hs
        | some u =>
          simp only [hgu] at hs
          cases hd : SharedPtr.destructor s.mem (SharedPtr.move t).1 with
          | none => simp [hd] at hs
          | some m2 =>
            simp only [hd, Option.map_some', Option.some.injEq] at hs
            subst hs
            exact Or.inr (MemSteps.single (MemStep.sharedDestructor hd))
  | sp_reset i =>
    simp only [step, SharedPtr.reset] at hs
    cases hgi : getVar s.strong i with
    | none => simp [hgi] at hs
    | some t =>
      simp only [hgi] at hs
      cases hd : SharedPtr.destructor s.mem { block_ := t.block_, object_ := t.object_ } with
      | none => simp [hd] at hs
      | some m2 =>
        simp only [hd, Option.map_some', Option.some.injEq] at hs
        subst hs
        exact Or.inr (MemSteps.single (MemStep.sharedDestructor hd))
  | sp_destroy i =>
    simp only [step] at hs
    cases hgi : getVar s.strong i with
    | none => simp [hgi] at hs
    | some t =>
      simp only [hgi] at hs
      cases hd : SharedPtr.destructor s.mem t with
      | none => simp [hd] at hs
      | some m2 =>
        simp only [hd, Option.map_some', Option.some.injEq] at hs
        subst hs
        exact Or.inr (MemSteps.single (MemStep.sharedDestructor hd))
  | allocate_shared alloc args =>
    have hm : s1.mem = (AllocateShared s.mem alloc args).1 := by
      simp only [step] at hs
      cases hh : (AllocateShared s.mem alloc args).2 with
      | none =>
        simp only [hh, Option.some.injEq] at hs
        subst hs
        rfl
      | some h =>
        simp only [hh, Option.some.injEq] at hs
        subst hs
        rfl
    rw [hm]
    exact Or.inl (Allocates.allocateShared _ _ _)
  | make_shared args =>
    have hm : s1.mem = (AllocateShared s.mem std_allocator args).1 := by
      simp only [step] at hs
      cases hh : (MakeShared s.mem args).2 with
      | none =>
        simp only [hh, Option.some.injEq] at hs
        subst hs
        rfl
      | some h =>
        simp only [hh, Option.some.injEq] at hs
        subst hs
        rfl
    rw [hm]
    exact Or.inl (Allocates.allocateShared _ _ _)
  | wp_default =>
    simp only [step, Option.some.injEq] at hs
    subst hs
    exact Or.inr (MemSteps.refl _)
  | wp_from_shared i =>
    simp only [step] at hs
    cases hg : getVar s.strong i with
    | none => simp [hg] at hs
    | some o =>
      simp only [hg] at hs
      cases hc : WeakPtr.copy s.mem o with
      | none => simp [hc] at hs
      | some r =>
        obtain ⟨m1, h⟩ := r
        simp only [hc, Option.map_some', Option.some.injEq] at hs
        subst hs
        exact Or.inr (MemSteps.single (MemStep.weakCopy hc))
  | wp_copy i =>
    simp only [step] at hs
    cases hg : getVar s.weak i with
    | none => simp [hg] at hs
    | some o =>
      simp only [hg] at hs
      cases hc : WeakPtr.copy s.mem o with
      | none => simp [hc] at hs
      | some r =>
        obtain ⟨m1, h⟩ := r
        simp only [hc, Option.map_some', Option.some.injEq] at hs
        subst hs
        exact Or.inr (MemSteps.single (MemStep.weakCopy hc))
  | wp_move i =>
    simp only [step] at hs
    cases hg : getVar s.weak i with
    | none => simp [hg] at hs
    | some o =>
      simp only [hg, Option.some.injEq] at hs
      subst hs
      exact Or.inr (MemSteps.refl _)
  | wp_copy_assign i j =>
    simp only [step, WeakPtr.copy_assign] at hs
    cases hgi : getVar s.weak i with
    | none => simp [hgi] at hs
    | some t =>
      cases hgj : getVar s.weak j with
      | none => simp [hgi, hgj] at hs
      | some o =>
        simp only [hgi, hgj] at hs
        cases hc : WeakPtr.copy s.mem o with
        | none => simp [hc] at hs
        | some r =>
          obtain ⟨m1, h⟩ := r
          simp only [hc] at hs
          cases hd : WeakPtr.destructor m1 { block_ := t.block_, object_ := t.object_ } with
          | none => simp [hd] at hs
          | some m2 =>
            simp only [hd, Option.map_some', Option.some.injEq] at hs
            subst hs
            exact Or.inr (MemSteps.tail (MemSteps.single (MemStep.weakCopy hc))
              (MemStep.weakDestructor hd))
  | wp_move_assign i j =>
    simp only [step, WeakPtr.move_assign] at hs
    cases hgi : getVar s.weak i with
    | none => simp [hgi] at hs
    | some t =>
      cases hgj : getVar s.weak j with
      | none => simp [hgi, hgj] at hs
      | some o =>
        simp only [hgi, hgj] at hs
        cases hgt : getVar (s.weak.set i (some (WeakPtr.move t).2)) i with
        | none => simp [hgt] at hs
        | some t1 =>
          cases hgu : getVar (s.weak.set i (some (WeakPtr.move t).2)) j with
          | none => simp [hgt, hgu] at hs
          | some u =>
            simp only [hgt, hgu] at hs
            cases hd : WeakPtr.destructor s.mem (WeakPtr.move t).1 with
            | none => simp [hd] at hs
            | some m2 =>
              simp only [hd, Option.map_some', Option.some.injEq] at hs
              subst hs
              exact Or.inr (MemSteps.single (MemStep.weakDestructor hd))
  | wp_destroy i =>
    simp only [step] at hs
    cases hgi : getVar s.weak i with
    | none => simp [hgi] at hs
    | some t =>
      simp only [hgi] at hs
      cases hd : WeakPtr.destructor s.mem t with
      | none => simp [hd] at hs
      | some m2 =>
        simp only [hd, Option.map_some', Option.some.injEq] at hs
        subst hs
        exact Or.inr (MemSteps.single (MemStep.weakDestructor hd))
  | wp_lock i =>
    simp only [step] at hs
    cases hg : getVar s.weak i with
    | none => simp [hg] at hs
    | some w =>
      simp only [hg, WeakPtr.lock] at hs
      cases hc : SharedPtr.fromBlock s.mem w.block_ w.object_ with
      | none => simp [hc] at hs
      | some r =>
        obtain ⟨m1, h⟩ := r
        simp only [hc, Option.map_some', Option.some.injEq] at hs
        subst hs
        have hc2 : SharedPtr.copy s.mem w = some (m1, h) := hc
        exact Or.inr (MemSteps.single (MemStep.sharedCopy hc2))

/-! ### Inversion of `step` -/

theorem SharedPtr.shared_copy_snd {m m1 : Mem α} {o h : Handle}
    (hc : SharedPtr.copy m o = some (m1, h)) :
    SharedPtr.copy m o = some (m1, { block_ := o.block_, object_ := o.object_ }) := by
  obtain ⟨_, _, _, hh⟩ := SharedPtr.shared_copy_eq_some hc
  rw [hc, hh]

theorem WeakPtr.weak_copy_snd {m m1 : Mem α} {o h : Handle}
    (hc : WeakPtr.copy m o = some (m1, h)) :
    WeakPtr.copy m o = some (m1, { block_ := o.block_, object_ := o.object_ }) := by
  obtain ⟨_, _, _, hh⟩ := WeakPtr.weak_copy_eq_some hc
  rw [hc, hh]

/-- Every successful run of a statement is one of the cases of `StepRel`. -/
theorem step_rel {s s1 : State α} {op : Op α} (hs : step s op = some s1) : StepRel s op s1 := by
  cases op with
  | sp_default =>
    simp only [step, Option.some.injEq] at hs
    subst hs
    exact StepRel.sp_default
  | sp_nullptr =>
    simp only [step, Option.some.injEq] at hs
    subst hs
    exact StepRel.sp_nullptr
  | sp_raw ptr del alloc =>
    simp only [step, Option.some.injEq] at hs
    subst hs
    exact StepRel.sp_raw ptr del alloc
  | sp_copy i =>
    simp only [step] at hs
    cases hg : getVar s.strong i with
    | none => simp [hg] at hs
    | some o =>
      simp only [hg] at hs
      cases hc : SharedPtr.copy s.mem o with
      | none => simp [hc] at hs
      | some r =>
        obtain ⟨m1, h⟩ := r
        simp only [hc, Option.map_some', Option.some.injEq] at hs
        subst hs
        obtain ⟨_, _, _, hh⟩ := SharedPtr.shared_copy_eq_some hc
        subst hh
        exact StepRel.sp_copy hg hc
  | sp_move i =>
    simp only [step] at hs
    cases hg : getVar s.strong i with
    | none => simp [hg] at hs
    | some o =>
      simp only [hg, Option.some.injEq] at hs
      subst hs
      exact StepRel.sp_move hg
  | sp_copy_assign i j =>
    simp only [step, SharedPtr.copy_assign] at hs
    cases hgi : getVar s.strong i with
    | none => simp [hgi] at hs
    | some t =>
      cases hgj : getVar s.strong j with
      | none => simp [hgi, hgj] at hs
      | some o =>
        simp only [hgi, hgj] at hs
        cases hc : SharedPtr.copy s.mem o with
        | none => simp [hc] at hs
        | some r =>
          obtain ⟨m1, h⟩ := r
          simp only [hc] at hs
          cases hd : SharedPtr.destructor m1 { block_ := t.block_, object_ := t.object_ } with
          | none => simp [hd] at hs
          | some m2 =>
            simp only [hd, Option.map_some', Option.some.injEq] at hs
            subst hs
            obtain ⟨_, _, _, hh⟩ := SharedPtr.shared_copy_eq_some hc
            subst hh
            exact StepRel.sp_copy_assign hgi hgj hc hd
  | sp_move_assign i j =>
    simp only [step, SharedPtr.move_assign] at hs
    cases hgi : getVar s.strong i with
    | none => simp [hgi] at hs
    | some t =>
      cases hgj : getVar s.strong j with
      | none => simp [hgi, hgj] at hs
      | some o =>
        simp only [hgi, hgj] at hs
        cases hgu : getVar (s.strong.set i (some (SharedPtr.move t).2)) j with
        | none => simp [hgu] at hs
        | some u =>
          simp only [hgu] at hs
          cases hd : SharedPtr.destructor s.mem (SharedPtr.move t).1 with
          | none => simp [hd] at hs
          | some m2 =>
            simp only [hd, Option.map_some', Option.some.injEq] at hs
            subst hs
            exact StepRel.sp_move_assign hgi hgj hgu hd
  | sp_reset i =>
    simp only [step, SharedPtr.reset] at hs
    cases hgi : getVar s.strong i with
    | none => simp [hgi] at hs
    | some t =>
      simp only [hgi] at hs
      cases hd : SharedPtr.destructor s.mem { block_ := t.block_, object_ := t.object_ } with
      | none => simp [hd] at hs
      | some m2 =>
        simp only [hd, Option.map_some', Option.some.injEq] at hs
        subst hs
        exact StepRel.sp_reset hgi hd
  | sp_destroy i =>
    simp only [step] at hs
    cases hgi : getVar s.strong i with
    | none => simp [hgi] at hs
    | some t =>
      simp only [hgi] at hs
      cases hd : SharedPtr.destructor s.mem t with
      | none => simp [hd] at hs
      | some m2 =>
        simp only [hd, Option.map_some', Option.some.injEq] at hs
        subst hs
        exact StepRel.sp_destroy hgi hd
  | allocate_shared alloc args =>
    cases args with
    | none =>
      simp only [step, AllocateShared, Option.some.injEq] at hs
      subst hs
      exact StepRel.allocate_throws alloc
    | some v =>
      simp only [step, AllocateShared, Option.some.injEq] at hs
      subst hs
      exact StepRel.allocate_shared alloc v
  | make_shared args =>
    cases args with
    | none =>
      simp only [step, MakeShared, AllocateShared, Option.some.injEq] at hs
      subst hs
      exact StepRel.make_throws
    | some v =>
      simp only [step, MakeShared, AllocateShared, Option.some.injEq] at hs
      subst hs
      exact StepRel.make_shared v
  | wp_default =>
    simp only [step, Option.some.injEq] at hs
    subst hs
    exact StepRel.wp_default
  | wp_from_shared i =>
    simp only [step] at hs
    cases hg : getVar s.strong i with
    | none => simp [hg] at hs
    | some o =>
      simp only [hg] at hs
      cases hc : WeakPtr.copy s.mem o with
      | none => simp [hc] at hs
      | some r =>
        obtain ⟨m1, h⟩ := r
        simp only [hc, Option.map_some', Option.some.injEq] at hs
        subst hs
        obtain ⟨_, _, _, hh⟩ := WeakPtr.weak_copy_eq_some hc
        subst hh
        exact StepRel.wp_from_shared hg hc
  | wp_copy i =>
    simp only [step] at hs
    cases hg : getVar s.weak i with
    | none => simp [hg] at hs
    | some o =>
      simp only [hg] at hs
      cases hc : WeakPtr.copy s.mem o with
      | none => simp [hc] at hs
      | some r =>
        obtain ⟨m1, h⟩ := r
        simp only [hc, Option.map_some', Option.some.injEq] at hs
        subst hs
        obtain ⟨_, _, _, hh⟩ := WeakPtr.weak_copy_eq_some hc
        subst hh
        exact StepRel.wp_copy hg hc
  | wp_move i =>
    simp only [step] at hs
    cases hg : getVar s.weak i with
    | none => simp [hg] at hs
    | some o =>
      simp only [hg, Option.some.injEq] at hs
      subst hs
      exact StepRel.wp_move hg
  | wp_copy_assign i j =>
    simp only [step, WeakPtr.copy_assign] at hs
    cases hgi : getVar s.weak i with
    | none => simp [hgi] at hs
    | some t =>
      cases hgj : getVar s.weak j with
      | none => simp [hgi, hgj] at hs
      | some o =>
        simp only [hgi, hgj] at hs
        cases hc : WeakPtr.copy s.mem o with
        | none => simp [hc] at hs
        | some r =>
          obtain ⟨m1, h⟩ := r
          simp only [hc] at hs
          cases hd : WeakPtr.destructor m1 { block_ := t.block_, object_ := t.object_ } with
          | none => simp [hd] at hs
          | some m2 =>
            simp only [hd, Option.map_some', Option.some.injEq] at hs
            subst hs
            obtain ⟨_, _, _, hh⟩ := WeakPtr.weak_copy_eq_some hc
            subst hh
            exact StepRel.wp_copy_assign hgi hgj hc hd
  | wp_move_assign i j =>
    simp only [step, WeakPtr.move_assign] at hs
    cases hgi : getVar s.weak i with
    | none => simp [hgi] at hs
    | some t =>
      cases hgj : getVar s.weak j with
      | none => simp [hgi, hgj] at hs
      | some o =>
        simp only [hgi, hgj] at hs
        have hgt : getVar (s.weak.set i (some (WeakPtr.move t).2)) i
            = some (WeakPtr.move t).2 := getVar_set_self (getVar_lt hgi)
        cases hgu : getVar (s.weak.set i (some (WeakPtr.move t).2)) j with
        | none => simp [hgt, hgu] at hs
        | some u =>
          simp only [hgt, hgu] at hs
          cases hd : WeakPtr.destructor s.mem (WeakPtr.move t).1 with
          | none => simp [hd] at hs
          | some m2 =>
            simp only [hd, Option.map_some', Option.some.injEq] at hs
            subst hs
            exact StepRel.wp_move_assign hgi hgj hgu hd
  | wp_destroy i =>
    simp only [step] at hs
    cases hgi : getVar s.weak i with
    | none => simp [hgi] at hs
    | some t =>
      simp only [hgi] at hs
      cases hd : WeakPtr.destructor s.mem t with
      | none => simp [hd] at hs
      | some m2 =>
        simp only [hd, Option.map_some', Option.some.injEq] at hs
        subst hs
        exact StepRel.wp_destroy hgi hd
  | wp_lock i =>
    simp only [step] at hs
    cases hg : getVar s.weak i with
    | none => simp [hg] at hs
    | some w =>
      simp only [hg, WeakPtr.lock] at hs
      cases hc : SharedPtr.fromBlock s.mem w.block_ w.object_ with
      | none => simp [hc] at hs
      | some r =>
        obtain ⟨m1, h⟩ := r
        simp only [hc, Option.map_some', Option.some.injEq] at hs
        subst hs
        have hc2 : SharedPtr.copy s.mem w = some (m1, h) := hc
        obtain ⟨_, _, _, hh⟩ := SharedPtr.shared_copy_eq_some hc2
        subst hh
        exact StepRel.wp_lock hg hc2

/-! ### One statement, two states -/

theorem Allocates.alloc_grows {m m1 : Mem α} (h : Allocates m m1) : Grows m m1 := by
  obtain ⟨alloc, hn, ht, hbo⟩ := h.spec
  constructor
  · exact ⟨_, ht⟩
  · omega
  · intro h0
    rw [hbo 0 (by omega)]
    exact h0
  · intro b hb hd
    rw [hbo b (by omega), h.destroyCount_eq, h.deallocCount_eq]
    exact ⟨hd, rfl, rfl⟩
  · intro b hl hd
    by_cases hbe : b = m.next + 1
    · subst hbe
      cases h with
      | fromRaw ptr del alloc => simp [SharedPtr.fromRaw] at hd
      | allocateShared alloc args =>
        cases args with
        | none =>
          have hd2 : m.blocks (m.next + 1) = none := hd
          rw [hd2] at hl
          cases hl
        | some v => simp [AllocateShared] at hd
    · rw [hbo b hbe] at hd
      rw [hd] at hl
      cases hl

theorem step_grows {s s1 : State α} {op : Op α} (hs : step s op = some s1) :
    Grows s.mem s1.mem := by
  rcases step_effect hs with h | h
  · exact h.alloc_grows
  · exact h.all_grows

theorem refs_moveAssigned {l : List (Option Handle)} {i j : Nat} {t u : Handle}
    (hgi : getVar l i = some t) (hgu : getVar (l.set i (some Handle.null)) j = some u)
    {b : Nat} (hb : b ≠ 0) :
    refs (moveAssigned l i j u) b + (if t.block_ = b then 1 else 0) = refs l b := by
  have hi := getVar_lt hgi
  have hg1i : getVar (l.set i (some Handle.null)) i = some Handle.null := getVar_set_self hi
  obtain ⟨x, hg2j, hx⟩ : ∃ x, getVar
      ((l.set i (some Handle.null)).set i (some { block_ := u.block_, object_ := u.object_ })) j
        = some x ∧ x.block_ = u.block_ := by
    by_cases hij : i = j
    · subst hij
      exact ⟨_, getVar_set_self (by simpa using hi), rfl⟩
    · refine ⟨u, ?_, rfl⟩
      rw [getVar_set_ne hij]
      exact hgu
  have h1 := refs_set_null hgi hb ObjPtr.null
  have h2 := refs_set_some hg1i { block_ := u.block_, object_ := u.object_ } b
  have h3 := refs_set_null hg2j hb ObjPtr.null
  have h0 : ¬ (0 = b) := fun hc => hb hc.symm
  simp only [Handle.null, h0, if_false, Nat.add_zero] at h2
  rw [hx] at h3
  simp only [Handle.null] at h3
  unfold moveAssigned
  simp only [Handle.null]
  omega

/-- A statement takes at most one strong handle away from a block. -/
theorem step_strong_drop {s s1 : State α} {op : Op α} (hs : step s op = some s1)
    {b : Nat} (hb : b ≠ 0) : refs s.strong b ≤ refs s1.strong b + 1 := by
  have happ : ∀ x : Option Handle, refs s.strong b ≤ refs (s.strong ++ [x]) b + 1 := by
    intro x
    rw [refs_append_one]
    omega
  cases step_rel hs with
  | sp_default => exact happ _
  | sp_nullptr => exact happ _
  | sp_raw ptr del alloc => exact happ _
  | sp_copy hg hc => exact happ _
  | sp_move hg =>
    show _ ≤ refs (s.strong.set _ _ ++ [_]) b + 1
    rw [refs_append_one, pointsTo_some]
    have := refs_set_null hg hb ObjPtr.null
    simp only [Handle.null, decide_eq_true_eq]
    omega
  | @sp_copy_assign i j t o m1 m2 hgi hgj hc hd =>
    have := refs_set_some hgi { block_ := o.block_, object_ := o.object_ } b
    show _ ≤ refs (s.strong.set _ _) b + 1
    split at this <;> omega
  | sp_move_assign hgi hgj hgu hd =>
    have := refs_moveAssigned hgi hgu hb
    show _ ≤ refs (moveAssigned _ _ _ _) b + 1
    split at this <;> omega
  | sp_reset hgi hd =>
    have := refs_set_null hgi hb ObjPtr.null
    show _ ≤ refs (s.strong.set _ _) b + 1
    simp only [Handle.null]
    split at this <;> omega
  | sp_destroy hgi hd =>
    have := refs_set_none hgi b
    show _ ≤ refs (s.strong.set _ _) b + 1
    split at this <;> omega
  | allocate_throws alloc => exact Nat.le_succ _
  | allocate_shared alloc v => exact happ _
  | make_throws => exact Nat.le_succ _
  | make_shared v => exact happ _
  | wp_default => exact Nat.le_succ _
  | wp_from_shared hg hc => exact Nat.le_succ _
  | wp_copy hg hc => exact Nat.le_succ _
  | wp_move hg => exact Nat.le_succ _
  | wp_copy_assign hgi hgj hc hd => exact Nat.le_succ _
  | wp_move_assign hgi hgj hgu hd => exact Nat.le_succ _
  | wp_destroy hgi hd => exact Nat.le_succ _
  | wp_lock hg hc => exact happ _

theorem Inv.sharedOf_eq {m : Mem α} {S W : List (Option Handle)} (hI : Inv m S W)
    {b : Nat} {blk : ControlBlock α} (hb : m.blocks b = some blk) :
    sharedOf m b = refs S b := by
  unfold sharedOf
  rw [hI.deref_eq, hb]
  exact (hI.counts b blk hb).1

theorem Inv.weakOf_eq {m : Mem α} {S W : List (Option Handle)} (hI : Inv m S W)
    {b : Nat} {blk : ControlBlock α} (hb : m.blocks b = some blk) :
    weakOf m b = refs W b := by
  unfold weakOf
  rw [hI.deref_eq, hb]
  exact (hI.counts b blk hb).2

theorem Inv.sharedOf_dead {m : Mem α} {S W : List (Option Handle)} (hI : Inv m S W)
    {b : Nat} (hb : m.blocks b = none) : sharedOf m b = 0 := by
  unfold sharedOf
  rw [hI.deref_eq, hb]

theorem Inv.isLive_eq {m : Mem α} {S W : List (Option Handle)} (hI : Inv m S W) (b : Nat) :
    isLive m b = (m.blocks b).isSome := by
  unfold isLive
  rw [hI.deref_eq]

/-- The events of one statement, block by block, between two good states. -/
theorem step_accounts {s s1 : State α} {op : Op α} (hok : s.Ok) (hok1 : s1.Ok)
    (hs : step s op = some s1) (b : Nat) :
    destroyCount s1.mem b = destroyCount s.mem b +
        (if sharedOf s.mem b = 1 ∧ sharedOf s1.mem b = 0 then 1 else 0) ∧
      deallocCount s1.mem b = deallocCount s.mem b +
        (if isLive s.mem b = true ∧ isLive s1.mem b = false then 1 else 0) := by
  have hI := hok.1
  have hI1 := hok1.1
  have hG := step_grows hs
  rw [hI.isLive_eq, hI1.isLive_eq]
  cases hb : s.mem.blocks b with
  | some blk =>
    have hne := hI.blocks_ne_zero hb
    have hdrop := step_strong_drop hs hne
    have hlt := hI.live_trace b blk hb
    have hmono := hG.destroyCount_le b
    rw [hI.sharedOf_eq hb, hlt.1, hlt.2]
    rw [hlt.2] at hmono
    cases hb1 : s1.mem.blocks b with
    | some blk1 =>
      have hlt1 := hI1.live_trace b blk1 hb1
      rw [hI1.sharedOf_eq hb1, hlt1.1, hlt1.2]
      rw [hlt1.2] at hmono
      constructor
      · by_cases h1 : refs s1.strong b = 0
        · by_cases h0 : refs s.strong b = 0
          · simp [h0, h1]
          · have : refs s.strong b = 1 := by omega
            simp [this, h1]
        · have h0 : refs s.strong b ≠ 0 := by
            intro hc
            rw [if_pos hc, if_neg h1] at hmono
            omega
          simp [h0, h1]
      · simp
    | none =>
      have hgone := hG.gone b (by rw [hb]; rfl) hb1
      have hd1 := hI1.dead b hb1
      have hr := (hd1.1 hne).1
      rw [hI1.sharedOf_dead hb1]
      rw [hr] at hdrop
      constructor
      · have : destroyCount s1.mem b = 1 := by omega
        rw [this]
        by_cases h0 : refs s.strong b = 0
        · simp [h0]
        · have : refs s.strong b = 1 := by omega
          simp [this]
      · have : deallocCount s1.mem b = 1 := by omega
        rw [this]
        simp
  | none =>
    rw [hI.sharedOf_dead hb]
    simp only [Nat.zero_ne_one, false_and, if_false, Nat.add_zero, Option.isSome_none,
      Bool.false_eq_true]
    by_cases hle : b ≤ s.mem.next
    · have := hG.dead_stays b hle hb
      exact ⟨this.2.1, this.2.2⟩
    · rcases step_effect hs with ha | hm
      · exact ⟨ha.destroyCount_eq b, ha.deallocCount_eq b⟩
      · have hf := hI.fresh b (by omega)
        have hf1 := hI1.fresh b (by rw [hm.all_next_eq]; omega)
        rw [hf.2.1, hf.2.2, hf1.2.1, hf1.2.2]
        exact ⟨rfl, rfl⟩

theorem State.Ok.counts_le_one {s : State α} (hok : s.Ok) (b : Nat) :
    destroyCount s.mem b ≤ 1 ∧ deallocCount s.mem b ≤ 1 := by
  cases hb : s.mem.blocks b with
  | some blk =>
    have := hok.1.live_trace b blk hb
    rw [this.1, this.2]
    split <;> omega
  | none =>
    have := (hok.1.dead b hb).2
    omega

/-! ### Regular blocks call the deleter, and nothing else -/

theorem DeleterOnly.of_destroy_object {m m1 : Mem α} {b del : Nat} {ptr : ObjPtr} {b0 : Nat}
    (h : DeleterOnly m b del ptr) (hd : destroy_object m b0 = some m1) :
    DeleterOnly m1 b del ptr := by
  obtain ⟨hb0, hle, hk, htr⟩ := h
  unfold destroy_object at hd
  cases hder : m.deref b0 with
  | none => simp [hder] at hd
  | some blk0 =>
    obtain ⟨hne0, hbl0⟩ := deref_eq_some hder
    simp only [hder] at hd
    cases hkind : blk0.kind with
    | ControlBlockRegular ptr0 del0 alloc0 =>
      simp only [hkind, Option.some.injEq] at hd
      subst hd
      refine ⟨hb0, hle, hk, ?_⟩
      intro e he hdo
      simp only [log_trace, List.mem_append, List.mem_singleton] at he
      rcases he with he | he
      · exact htr e he hdo
      · subst he
        simp only [Event.isDestroyObject, decide_eq_true_eq] at hdo
        subst hdo
        obtain ⟨alloc, hka⟩ := hk blk0 hbl0
        rw [hkind] at hka
        cases hka
        rfl
    | ControlBlockMakeShared st0 ptr0 alloc0 =>
      simp only [hkind, Option.some.injEq] at hd
      subst hd
      have hne : b ≠ b0 := by
        intro hc
        subst hc
        obtain ⟨alloc, hka⟩ := hk blk0 hbl0
        rw [hkind] at hka
        cases hka
      refine ⟨hb0, hle, ?_, ?_⟩
      · intro blk hblk
        simp only [log_blocks, setBlock_blocks, hne, if_false] at hblk
        exact hk blk hblk
      · intro e he hdo
        simp only [log_trace, setBlock_trace, List.mem_append, List.mem_singleton] at he
        rcases he with he | he
        · exact htr e he hdo
        · subst he
          simp only [Event.isDestroyObject, decide_eq_true_eq] at hdo
          exact absurd hdo.symm hne

theorem DeleterOnly.of_deallocate {m m1 : Mem α} {b del : Nat} {ptr : ObjPtr} {b0 : Nat}
    (h : DeleterOnly m b del ptr) (hd : destroy_and_deallocate_block m b0 = some m1) :
    DeleterOnly m1 b del ptr := by
  obtain ⟨hb0, hle, hk, htr⟩ := h
  have key : ∀ alloc0, DeleterOnly ((m.setBlock b0 none).log [Event.deallocate alloc0 b0])
      b del ptr := by
    intro alloc0
    refine ⟨hb0, hle, ?_, ?_⟩
    · intro blk hblk
      simp only [log_blocks, setBlock_blocks] at hblk
      split at hblk
      · cases hblk
      · exact hk blk hblk
    · intro e he hdo
      simp only [log_trace, setBlock_trace, List.mem_append, List.mem_singleton] at he
      rcases he with he | he
      · exact htr e he hdo
      · subst he
        simp [Event.isDestroyObject] at hdo
  unfold destroy_and_deallocate_block at hd
  cases hder : m.deref b0 with
  | none => simp [hder] at hd
  | some blk0 =>
    simp only [hder] at hd
    cases hkind : blk0.kind with
    | ControlBlockRegular ptr0 del0 alloc0 =>
      simp only [hkind, Option.some.injEq] at hd
      subst hd
      exact key alloc0
    | ControlBlockMakeShared st0 ptr0 alloc0 =>
      simp only [hkind, Option.some.injEq] at hd
      subst hd
      exact key alloc0

theorem DeleterOnly.of_counts {m : Mem α} {b del : Nat} {ptr : ObjPtr} {b0 : Nat}
    {blk0 : ControlBlock α} (h : DeleterOnly m b del ptr) (blk1 : ControlBlock α)
    (hb : m.blocks b0 = some blk0) (hk1 : blk1.kind = blk0.kind) : DeleterOnly (m.setBlock b0 (some blk1)) b del ptr := by
  obtain ⟨hb0, hle, hk, htr⟩ := h
  refine ⟨hb0, hle, ?_, htr⟩
  intro blk hblk
  simp only [setBlock_blocks] at hblk
  split at hblk
  · rename_i he
    subst he
    cases hblk
    rw [hk1]
    exact hk blk0 hb
  · exact hk blk hblk

theorem DeleterOnly.of_memStep {m m1 : Mem α} {b del : Nat} {ptr : ObjPtr}
    (h : DeleterOnly m b del ptr) (hs : MemStep m m1) : DeleterOnly m1 b del ptr := by
  cases hs with
  | sharedCopy hc =>
    obtain ⟨blk, hb, hm1, _⟩ := SharedPtr.shared_copy_eq_some hc
    rw [hm1]
    exact h.of_counts _ (deref_eq_some hb).2 rfl
  | weakCopy hc =>
    obtain ⟨blk, hb, hm1, _⟩ := WeakPtr.weak_copy_eq_some hc
    rw [hm1]
    exact h.of_counts _ (deref_eq_some hb).2 rfl
  | @sharedDestructor t hd =>
    rcases SharedPtr.shared_destructor_cases hd with he | ⟨blk, hb⟩
    · rw [he]
      exact h
    · have hnull : ¬ (t.block_ = 0 ∧ t.object_ = ObjPtr.null) :=
        fun hc => (deref_eq_some hb).1 hc.1
      have h1 := h.of_counts { blk with shared_count := size_dec blk.shared_count }
        (deref_eq_some hb).2 rfl
      simp only [SharedPtr.destructor, hnull, if_false, hb] at hd
      split at hd
      · cases hd
        exact h1
      · split at hd
        · exact h1.of_destroy_object hd
        · cases hdo : destroy_object (m.setBlock t.block_
              (some { blk with shared_count := size_dec blk.shared_count })) t.block_ with
          | none => simp [hdo] at hd
          | some m2 =>
            simp only [hdo, Option.bind_some] at hd
            exact (h1.of_destroy_object hdo).of_deallocate hd
  | @weakDestructor t hd =>
    rcases WeakPtr.weak_destructor_cases hd with he | ⟨blk, hb⟩
    · rw [he]
      exact h
    · have hnull : ¬ (t.block_ = 0 ∧ t.object_ = ObjPtr.null) :=
        fun hc => (deref_eq_some hb).1 hc.1
      have h1 := h.of_counts { blk with weak_count := size_dec blk.weak_count }
        (deref_eq_some hb).2 rfl
      simp only [WeakPtr.destructor, hnull, if_false, hb] at hd
      split at hd
      · cases hd
        exact h1
      · exact h1.of_deallocate hd

theorem DeleterOnly.of_memSteps {m m1 : Mem α} {b del : Nat} {ptr : ObjPtr}
    (h : DeleterOnly m b del ptr) (hs : MemSteps m m1) : DeleterOnly m1 b del ptr := by
  induction hs with
  | refl => exact h
  | tail _ hs ih => exact ih.of_memStep hs

theorem DeleterOnly.of_allocates {m m1 : Mem α} {b del : Nat} {ptr : ObjPtr}
    (h : DeleterOnly m b del ptr) (hs : Allocates m m1) : DeleterOnly m1 b del ptr := by
  obtain ⟨hb0, hle, hk, htr⟩ := h
  obtain ⟨alloc, hn, ht, hbo⟩ := hs.spec
  refine ⟨hb0, by omega, ?_, ?_⟩
  · intro blk hblk
    rw [hbo b (by omega)] at hblk
    exact hk blk hblk
  · intro e he hdo
    rw [ht] at he
    simp only [List.mem_append, List.mem_singleton] at he
    rcases he with he | he
    · exact htr e he hdo
    · subst he
      simp [Event.isDestroyObject] at hdo

theorem DeleterOnly.of_runFrom {ops : List (Op α)} {s s1 : State α} {b del : Nat} {ptr : ObjPtr}
    (h : DeleterOnly s.mem b del ptr) (hr : runFrom s ops = some s1) :
    DeleterOnly s1.mem b del ptr := by
  induction ops generalizing s with
  | nil =>
    simp only [runFrom, Option.some.injEq] at hr
    subst hr
    exact h
  | cons op ops ih =>
    simp only [runFrom] at hr
    cases he : exec s op with
    | none => simp [he] at hr
    | some s2 =>
      simp only [he] at hr
      obtain ⟨_, hst, _⟩ := exec_eq_some he
      rcases step_effect hst with ha | hm
      · exact ih (h.of_allocates ha) hr
      · exact ih (h.of_memSteps hm) hr

theorem runFrom_grows {ops : List (Op α)} {s s1 : State α} (hr : runFrom s ops = some s1) :
    Grows s.mem s1.mem := by
  induction ops generalizing s with
  | nil =>
    simp only [runFrom, Option.some.injEq] at hr
    subst hr
    exact Grows.refl _
  | cons op ops ih =>
    simp only [runFrom] at hr
    cases he : exec s op with
    | none => simp [he] at hr
    | some s2 =>
      simp only [he] at hr
      obtain ⟨_, hst, _⟩ := exec_eq_some he
      exact (step_grows hst).trans (ih hr)

theorem countP_eq_count_of_forall {l : List Event} {P : Event → Bool} {x : Event}
    (hx : P x = true) (h : ∀ e, e ∈ l → P e = true → e = x) : l.countP P = l.count x := by
  induction l with
  | nil => rfl
  | cons a l ih =>
    have ih2 := ih (fun e he => h e (List.mem_cons_of_mem _ he))
    rw [List.countP_cons, List.count_cons, ih2]
    by_cases hpa : P a = true
    · have := h a (List.mem_cons_self _ _) hpa
      subst this
      simp [hpa]
    · have hne : ¬ (a = x) := by
        intro hc
        rw [hc] at hpa
        exact hpa hx
      simp [hpa, hne]


/-! ## Properties of the specification -/

/-- C1: along every program (with `lock()` only on weak handles that are not expired), in
every statement and for every control block `b`: `destroy_object` is called on `b` exactly
when the statement takes `shared_count` of `b` from 1 to 0, and then once;
`destroy_and_deallocate_block` is called on `b` exactly when `b` is a constructed block
before the statement and gone after it, and then once, which is the statement after which
no strong and no weak handle is left on `b`, equivalently both counters have reached 0;
and neither call is ever made twice on the same block. -/
theorem lifetime_events_exact (ops : List (Op α)) (s s1 : State α) (op : Op α) (b : Nat)
    (hr : run ops = some s) (he : exec s op = some s1) :
    destroyCount s1.mem b = destroyCount s.mem b +
        (if sharedOf s.mem b = 1 ∧ sharedOf s1.mem b = 0 then 1 else 0) ∧
      deallocCount s1.mem b = deallocCount s.mem b +
        (if isLive s.mem b = true ∧ isLive s1.mem b = false then 1 else 0) ∧
      (isLive s.mem b = true →
        ((isLive s1.mem b = false ↔ refs s1.strong b = 0 ∧ refs s1.weak b = 0) ∧
         (isLive s1.mem b = false ↔ sharedOf s1.mem b = 0 ∧ weakOf s1.mem b = 0))) ∧
      destroyCount s1.mem b ≤ 1 ∧ deallocCount s1.mem b ≤ 1 := by
  have hok := run_ok hr
  have hok1 := exec_ok hok he
  obtain ⟨_, hst, _⟩ := exec_eq_some he
  obtain ⟨h1, h2⟩ := step_accounts hok hok1 hst b
  refine ⟨h1, h2, fun hl => ?_, hok1.counts_le_one b⟩
  rw [hok.1.isLive_eq] at hl
  have hne : b ≠ 0 := by
    intro hc
    rw [hc, hok.1.null_free] at hl
    cases hl
  rw [hok1.1.isLive_eq]
  cases hb1 : s1.mem.blocks b with
  | none =>
    have hd := (hok1.1.dead b hb1).1 hne
    have hsh : sharedOf s1.mem b = 0 := hok1.1.sharedOf_dead hb1
    have hwk : weakOf s1.mem b = 0 := by
      unfold weakOf
      rw [hok1.1.deref_eq, hb1]
    simp [hd.1, hd.2, hsh, hwk]
  | some blk1 =>
    have hh := hok1.1.held b blk1 hb1
    rw [hok1.1.sharedOf_eq hb1, hok1.1.weakOf_eq hb1]
    simp only [Option.isSome_some, Bool.true_eq_false, false_iff, not_and]
    constructor <;> intro h0 <;> omega

/-- C1, the scenario `p = MakeShared<Trace>(); w = WeakPtr(p);` then `destroy p`: the
object is destroyed in that statement and the block survives. -/
theorem lifetime_events_exact_witness :
    ∃ s s1 : State Nat,
      run [Op.make_shared (some 0), Op.wp_from_shared 0] = some s ∧
      exec s (Op.sp_destroy 0) = some s1 ∧
      (destroyCount s1.mem 1 = destroyCount s.mem 1 +
        (if sharedOf s.mem 1 = 1 ∧ sharedOf s1.mem 1 = 0 then 1 else 0) ∧
      deallocCount s1.mem 1 = deallocCount s.mem 1 +
        (if isLive s.mem 1 = true ∧ isLive s1.mem 1 = false then 1 else 0) ∧
      (isLive s.mem 1 = true →
        ((isLive s1.mem 1 = false ↔ refs s1.strong 1 = 0 ∧ refs s1.weak 1 = 0) ∧
         (isLive s1.mem 1 = false ↔ sharedOf s1.mem 1 = 0 ∧ weakOf s1.mem 1 = 0))) ∧
      destroyCount s1.mem 1 ≤ 1 ∧ deallocCount s1.mem 1 ≤ 1) :=
  ⟨_, _, rfl, rfl,
    lifetime_events_exact [Op.make_shared (some 0), Op.wp_from_shared 0] _ _ (Op.sp_destroy 0) 1
      rfl rfl⟩

/-- C2: in every state a program reaches (with `lock()` only on weak handles that are not
expired), every constructed control block has `shared_count` equal to the number of live
strong handles pointing at it and `weak_count` equal to the number of live weak handles
pointing at it, and `use_count()` of every engaged strong handle is the number of live
strong handles sharing its block. -/
theorem counters_match_handles (ops : List (Op α)) (s : State α) (hr : run ops = some s) :
    (∀ b blk, s.mem.deref b = some blk →
      blk.shared_count = refs s.strong b ∧ blk.weak_count = refs s.weak b) ∧
    (∀ i h, getVar s.strong i = some h → h.block_ ≠ 0 →
      SharedPtr.use_count s.mem h = some (refs s.strong h.block_)) := by
  have hok := run_ok hr
  constructor
  · intro b blk hb
    exact hok.1.counts b blk (deref_eq_some hb).2
  · intro i h hg hne
    obtain ⟨blk, hblk, hsc, _⟩ := hok.strong_block hg hne
    simp [SharedPtr.use_count, hne, deref_of_ne hne, hblk, hsc]

/-- C2, the scenario `p = MakeShared<Trace>(); q = p; r = p`. -/
theorem counters_match_handles_witness :
    ∃ s : State Nat,
      run [Op.make_shared (some 0), Op.sp_copy 0, Op.sp_copy 0] = some s ∧
      ((∀ b blk, s.mem.deref b = some blk →
        blk.shared_count = refs s.strong b ∧ blk.weak_count = refs s.weak b) ∧
      (∀ i h, getVar s.strong i = some h → h.block_ ≠ 0 →
        SharedPtr.use_count s.mem h = some (refs s.strong h.block_))) ∧
      SharedPtr.use_count s.mem { block_ := 1, object_ := ObjPtr.inline 1 } = some 3 :=
  ⟨_, rfl,
    counters_match_handles [Op.make_shared (some 0), Op.sp_copy 0, Op.sp_copy 0] _ rfl, rfl⟩

theorem size_dec_one : size_dec 1 = 0 := by
  unfold size_dec SIZE_MOD
  norm_num

/-- C3: `AllocateShared<T>(alloc, args...)`, when `T(args...)` builds `v`, makes exactly
one `allocate` call through `alloc`, constructs one embedded block holding `v` in its
inline storage with `shared_count = 1` and `weak_count = 0`, and returns a handle on it
with `use_count() == 1` and `*get() == v`; destroying that handle makes exactly one
destructor call for the object and one `deallocate` call through `alloc` and removes the
block; and `MakeShared<T>(args...)` is `AllocateShared<T>(std::allocator<T>(), args...)`. -/
theorem allocate_shared_contract (m : Mem α) (alloc : Nat) (v : α) :
    (AllocateShared m alloc (some v)).2
        = some { block_ := m.next + 1, object_ := ObjPtr.inline (m.next + 1) } ∧
      (AllocateShared m alloc (some v)).1.trace
        = m.trace ++ [Event.allocate alloc (m.next + 1)] ∧
      (AllocateShared m alloc (some v)).1.blocks (m.next + 1)
        = some { shared_count := 1, weak_count := 0,
                 kind := BlockKind.ControlBlockMakeShared (some v)
                   (ObjPtr.inline (m.next + 1)) alloc } ∧
      (∀ c, c ≠ m.next + 1 → (AllocateShared m alloc (some v)).1.blocks c = m.blocks c) ∧
      SharedPtr.use_count (AllocateShared m alloc (some v)).1
        { block_ := m.next + 1, object_ := ObjPtr.inline (m.next + 1) } = some 1 ∧
      weakOf (AllocateShared m alloc (some v)).1 (m.next + 1) = 0 ∧
      SharedPtr.star (AllocateShared m alloc (some v)).1
        { block_ := m.next + 1, object_ := ObjPtr.inline (m.next + 1) } = some v ∧
      (∃ m2, SharedPtr.destructor (AllocateShared m alloc (some v)).1
          { block_ := m.next + 1, object_ := ObjPtr.inline (m.next + 1) } = some m2 ∧
        m2.trace = (AllocateShared m alloc (some v)).1.trace ++
          [Event.destructor (m.next + 1) (ObjPtr.inline (m.next + 1)),
           Event.deallocate alloc (m.next + 1)] ∧
        m2.blocks (m.next + 1) = none ∧
        (∀ c, c ≠ m.next + 1 → m2.blocks c = m.blocks c)) ∧
      (∀ args : Option α, MakeShared m args = AllocateShared m std_allocator args) := by
  refine ⟨rfl, rfl, by simp [AllocateShared], fun c hc => by simp [AllocateShared, hc],
    by simp [AllocateShared, SharedPtr.use_count, Mem.deref],
    by simp [AllocateShared, weakOf, Mem.deref],
    by simp [AllocateShared, SharedPtr.star, SharedPtr.get, Mem.object, Mem.deref], ?_,
    fun _ => rfl⟩
  simp [AllocateShared, SharedPtr.destructor, Mem.deref, size_dec_one, destroy_object,
      destroy_and_deallocate_block]
  intro c hc
  simp [hc]

/-- C4: `SharedPtr(p, d, a)` returns a handle with `get() == p` and `use_count() == 1` on a
new regular block with `shared_count = 1`, `weak_count = 0` that stores `p`, `d` and `a`.
Whatever the program does afterwards, every `destroy_object` call on that block is the
call `d(p)`, the destructor of the object is never run for that block, and `d(p)` has been
called once if no strong handle is left on the block and not at all otherwise; the call
is made in the statement that takes `shared_count` from 1 to 0. -/
theorem raw_pointer_contract (ops ops2 : List (Op α)) (s s1 s2 : State α) (p : ObjPtr)
    (d a : Nat) (hr : run ops = some s) (he : exec s (Op.sp_raw p d a) = some s1)
    (hr2 : runFrom s1 ops2 = some s2) :
    (SharedPtr.fromRaw s.mem p d a).2 = { block_ := s.mem.next + 1, object_ := p } ∧
      SharedPtr.get (SharedPtr.fromRaw s.mem p d a).2 = p ∧
      SharedPtr.use_count (SharedPtr.fromRaw s.mem p d a).1 (SharedPtr.fromRaw s.mem p d a).2
        = some 1 ∧
      (SharedPtr.fromRaw s.mem p d a).1.blocks (s.mem.next + 1)
        = some { shared_count := 1, weak_count := 0,
                 kind := BlockKind.ControlBlockRegular p d a } ∧
      s1 = { mem := (SharedPtr.fromRaw s.mem p d a).1,
             strong := s.strong ++ [some (SharedPtr.fromRaw s.mem p d a).2],
             weak := s.weak } ∧
      (∀ e, e ∈ s2.mem.trace → e.isDestroyObject (s.mem.next + 1) = true →
        e = Event.deleter (s.mem.next + 1) d p) ∧
      (∀ q, s2.mem.trace.count (Event.destructor (s.mem.next + 1) q) = 0) ∧
      s2.mem.trace.count (Event.deleter (s.mem.next + 1) d p)
        = (if refs s2.strong (s.mem.next + 1) = 0 then 1 else 0) ∧
      (∀ op s3, exec s2 op = some s3 →
        s3.mem.trace.count (Event.deleter (s.mem.next + 1) d p)
          = s2.mem.trace.count (Event.deleter (s.mem.next + 1) d p) +
            (if sharedOf s2.mem (s.mem.next + 1) = 1 ∧ sharedOf s3.mem (s.mem.next + 1) = 0
              then 1 else 0)) := by
  have hok := run_ok hr
  have hok1 := exec_ok hok he
  have hok2 := runFrom_ok hok1 hr2
  obtain ⟨_, hst, _⟩ := exec_eq_some he
  have hs1 : s1 = { mem := (SharedPtr.fromRaw s.mem p d a).1,
                    strong := s.strong ++ [some (SharedPtr.fromRaw s.mem p d a).2],
                    weak := s.weak } := by
    simp only [step, Option.some.injEq] at hst
    exact hst.symm
  have hblk : (SharedPtr.fromRaw s.mem p d a).1.blocks (s.mem.next + 1)
        = some { shared_count := 1, weak_count := 0,
                 kind := BlockKind.ControlBlockRegular p d a } := by
    simp [SharedPtr.fromRaw]
  have hD1 : DeleterOnly s1.mem (s.mem.next + 1) d p := by
    rw [hs1]
    refine ⟨by omega, Nat.le_refl _, ?_, ?_⟩
    · intro blk hb
      rw [hblk] at hb
      cases hb
      exact ⟨a, rfl⟩
    · intro e hmem hdo
      have hfr := (hok.1.fresh (s.mem.next + 1) (by omega)).2.1
      unfold destroyCount at hfr
      rw [List.countP_eq_zero] at hfr
      simp only [SharedPtr.fromRaw, setBlock_trace, List.mem_append, List.mem_singleton] at hmem
      rcases hmem with hmem | hmem
      · exact absurd hdo (hfr e hmem)
      · subst hmem
        simp [Event.isDestroyObject] at hdo
  have hD2 := hD1.of_runFrom hr2
  have hcount : ∀ m : Mem α, DeleterOnly m (s.mem.next + 1) d p →
      m.trace.count (Event.deleter (s.mem.next + 1) d p) = destroyCount m (s.mem.next + 1) := by
    intro m hD
    unfold destroyCount
    exact (countP_eq_count_of_forall (by simp [Event.isDestroyObject]) hD.2.2.2).symm
  refine ⟨rfl, rfl, by simp [SharedPtr.fromRaw, SharedPtr.use_count, Mem.deref], hblk, hs1,
    hD2.2.2.2, ?_, ?_, ?_⟩
  · intro q
    rw [List.count_eq_zero]
    intro hmem
    have := hD2.2.2.2 _ hmem (by simp [Event.isDestroyObject])
    cases this
  · rw [hcount _ hD2]
    cases hb2 : s2.mem.blocks (s.mem.next + 1) with
    | some blk2 => exact (hok2.1.live_trace _ _ hb2).2
    | none =>
      have hd := hok2.1.dead _ hb2
      have hG := runFrom_grows hr2
      have hgone := hG.gone (s.mem.next + 1) (by rw [hs1, hblk]; rfl) hb2
      rw [(hd.1 (by omega)).1, hd.2.1]
      simp only [if_true]
      omega
  · intro op s3 he3
    obtain ⟨_, hst3, _⟩ := exec_eq_some he3
    have hD3 : DeleterOnly s3.mem (s.mem.next + 1) d p := by
      rcases step_effect hst3 with ha | hm
      · exact hD2.of_allocates ha
      · exact hD2.of_memSteps hm
    rw [hcount _ hD3, hcount _ hD2]
    exact (step_accounts hok2 (exec_ok hok2 he3) hst3 _).1

/-- C4, the scenario `p = SharedPtr(new Trace, custom_deleter); destroy p`: the deleter
is called once with the pointer, the destructor is not called. -/
theorem raw_pointer_contract_witness :
    run [] = some (State.init : State Nat) ∧
      exec (State.init : State Nat) (Op.sp_raw (ObjPtr.ext 7) 5 0) = some rawDemo1 ∧
      runFrom rawDemo1 [Op.sp_destroy 0] = some rawDemo2 ∧
      rawDemo2.mem.trace.count
          (Event.deleter ((State.init : State Nat).mem.next + 1) 5 (ObjPtr.ext 7))
        = (if refs rawDemo2.strong ((State.init : State Nat).mem.next + 1) = 0 then 1 else 0) ∧
      (∀ q, rawDemo2.mem.trace.count
          (Event.destructor ((State.init : State Nat).mem.next + 1) q) = 0) ∧
      rawDemo2.mem.trace =
        [Event.allocate 0 1, Event.deleter 1 5 (ObjPtr.ext 7), Event.deallocate 0 1] :=
  ⟨rfl, rfl, rfl,
    (raw_pointer_contract [] [Op.sp_destroy 0] State.init rawDemo1 rawDemo2 (ObjPtr.ext 7) 5 0
      rfl rfl rfl).2.2.2.2.2.2.2.1,
    (raw_pointer_contract [] [Op.sp_destroy 0] State.init rawDemo1 rawDemo2 (ObjPtr.ext 7) 5 0
      rfl rfl rfl).2.2.2.2.2.2.1,
    rfl⟩

theorem expired_eq_some_false {m : Mem α} {w : Handle}
    (h : WeakPtr.expired m w = some false) :
    ∃ blk, m.deref w.block_ = some blk ∧ blk.shared_count ≠ 0 := by
  unfold WeakPtr.expired at h
  cases hd : m.deref w.block_ with
  | none => simp [hd] at h
  | some blk =>
    refine ⟨blk, rfl, ?_⟩
    simpa [hd] using h

/-- C5: for every weak handle variable engaged on a block, in every state a program
reaches, the block is constructed and `expired()` returns whether its `shared_count` is 0,
which is the case exactly when no live strong handle points at the block. -/
theorem expired_iff_no_strong (ops : List (Op α)) (s : State α) (i : Nat) (w : Handle)
    (hr : run ops = some s) (hg : getVar s.weak i = some w) (hne : w.block_ ≠ 0) :
    ∃ blk, s.mem.deref w.block_ = some blk ∧
      WeakPtr.expired s.mem w = some (decide (blk.shared_count = 0)) ∧
      (WeakPtr.expired s.mem w = some true ↔ blk.shared_count = 0) ∧
      (WeakPtr.expired s.mem w = some true ↔ refs s.strong w.block_ = 0) := by
  have hok := run_ok hr
  obtain ⟨blk, hblk, _, _⟩ := hok.weak_block hg hne
  have hder : s.mem.deref w.block_ = some blk := by
    rw [deref_of_ne hne]
    exact hblk
  have hex : WeakPtr.expired s.mem w = some (decide (blk.shared_count = 0)) := by
    simp [WeakPtr.expired, hder]
  refine ⟨blk, hder, hex, ?_, ?_⟩
  · rw [hex]
    simp
  · rw [hex, ← (hok.1.counts _ _ hblk).1]
    simp

/-- C5, the scenario `p = MakeShared<Trace>(); w = WeakPtr(p); destroy p`: `w.expired()`
is then true. -/
theorem expired_iff_no_strong_witness :
    run [Op.make_shared (some 0), Op.wp_from_shared 0, Op.sp_destroy 0] = some expiredDemo ∧
      getVar expiredDemo.weak 0 = some { block_ := 1, object_ := ObjPtr.inline 1 } ∧
      (∃ blk, expiredDemo.mem.deref 1 = some blk ∧
        WeakPtr.expired expiredDemo.mem { block_ := 1, object_ := ObjPtr.inline 1 }
          = some (decide (blk.shared_count = 0)) ∧
        (WeakPtr.expired expiredDemo.mem { block_ := 1, object_ := ObjPtr.inline 1 } = some true
          ↔ blk.shared_count = 0) ∧
        (WeakPtr.expired expiredDemo.mem { block_ := 1, object_ := ObjPtr.inline 1 } = some true
          ↔ refs expiredDemo.strong 1 = 0)) ∧
      WeakPtr.expired expiredDemo.mem { block_ := 1, object_ := ObjPtr.inline 1 } = some true :=
  ⟨rfl, rfl,
    @expired_iff_no_strong Nat [Op.make_shared (some 0), Op.wp_from_shared 0, Op.sp_destroy 0]
      expiredDemo 0 { block_ := 1, object_ := ObjPtr.inline 1 } rfl rfl (by decide),
    rfl⟩

theorem size_dec_size_inc {n : Nat} (h : n + 1 < SIZE_MOD) : size_dec (size_inc n) = n := by
  rw [size_inc_eq h, size_dec_eq (by omega) h]
  rfl

theorem shared_destructor_keep {m : Mem α} {h : Handle} {blk : ControlBlock α}
    (hb : m.deref h.block_ = some blk) (hs : size_dec blk.shared_count ≠ 0) :
    SharedPtr.destructor m h = some
      (m.setBlock h.block_ (some { blk with shared_count := size_dec blk.shared_count })) := by
  have hnull : ¬ (h.block_ = 0 ∧ h.object_ = ObjPtr.null) :=
    fun hc => (deref_eq_some hb).1 hc.1
  simp only [SharedPtr.destructor, hnull, if_false, hb]
  rw [if_pos hs]

/-- C6: in every state a program reaches, for a weak handle variable `w` that is not
expired, `w.lock()` returns a strong handle `q` with the two pointers of `w`, on the same
block, with `shared_count` one higher and `weak_count` unchanged and no destructor or
deallocation call; destroying afterwards a strong handle `p` that shared the block brings
`use_count(q)` back down by one, calls nothing, and leaves `w.expired() == false`. -/
theorem lock_shares_ownership (ops : List (Op α)) (s : State α) (i j : Nat) (w p : Handle)
    (hr : run ops = some s) (hgw : getVar s.weak i = some w)
    (hex : WeakPtr.expired s.mem w = some false)
    (hgp : getVar s.strong j = some p) (hpb : p.block_ = w.block_) :
    ∃ blk s1 s2,
      s.mem.deref w.block_ = some blk ∧
      step s (Op.wp_lock i) = some s1 ∧
      getVar s1.strong s.strong.length = some { block_ := w.block_, object_ := w.object_ } ∧
      s1.weak = s.weak ∧
      sharedOf s1.mem w.block_ = sharedOf s.mem w.block_ + 1 ∧
      weakOf s1.mem w.block_ = weakOf s.mem w.block_ ∧
      SharedPtr.use_count s1.mem { block_ := w.block_, object_ := w.object_ }
        = some (blk.shared_count + 1) ∧
      s1.mem.trace = s.mem.trace ∧
      step s1 (Op.sp_destroy j) = some s2 ∧
      getVar s2.strong s.strong.length = some { block_ := w.block_, object_ := w.object_ } ∧
      SharedPtr.use_count s2.mem { block_ := w.block_, object_ := w.object_ }
        = some blk.shared_count ∧
      s2.mem.trace = s.mem.trace ∧
      WeakPtr.expired s2.mem w = some false := by
  have hok := run_ok hr
  obtain ⟨blk, hd, hsc⟩ := expired_eq_some_false hex
  obtain ⟨hne, hbl⟩ := deref_eq_some hd
  obtain ⟨hst, hI1⟩ := wp_lock_ok hok hgw hd hsc
  have hcnt := (hok.1.counts _ _ hbl).1
  have hle : refs s.strong w.block_ ≤ live s.strong := refs_le_live _ _
  have hcap := hok.cap.1
  have hinc : blk.shared_count + 1 < SIZE_MOD := by omega
  have hj : j < s.strong.length := getVar_lt hgp
  have hgp1 : getVar (s.strong ++ [some { block_ := w.block_, object_ := w.object_ }]) j
      = some p := by
    rw [getVar_append_left hj]
    exact hgp
  have hd1 : (s.mem.setBlock w.block_
      (some { blk with shared_count := size_inc blk.shared_count })).deref p.block_
        = some { blk with shared_count := size_inc blk.shared_count } := by
    rw [hpb, deref_of_ne hne]
    simp
  have hkeep := shared_destructor_keep hd1 (by
    show size_dec (size_inc blk.shared_count) ≠ 0
    rw [size_dec_size_inc hinc]
    exact hsc)
  have hst2 : step
      { mem := s.mem.setBlock w.block_
          (some { blk with shared_count := size_inc blk.shared_count }),
        strong := s.strong ++ [some { block_ := w.block_, object_ := w.object_ }],
        weak := s.weak } (Op.sp_destroy j)
      = some
        { mem := (s.mem.setBlock w.block_
            (some { blk with shared_count := size_inc blk.shared_count })).setBlock p.block_
              (some { shared_count := size_dec (size_inc blk.shared_count),
                      weak_count := blk.weak_count, kind := blk.kind }),
          strong := List.set (s.strong ++ [some (Handle.mk w.block_ w.object_)]) j none,
          weak := s.weak } := by
    simp only [step, hgp1, hkeep]
    rfl
  refine ⟨blk, _, _, hd, hst, getVar_append_length _ _, rfl, ?_, ?_, ?_, rfl, hst2, ?_, ?_, rfl,
    ?_⟩
  · simp [sharedOf, hd, deref_of_ne hne, size_inc_eq hinc]
  · simp [weakOf, hd, deref_of_ne hne]
  · simp [SharedPtr.use_count, hne, deref_of_ne hne, size_inc_eq hinc]
  · show getVar ((s.strong ++ [_]).set j none) s.strong.length = _
    rw [getVar_set_ne (by omega)]
    exact getVar_append_length _ _
  · simp [SharedPtr.use_count, hne, deref_of_ne hne, hpb, size_dec_size_inc hinc]
  · simp [WeakPtr.expired, deref_of_ne hne, hpb, size_dec_size_inc hinc, hsc]

/-- C6, the scenario `p = MakeShared<Trace>(); w = WeakPtr(p); q = w.lock(); destroy p`. -/
theorem lock_shares_ownership_witness :
    run [Op.make_shared (some 0), Op.wp_from_shared 0] = some lockDemo ∧
      getVar lockDemo.weak 0 = some { block_ := 1, object_ := ObjPtr.inline 1 } ∧
      WeakPtr.expired lockDemo.mem { block_ := 1, object_ := ObjPtr.inline 1 } = some false ∧
      getVar lockDemo.strong 0 = some { block_ := 1, object_ := ObjPtr.inline 1 } ∧
      ∃ blk s1 s2,
        lockDemo.mem.deref 1 = some blk ∧
        step lockDemo (Op.wp_lock 0) = some s1 ∧
        getVar s1.strong lockDemo.strong.length
          = some { block_ := 1, object_ := ObjPtr.inline 1 } ∧
        s1.weak = lockDemo.weak ∧
        sharedOf s1.mem 1 = sharedOf lockDemo.mem 1 + 1 ∧
        weakOf s1.mem 1 = weakOf lockDemo.mem 1 ∧
        SharedPtr.use_count s1.mem { block_ := 1, object_ := ObjPtr.inline 1 }
          = some (blk.shared_count + 1) ∧
        s1.mem.trace = lockDemo.mem.trace ∧
        step s1 (Op.sp_destroy 0) = some s2 ∧
        getVar s2.strong lockDemo.strong.length
          = some { block_ := 1, object_ := ObjPtr.inline 1 } ∧
        SharedPtr.use_count s2.mem { block_ := 1, object_ := ObjPtr.inline 1 }
          = some blk.shared_count ∧
        s2.mem.trace = lockDemo.mem.trace ∧
        WeakPtr.expired s2.mem { block_ := 1, object_ := ObjPtr.inline 1 } = some false :=
  ⟨rfl, rfl, rfl, rfl,
    @lock_shares_ownership Nat [Op.make_shared (some 0), Op.wp_from_shared 0] lockDemo 0 0
      { block_ := 1, object_ := ObjPtr.inline 1 } { block_ := 1, object_ := ObjPtr.inline 1 }
      rfl rfl rfl rfl rfl⟩

/-! ### Handles with both pointers null or both non-null -/

theorem allPaired_append {l : List (Option Handle)} {h : Handle} (hl : allPaired l)
    (hh : h.paired) : allPaired (l ++ [some h]) := by
  intro u hu
  rcases List.mem_append.mp hu with hm | he
  · exact hl u hm
  · simp only [List.mem_singleton, Option.some.injEq] at he
    subst he
    exact hh

theorem allPaired_set {l : List (Option Handle)} (i : Nat) {x : Option Handle}
    (hl : allPaired l) (hx : ∀ h, x = some h → h.paired) : allPaired (l.set i x) := by
  intro u hu
  rcases List.mem_or_eq_of_mem_set hu with hm | he
  · exact hl u hm
  · exact hx u he.symm

theorem paired_null : Handle.null.paired := by
  simp [Handle.paired, Handle.null]

theorem paired_inline (n : Nat) :
    Handle.paired { block_ := n + 1, object_ := ObjPtr.inline (n + 1) } := by
  simp [Handle.paired]

theorem allPaired_moveAssigned {l : List (Option Handle)} {i j : Nat} {u : Handle}
    (hl : allPaired l) (hgu : getVar (l.set i (some Handle.null)) j = some u) :
    allPaired (moveAssigned l i j u) := by
  have h1 : allPaired (l.set i (some Handle.null)) :=
    allPaired_set i hl (fun h hh => by cases hh; exact paired_null)
  have hu : u.paired := h1 u (getVar_mem hgu)
  unfold moveAssigned
  exact allPaired_set j (allPaired_set i h1 (fun h hh => by cases hh; exact hu))
    (fun h hh => by cases hh; exact paired_null)

/-- A statement that is not the adoption of a null raw pointer keeps every handle
paired. -/
theorem step_paired {s s1 : State α} {op : Op α} (hs : step s op = some s1)
    (hraw : op.rawNonNull = true) (hS : allPaired s.strong) (hW : allPaired s.weak) :
    allPaired s1.strong ∧ allPaired s1.weak := by
  have hnull : ∀ h : Handle, some Handle.null = some h → h.paired := by
    intro h hh
    cases hh
    exact paired_null
  cases step_rel hs with
  | sp_default => exact ⟨allPaired_append hS paired_null, hW⟩
  | sp_nullptr => exact ⟨allPaired_append hS paired_null, hW⟩
  | sp_raw ptr del alloc =>
    refine ⟨allPaired_append hS ?_, hW⟩
    simp only [Op.rawNonNull, decide_eq_true_eq] at hraw
    simp [Handle.paired, hraw]
  | sp_copy hg hc => exact ⟨allPaired_append hS (hS _ (getVar_mem hg)), hW⟩
  | sp_move hg =>
    exact ⟨allPaired_append (allPaired_set _ hS hnull) (hS _ (getVar_mem hg)), hW⟩
  | sp_copy_assign hgi hgj hc hd =>
    refine ⟨allPaired_set _ hS ?_, hW⟩
    intro h hh
    cases hh
    exact hS _ (getVar_mem hgj)
  | sp_move_assign hgi hgj hgu hd => exact ⟨allPaired_moveAssigned hS hgu, hW⟩
  | sp_reset hgi hd => exact ⟨allPaired_set _ hS hnull, hW⟩
  | sp_destroy hgi hd => exact ⟨allPaired_set _ hS (fun h hh => by cases hh), hW⟩
  | allocate_throws alloc => exact ⟨hS, hW⟩
  | allocate_shared alloc v => exact ⟨allPaired_append hS (paired_inline _), hW⟩
  | make_throws => exact ⟨hS, hW⟩
  | make_shared v => exact ⟨allPaired_append hS (paired_inline _), hW⟩
  | wp_default => exact ⟨hS, allPaired_append hW paired_null⟩
  | wp_from_shared hg hc => exact ⟨hS, allPaired_append hW (hS _ (getVar_mem hg))⟩
  | wp_copy hg hc => exact ⟨hS, allPaired_append hW (hW _ (getVar_mem hg))⟩
  | wp_move hg =>
    exact ⟨hS, allPaired_append (allPaired_set _ hW hnull) (hW _ (getVar_mem hg))⟩
  | wp_copy_assign hgi hgj hc hd =>
    refine ⟨hS, allPaired_set _ hW ?_⟩
    intro h hh
    cases hh
    exact hW _ (getVar_mem hgj)
  | wp_move_assign hgi hgj hgu hd => exact ⟨hS, allPaired_moveAssigned hW hgu⟩
  | wp_destroy hgi hd => exact ⟨hS, allPaired_set _ hW (fun h hh => by cases hh)⟩
  | wp_lock hg hc => exact ⟨allPaired_append hS (hW _ (getVar_mem hg)), hW⟩

theorem runFrom_paired {ops : List (Op α)} {s s1 : State α} (hr : runFrom s ops = some s1)
    (hraw : ∀ op, op ∈ ops → op.rawNonNull = true)
    (hS : allPaired s.strong) (hW : allPaired s.weak) :
    allPaired s1.strong ∧ allPaired s1.weak := by
  induction ops generalizing s with
  | nil =>
    simp only [runFrom, Option.some.injEq] at hr
    subst hr
    exact ⟨hS, hW⟩
  | cons op ops ih =>
    simp only [runFrom] at hr
    cases he : exec s op with
    | none => simp [he] at hr
    | some s2 =>
      simp only [he] at hr
      obtain ⟨_, hst, _⟩ := exec_eq_some he
      obtain ⟨h1, h2⟩ := step_paired hst (hraw op (List.mem_cons_self _ _)) hS hW
      exact ih hr (fun o ho => hraw o (List.mem_cons_of_mem _ ho)) h1 h2

/-- C7, as the claim states it: after `SharedPtr<T> p(static_cast<T*>(nullptr))` the
handle `p` has a non-null control-block pointer and a null object pointer, so it is
engaged, `use_count() == 1`, and `get() == nullptr`. -/
theorem null_raw_pointer_unpaired :
    run [Op.sp_raw ObjPtr.null std_default_delete std_allocator] = some nullRawDemo ∧
      getVar nullRawDemo.strong 0 = some { block_ := 1, object_ := ObjPtr.null } ∧
      ¬ ((({ block_ := 1, object_ := ObjPtr.null } : Handle).block_ = 0 ∧
            SharedPtr.get { block_ := 1, object_ := ObjPtr.null } = ObjPtr.null) ∨
          (({ block_ := 1, object_ := ObjPtr.null } : Handle).block_ ≠ 0 ∧
            SharedPtr.get { block_ := 1, object_ := ObjPtr.null } ≠ ObjPtr.null)) ∧
      SharedPtr.use_count nullRawDemo.mem { block_ := 1, object_ := ObjPtr.null } = some 1 :=
  ⟨rfl, rfl, by decide, rfl⟩

/-- C7, amended: in every state reached by a program that never adopts a null raw
pointer, every strong handle has its control-block pointer and its object pointer both
null, with `get() == null` and `use_count() == 0`, or both non-null, with
`get() != null`. -/
theorem handles_paired_unless_null_raw (ops : List (Op α)) (s : State α) (i : Nat)
    (h : Handle) (hr : run ops = some s) (hraw : ∀ op, op ∈ ops → op.rawNonNull = true)
    (hg : getVar s.strong i = some h) :
    (h.block_ = 0 ∧ h.object_ = ObjPtr.null ∧ SharedPtr.get h = ObjPtr.null ∧
        SharedPtr.use_count s.mem h = some 0) ∨
      (h.block_ ≠ 0 ∧ h.object_ ≠ ObjPtr.null ∧ SharedPtr.get h ≠ ObjPtr.null) := by
  have hp := (runFrom_paired hr hraw (fun u hu => by simp [State.init] at hu)
    (fun u hu => by simp [State.init] at hu)).1 h (getVar_mem hg)
  unfold Handle.paired at hp
  by_cases hb : h.block_ = 0
  · left
    exact ⟨hb, hp.mp hb, hp.mp hb, by simp [SharedPtr.use_count, hb]⟩
  · right
    exact ⟨hb, fun hc => hb (hp.mpr hc), fun hc => hb (hp.mpr hc)⟩

/-- C7, amended, on `p = SharedPtr(new Trace, custom_deleter)`. -/
theorem handles_paired_unless_null_raw_witness :
    run [Op.sp_raw (ObjPtr.ext 7) 5 0] = some rawDemo1 ∧
      (∀ op : Op Nat, op ∈ [Op.sp_raw (ObjPtr.ext 7) 5 0] → op.rawNonNull = true) ∧
      getVar rawDemo1.strong 0 = some { block_ := 1, object_ := ObjPtr.ext 7 } ∧
      ((({ block_ := 1, object_ := ObjPtr.ext 7 } : Handle).block_ = 0 ∧
          ({ block_ := 1, object_ := ObjPtr.ext 7 } : Handle).object_ = ObjPtr.null ∧
          SharedPtr.get { block_ := 1, object_ := ObjPtr.ext 7 } = ObjPtr.null ∧
          SharedPtr.use_count rawDemo1.mem { block_ := 1, object_ := ObjPtr.ext 7 } = some 0) ∨
        (({ block_ := 1, object_ := ObjPtr.ext 7 } : Handle).block_ ≠ 0 ∧
          ({ block_ := 1, object_ := ObjPtr.ext 7 } : Handle).object_ ≠ ObjPtr.null ∧
          SharedPtr.get { block_ := 1, object_ := ObjPtr.ext 7 } ≠ ObjPtr.null)) :=
  ⟨rfl, fun op hop => by simp at hop; subst hop; rfl, rfl,
    @handles_paired_unless_null_raw Nat [Op.sp_raw (ObjPtr.ext 7) 5 0] rawDemo1 0
      { block_ := 1, object_ := ObjPtr.ext 7 } rfl
      (fun op hop => by simp at hop; subst hop; rfl) rfl⟩

/-! ### Assignments -/

theorem set_getVar_self {l : List (Option Handle)} {i : Nat} {h : Handle}
    (hg : getVar l i = some h) : l.set i (some h) = l := by
  induction l generalizing i with
  | nil => simp [getVar] at hg
  | cons x l ih =>
    cases i with
    | zero =>
      simp only [getVar, List.get?_cons_zero, Option.join] at hg
      subst hg
      rfl
    | succ i =>
      have hg2 : getVar l i = some h := by
        simpa [getVar] using hg
      simp only [List.set_cons_succ]
      rw [ih hg2]

/-- A strong handle of a store under the invariant is empty or points at a constructed
block whose `shared_count` counts it. -/
theorem Inv.strong_var {m : Mem α} {S W : List (Option Handle)} (hI : Inv m S W) {i : Nat}
    {o : Handle} (hg : getVar S i = some o) (hb : o.block_ ≠ 0) :
    ∃ blk, m.blocks o.block_ = some blk ∧ blk.shared_count = refs S o.block_ ∧
      blk.shared_count ≠ 0 := by
  have hpos := refs_pos_of_mem (getVar_mem hg)
  obtain ⟨blk, hblk⟩ := hI.block_of_strong hb hpos
  refine ⟨blk, hblk, (hI.counts _ _ hblk).1, ?_⟩
  rw [(hI.counts _ _ hblk).1]
  omega

theorem Inv.use_count_eq {m : Mem α} {S W : List (Option Handle)} (hI : Inv m S W) {i : Nat}
    {o : Handle} (hg : getVar S i = some o) (hb : o.block_ ≠ 0) :
    SharedPtr.use_count m o = some (refs S o.block_) := by
  obtain ⟨blk, hblk, hsc, _⟩ := hI.strong_var hg hb
  simp [SharedPtr.use_count, hb, deref_of_ne hb, hblk, hsc]

/-- The destructor of a strong handle leaves every other block alone. -/
theorem shared_destructor_frame {m m1 : Mem α} {t : Handle}
    (hd : SharedPtr.destructor m t = some m1) (c : Nat) (hc : c ≠ t.block_) :
    m1.blocks c = m.blocks c := by
  rcases SharedPtr.shared_destructor_cases hd with he | ⟨blk, hb⟩
  · rw [he]
  · obtain ⟨m2, es, k, hd2, _, _, hbo, _⟩ := SharedPtr.shared_destructor_spec hb
    rw [hd] at hd2
    cases hd2
    exact hbo c hc

theorem exec_eq_step {s s1 : State α} {op : Op α} (hl : lockAllowed s op = true)
    (hs : step s op = some s1) (hc : live s1.strong + live s1.weak ≤ HANDLE_CAP) :
    exec s op = some s1 := by
  unfold exec
  rw [if_pos hl]
  simp only [hs]
  rw [if_pos hc]

/-- C8, as the claim states it: with `a` and `b` both empty, `a = b` copy-constructs from
`b` and so increments `shared_count` through a null control-block pointer; the assignment
has undefined behaviour instead of leaving `a` empty. -/
theorem copy_assign_from_empty_undefined :
    run [Op.sp_default, Op.sp_default] = some emptyPairDemo ∧
      getVar emptyPairDemo.strong 0 = some { block_ := 0, object_ := ObjPtr.null } ∧
      getVar emptyPairDemo.strong 1 = some { block_ := 0, object_ := ObjPtr.null } ∧
      SharedPtr.copy emptyPairDemo.mem { block_ := 0, object_ := ObjPtr.null } = none ∧
      step emptyPairDemo (Op.sp_copy_assign 0 1) = none :=
  ⟨rfl, rfl, rfl, rfl, rfl⟩

/-- The part of C8 that holds: in every state a program reaches, for strong handle
variables `a`
(empty or engaged) and `b` engaged, `a = b` is copy-then-swap: `b` is copy-constructed
(its block's `shared_count` incremented), `a` takes the pointers of `b`, and the destructor
runs on the value `a` held before; afterwards `a.get() == b.get()`,
`a.use_count() == b.use_count()`, which is the number of strong handles on the block,
`b` still holds its share, and no other variable changed. -/
theorem copy_assign_from_engaged (ops : List (Op α)) (s : State α) (i j : Nat)
    (t o : Handle) (hr : run ops = some s) (hgi : getVar s.strong i = some t)
    (hgj : getVar s.strong j = some o) (hne : o.block_ ≠ 0) :
    ∃ m1 m2 s1,
      SharedPtr.copy s.mem o = some (m1, { block_ := o.block_, object_ := o.object_ }) ∧
      SharedPtr.destructor m1 t = some m2 ∧
      step s (Op.sp_copy_assign i j) = some s1 ∧
      s1.mem = m2 ∧ s1.weak = s.weak ∧
      getVar s1.strong i = some { block_ := o.block_, object_ := o.object_ } ∧
      getVar s1.strong j = some o ∧
      (∀ k, k ≠ i → getVar s1.strong k = getVar s.strong k) ∧
      SharedPtr.get { block_ := o.block_, object_ := o.object_ } = SharedPtr.get o ∧
      SharedPtr.use_count s1.mem { block_ := o.block_, object_ := o.object_ }
        = SharedPtr.use_count s1.mem o ∧
      SharedPtr.use_count s1.mem o = some (refs s1.strong o.block_) := by
  have hok := run_ok hr
  obtain ⟨m1, m2, hc, hd, hst, hI⟩ := sp_copy_assign_ok hok hgi hgj hne
  have hi := getVar_lt hgi
  have hgi1 : getVar (s.strong.set i (some { block_ := o.block_, object_ := o.object_ })) i
      = some { block_ := o.block_, object_ := o.object_ } := getVar_set_self hi
  refine ⟨m1, m2, _, hc, hd, hst, rfl, rfl, hgi1, ?_, ?_, rfl, rfl, ?_⟩
  · by_cases hij : i = j
    · subst hij
      exact hgi1
    · show getVar (s.strong.set i _) j = some o
      rw [getVar_set_ne hij]
      exact hgj
  · intro k hk
    exact getVar_set_ne (fun hc => hk hc.symm)
  · exact hI.use_count_eq hgi1 hne

/-- Copy assignment from an engaged handle, on
`a = MakeShared<T>(1); b = MakeShared<T>(2); a = b`. -/
theorem copy_assign_from_engaged_witness :
    run [Op.make_shared (some 1), Op.make_shared (some 2)] = some twoBlocksDemo ∧
      getVar twoBlocksDemo.strong 0 = some { block_ := 1, object_ := ObjPtr.inline 1 } ∧
      getVar twoBlocksDemo.strong 1 = some { block_ := 2, object_ := ObjPtr.inline 2 } ∧
      ∃ m1 m2 s1,
        SharedPtr.copy twoBlocksDemo.mem { block_ := 2, object_ := ObjPtr.inline 2 }
          = some (m1, { block_ := 2, object_ := ObjPtr.inline 2 }) ∧
        SharedPtr.destructor m1 { block_ := 1, object_ := ObjPtr.inline 1 } = some m2 ∧
        step twoBlocksDemo (Op.sp_copy_assign 0 1) = some s1 ∧
        s1.mem = m2 ∧ s1.weak = twoBlocksDemo.weak ∧
        getVar s1.strong 0 = some { block_ := 2, object_ := ObjPtr.inline 2 } ∧
        getVar s1.strong 1 = some { block_ := 2, object_ := ObjPtr.inline 2 } ∧
        (∀ k, k ≠ 0 → getVar s1.strong k = getVar twoBlocksDemo.strong k) ∧
        SharedPtr.get { block_ := 2, object_ := ObjPtr.inline 2 }
          = SharedPtr.get { block_ := 2, object_ := ObjPtr.inline 2 } ∧
        SharedPtr.use_count s1.mem { block_ := 2, object_ := ObjPtr.inline 2 }
          = SharedPtr.use_count s1.mem { block_ := 2, object_ := ObjPtr.inline 2 } ∧
        SharedPtr.use_count s1.mem { block_ := 2, object_ := ObjPtr.inline 2 }
          = some (refs s1.strong 2) :=
  ⟨rfl, rfl, rfl,
    @copy_assign_from_engaged Nat [Op.make_shared (some 1), Op.make_shared (some 2)]
      twoBlocksDemo 0 1 { block_ := 1, object_ := ObjPtr.inline 1 }
      { block_ := 2, object_ := ObjPtr.inline 2 } rfl rfl rfl (by decide)⟩

theorem setBlock_self {m : Mem α} {b : Nat} {blk : ControlBlock α}
    (hb : m.blocks b = some blk) (x : Option (ControlBlock α)) :
    (m.setBlock b x).setBlock b (some blk) = m := by
  have hf : (fun a => if a = b then some blk else if a = b then x else m.blocks a)
      = m.blocks := by
    funext a
    by_cases ha : a = b
    · subst ha
      simp [hb]
    · simp [ha]
  show ({ blocks := fun a => if a = b then some blk else if a = b then x else m.blocks a,
          next := m.next, trace := m.trace } : Mem α) = m
  rw [hf]

/-- C9: in every state a program reaches, for an engaged strong handle variable `h`,
`h = h` leaves the whole state as it was: the handle, `use_count()`, `weak_count`, every
other block and variable are unchanged and no `destroy_object` or
`destroy_and_deallocate_block` call is made, also when `use_count() == 1`. -/
theorem self_copy_assign_identity (ops : List (Op α)) (s : State α) (i : Nat) (h : Handle)
    (hr : run ops = some s) (hg : getVar s.strong i = some h) (hne : h.block_ ≠ 0) :
    step s (Op.sp_copy_assign i i) = some s ∧ exec s (Op.sp_copy_assign i i) = some s := by
  have hok := run_ok hr
  obtain ⟨blk, hblk, hsc, hnz⟩ := hok.strong_block hg hne
  have hle : refs s.strong h.block_ ≤ live s.strong := refs_le_live _ _
  have hcap := hok.cap.1
  have hinc : blk.shared_count + 1 < SIZE_MOD := by omega
  have hc : SharedPtr.copy s.mem h = some
      (s.mem.setBlock h.block_ (some { blk with shared_count := size_inc blk.shared_count }),
        { block_ := h.block_, object_ := h.object_ }) := by
    simp [SharedPtr.copy, deref_of_ne hne, hblk]
  have hd1 : (s.mem.setBlock h.block_
      (some { blk with shared_count := size_inc blk.shared_count })).deref h.block_
        = some { blk with shared_count := size_inc blk.shared_count } := by
    rw [deref_of_ne hne]
    simp
  have hkeep := shared_destructor_keep hd1 (by
    show size_dec (size_inc blk.shared_count) ≠ 0
    rw [size_dec_size_inc hinc]
    exact hnz)
  have hmem : (s.mem.setBlock h.block_
      (some { blk with shared_count := size_inc blk.shared_count })).setBlock h.block_
        (some { shared_count := size_dec (size_inc blk.shared_count),
                weak_count := blk.weak_count, kind := blk.kind }) = s.mem := by
    rw [size_dec_size_inc hinc]
    exact setBlock_self hblk _
  have hst : step s (Op.sp_copy_assign i i) = some s := by
    simp only [step, SharedPtr.copy_assign, hg, hc]
    have hk2 : SharedPtr.destructor
        (s.mem.setBlock h.block_ (some { blk with shared_count := size_inc blk.shared_count }))
        { block_ := h.block_, object_ := h.object_ } = some s.mem :=
      hkeep.trans (congrArg some hmem)
    rw [hk2]
    show some ({ mem := s.mem, strong := s.strong.set i (some h), weak := s.weak } : State α)
      = some s
    rw [set_getVar_self hg]
  exact ⟨hst, exec_eq_step rfl hst hok.2⟩

/-- C9, on `p = MakeShared<T>(0); p = p` with `use_count() == 1`. -/
theorem self_copy_assign_identity_witness :
    run [Op.make_shared (some 0)] = some oneBlockDemo ∧
      getVar oneBlockDemo.strong 0 = some { block_ := 1, object_ := ObjPtr.inline 1 } ∧
      SharedPtr.use_count oneBlockDemo.mem { block_ := 1, object_ := ObjPtr.inline 1 }
        = some 1 ∧
      step oneBlockDemo (Op.sp_copy_assign 0 0) = some oneBlockDemo ∧
      exec oneBlockDemo (Op.sp_copy_assign 0 0) = some oneBlockDemo :=
  ⟨rfl, rfl, rfl,
    @self_copy_assign_identity Nat [Op.make_shared (some 0)] oneBlockDemo 0
      { block_ := 1, object_ := ObjPtr.inline 1 } rfl rfl (by decide)⟩

theorem getVar_moveAssigned_this {l : List (Option Handle)} {i j : Nat} (u : Handle)
    (hi : i < l.length) (hij : i ≠ j) :
    getVar (moveAssigned l i j u) i = some { block_ := u.block_, object_ := u.object_ } := by
  unfold moveAssigned
  rw [getVar_set_ne (fun hc => hij hc.symm)]
  exact getVar_set_self (by simpa using hi)

theorem getVar_moveAssigned_other {l : List (Option Handle)} {i j : Nat} (u : Handle)
    (hj : j < l.length) : getVar (moveAssigned l i j u) j = some Handle.null := by
  unfold moveAssigned
  exact getVar_set_self (by simpa using hj)

theorem getVar_moveAssigned_ne {l : List (Option Handle)} {i j k : Nat} (u : Handle)
    (hki : k ≠ i) (hkj : k ≠ j) : getVar (moveAssigned l i j u) k = getVar l k := by
  unfold moveAssigned
  rw [getVar_set_ne (fun hc => hkj hc.symm), getVar_set_ne (fun hc => hki hc.symm),
    getVar_set_ne (fun hc => hki hc.symm)]

/-- C10: in every state a program reaches, for two distinct strong handle variables `a`
and `b` (each empty or engaged), `a = std::move(b)` runs the destructor on the value `a`
held, gives `a` the control block and object pointer `b` had, leaves `b` empty
(`get() == null`, `use_count() == 0`), changes no other variable, and changes no block
other than the one `a` pointed at. -/
theorem move_assign_distinct (ops : List (Op α)) (s : State α) (i j : Nat) (t o : Handle)
    (hr : run ops = some s) (hgi : getVar s.strong i = some t)
    (hgj : getVar s.strong j = some o) (hij : i ≠ j) :
    ∃ m1 s1,
      SharedPtr.destructor s.mem t = some m1 ∧
      step s (Op.sp_move_assign i j) = some s1 ∧
      s1.mem = m1 ∧ s1.weak = s.weak ∧
      getVar s1.strong i = some { block_ := o.block_, object_ := o.object_ } ∧
      getVar s1.strong j = some Handle.null ∧
      SharedPtr.get Handle.null = ObjPtr.null ∧
      SharedPtr.use_count s1.mem Handle.null = some 0 ∧
      (∀ k, k ≠ i → k ≠ j → getVar s1.strong k = getVar s.strong k) ∧
      (∀ c, c ≠ t.block_ → s1.mem.blocks c = s.mem.blocks c) := by
  have hok := run_ok hr
  obtain ⟨m1, u, hd, hgu, hu1, _, hst, hI⟩ := sp_move_assign_ok hok hgi hgj
  have hu := hu1 hij
  subst hu
  refine ⟨m1, _, hd, hst, rfl, rfl, ?_, ?_, rfl, rfl, ?_, ?_⟩
  · exact getVar_moveAssigned_this u (getVar_lt hgi) hij
  · exact getVar_moveAssigned_other u (getVar_lt hgj)
  · intro k hki hkj
    exact getVar_moveAssigned_ne u hki hkj
  · intro c hc
    exact shared_destructor_frame hd c hc

/-- C10, on `a = MakeShared<T>(1); b = MakeShared<T>(2); a = std::move(b)`. -/
theorem move_assign_distinct_witness :
    run [Op.make_shared (some 1), Op.make_shared (some 2)] = some twoBlocksDemo ∧
      getVar twoBlocksDemo.strong 0 = some { block_ := 1, object_ := ObjPtr.inline 1 } ∧
      getVar twoBlocksDemo.strong 1 = some { block_ := 2, object_ := ObjPtr.inline 2 } ∧
      ∃ m1 s1,
        SharedPtr.destructor twoBlocksDemo.mem { block_ := 1, object_ := ObjPtr.inline 1 }
          = some m1 ∧
        step twoBlocksDemo (Op.sp_move_assign 0 1) = some s1 ∧
        s1.mem = m1 ∧ s1.weak = twoBlocksDemo.weak ∧
        getVar s1.strong 0 = some { block_ := 2, object_ := ObjPtr.inline 2 } ∧
        getVar s1.strong 1 = some Handle.null ∧
        SharedPtr.get Handle.null = ObjPtr.null ∧
        SharedPtr.use_count s1.mem Handle.null = some 0 ∧
        (∀ k, k ≠ 0 → k ≠ 1 → getVar s1.strong k = getVar twoBlocksDemo.strong k) ∧
        (∀ c, c ≠ 1 → s1.mem.blocks c = twoBlocksDemo.mem.blocks c) :=
  ⟨rfl, rfl, rfl,
    @move_assign_distinct Nat [Op.make_shared (some 1), Op.make_shared (some 2)]
      twoBlocksDemo 0 1 { block_ := 1, object_ := ObjPtr.inline 1 }
      { block_ := 2, object_ := ObjPtr.inline 2 } rfl rfl rfl (by decide)⟩

/-! ### Reset, factories and constructors -/

theorem handle_eq_null {h : Handle} (hb : h.block_ = 0) (ho : h.object_ = ObjPtr.null) :
    h = Handle.null := by
  cases h
  simp only [Handle.null] at *
  subst hb
  subst ho
  rfl

/-- C11: in every state a program reaches, for every strong handle variable `h` (empty or
engaged), `reset()` leaves the same memory (control blocks and calls made) as destroying
`h` does, namely the result of `~SharedPtr()` on the value of `h`; afterwards `h` is empty
(`get() == null`, `use_count() == 0`) and no other variable changed; and when `h` is
already empty `reset()` leaves the whole state as it was. -/
theorem reset_is_destructor (ops : List (Op α)) (s : State α) (i : Nat) (t : Handle)
    (hr : run ops = some s) (hg : getVar s.strong i = some t) :
    ∃ m1 s1 s2,
      SharedPtr.destructor s.mem t = some m1 ∧
      step s (Op.sp_reset i) = some s1 ∧ step s (Op.sp_destroy i) = some s2 ∧
      s1.mem = m1 ∧ s2.mem = m1 ∧ s1.weak = s.weak ∧
      getVar s1.strong i = some Handle.null ∧
      SharedPtr.get Handle.null = ObjPtr.null ∧
      SharedPtr.use_count s1.mem Handle.null = some 0 ∧
      (∀ k, k ≠ i → getVar s1.strong k = getVar s.strong k) ∧
      (t.block_ = 0 → step s (Op.sp_reset i) = some s) := by
  have hok := run_ok hr
  obtain ⟨m1, hd, hst, _⟩ := sp_reset_ok hok hg
  obtain ⟨m2, hd2, hst2, _⟩ := sp_destroy_ok hok.1 hg
  rw [hd] at hd2
  cases hd2
  refine ⟨m1, _, _, hd, hst, hst2, rfl, rfl, rfl, getVar_set_self (getVar_lt hg), rfl, rfl, ?_,
    ?_⟩
  · intro k hk
    exact getVar_set_ne (fun hc => hk hc.symm)
  · intro hb
    have ho := hok.1.strong_null t (getVar_mem hg) hb
    have ht := handle_eq_null hb ho
    subst ht
    rw [hst]
    have hm : m1 = s.mem := by
      have := SharedPtr.shared_destructor_null s.mem (h := Handle.null) rfl rfl
      rw [hd] at this
      cases this
      rfl
    subst hm
    have hset : s.strong.set i (some { block_ := 0, object_ := ObjPtr.null }) = s.strong :=
      set_getVar_self hg
    rw [hset]

/-- C11, on `p = MakeShared<T>(0); w = WeakPtr(p); q = p; q.reset()`. -/
theorem reset_is_destructor_witness :
    run [Op.make_shared (some 0), Op.wp_from_shared 0, Op.sp_copy 0] = some sharedPairDemo ∧
      getVar sharedPairDemo.strong 1 = some { block_ := 1, object_ := ObjPtr.inline 1 } ∧
      ∃ m1 s1 s2,
        SharedPtr.destructor sharedPairDemo.mem { block_ := 1, object_ := ObjPtr.inline 1 }
          = some m1 ∧
        step sharedPairDemo (Op.sp_reset 1) = some s1 ∧
        step sharedPairDemo (Op.sp_destroy 1) = some s2 ∧
        s1.mem = m1 ∧ s2.mem = m1 ∧ s1.weak = sharedPairDemo.weak ∧
        getVar s1.strong 1 = some Handle.null ∧
        SharedPtr.get Handle.null = ObjPtr.null ∧
        SharedPtr.use_count s1.mem Handle.null = some 0 ∧
        (∀ k, k ≠ 1 → getVar s1.strong k = getVar sharedPairDemo.strong k) ∧
        (({ block_ := 1, object_ := ObjPtr.inline 1 } : Handle).block_ = 0 →
          step sharedPairDemo (Op.sp_reset 1) = some sharedPairDemo) :=
  ⟨rfl, rfl,
    @reset_is_destructor Nat [Op.make_shared (some 0), Op.wp_from_shared 0, Op.sp_copy 0]
      sharedPairDemo 1 { block_ := 1, object_ := ObjPtr.inline 1 } rfl rfl⟩

/-- C12, as the claim states it: when the constructor of the managed object throws inside
`AllocateShared`, the allocator has recorded one allocation and no deallocation, and no
block is left at the allocated address: the storage is not released. -/
theorem constructor_failure_leaks :
    (AllocateShared (Mem.init : Mem Nat) 3 none).2 = none ∧
      allocations (Mem.init : Mem Nat) 3 = deallocations (Mem.init : Mem Nat) 3 ∧
      allocations (AllocateShared (Mem.init : Mem Nat) 3 none).1 3 = 1 ∧
      deallocations (AllocateShared (Mem.init : Mem Nat) 3 none).1 3 = 0 ∧
      (AllocateShared (Mem.init : Mem Nat) 3 none).1.trace = [Event.allocate 3 1] :=
  ⟨rfl, rfl, rfl, rfl, rfl⟩

/-- C12, amended: when the constructor of the managed object throws inside
`AllocateShared` (and so inside `MakeShared`) after the block storage was allocated, the
failure leaves the function with no handle created, no control block and no counter
changed, one more allocation recorded by the allocator and no deallocation: the storage
stays allocated. -/
theorem constructor_failure_effect (m : Mem α) (alloc : Nat) (s : State α) :
    (AllocateShared m alloc none).2 = none ∧
      (AllocateShared m alloc none).1.blocks = m.blocks ∧
      (AllocateShared m alloc none).1.trace = m.trace ++ [Event.allocate alloc (m.next + 1)] ∧
      allocations (AllocateShared m alloc none).1 alloc = allocations m alloc + 1 ∧
      (∀ a, deallocations (AllocateShared m alloc none).1 a = deallocations m a) ∧
      (∀ b, destroyCount (AllocateShared m alloc none).1 b = destroyCount m b) ∧
      MakeShared m none = AllocateShared m std_allocator none ∧
      step s (Op.allocate_shared alloc none)
        = some { mem := (AllocateShared s.mem alloc none).1, strong := s.strong,
                 weak := s.weak } ∧
      step s (Op.make_shared none)
        = some { mem := (AllocateShared s.mem std_allocator none).1, strong := s.strong,
                 weak := s.weak } := by
  refine ⟨rfl, rfl, rfl, ?_, ?_, ?_, rfl, rfl, rfl⟩
  · simp [allocations, AllocateShared, List.countP_append, List.countP_cons,
      Event.isAllocateBy]
  · intro a
    simp [deallocations, AllocateShared, List.countP_append, List.countP_cons,
      Event.isDeallocateBy]
  · intro b
    simp [destroyCount, AllocateShared, List.countP_append, List.countP_cons,
      Event.isDestroyObject]

theorem set_length_append (l : List (Option Handle)) (x y : Option Handle) :
    (l ++ [x]).set l.length y = l ++ [y] := by
  induction l with
  | nil => rfl
  | cons a l ih =>
    simp only [List.cons_append, List.length_cons, List.set_cons_succ]
    rw [ih]

/-- C13: in every state a program reaches, for an engaged strong handle variable `h` with
`use_count() == n`, copy construction returns a handle `c` with the pointers of `h`
(`c.get() == h.get()`, same control block); afterwards `h.use_count()` and `c.use_count()`
are `n + 1`, `weak_count` is unchanged, `h` itself is unchanged, no call is made (nothing
destroyed, nothing allocated or deallocated) and no other block changes. -/
theorem copy_construct_increments (ops : List (Op α)) (s : State α) (i n : Nat) (h : Handle)
    (hr : run ops = some s) (hg : getVar s.strong i = some h) (hne : h.block_ ≠ 0)
    (hn : SharedPtr.use_count s.mem h = some n) :
    ∃ s1,
      step s (Op.sp_copy i) = some s1 ∧
      getVar s1.strong s.strong.length = some { block_ := h.block_, object_ := h.object_ } ∧
      getVar s1.strong i = some h ∧
      SharedPtr.get { block_ := h.block_, object_ := h.object_ } = SharedPtr.get h ∧
      SharedPtr.use_count s1.mem h = some (n + 1) ∧
      SharedPtr.use_count s1.mem { block_ := h.block_, object_ := h.object_ } = some (n + 1) ∧
      weakOf s1.mem h.block_ = weakOf s.mem h.block_ ∧
      s1.mem.trace = s.mem.trace ∧ s1.mem.next = s.mem.next ∧ s1.weak = s.weak ∧
      (∀ b, b ≠ h.block_ → s1.mem.blocks b = s.mem.blocks b) ∧
      isLive s1.mem h.block_ = true := by
  have hok := run_ok hr
  obtain ⟨blk, hblk, hsc, hnz⟩ := hok.strong_block hg hne
  have hle : refs s.strong h.block_ ≤ live s.strong := refs_le_live _ _
  have hcap := hok.cap.1
  have hinc : blk.shared_count + 1 < SIZE_MOD := by omega
  have hnb : n = blk.shared_count := by
    simp [SharedPtr.use_count, hne, deref_of_ne hne, hblk] at hn
    exact hn.symm
  subst hnb
  have hc : SharedPtr.copy s.mem h = some
      (s.mem.setBlock h.block_ (some { blk with shared_count := size_inc blk.shared_count }),
        { block_ := h.block_, object_ := h.object_ }) := by
    simp [SharedPtr.copy, deref_of_ne hne, hblk]
  have hst : step s (Op.sp_copy i) = some
      { mem := s.mem.setBlock h.block_
          (some { blk with shared_count := size_inc blk.shared_count }),
        strong := s.strong ++ [some { block_ := h.block_, object_ := h.object_ }],
        weak := s.weak } := by
    simp only [step, hg, hc]
    rfl
  refine ⟨_, hst, getVar_append_length _ _, ?_, rfl, ?_, ?_, ?_, rfl, rfl, rfl, ?_, ?_⟩
  · show getVar (s.strong ++ [_]) i = some h
    rw [getVar_append_left (getVar_lt hg)]
    exact hg
  · simp [SharedPtr.use_count, hne, deref_of_ne hne, size_inc_eq hinc]
  · simp [SharedPtr.use_count, hne, deref_of_ne hne, size_inc_eq hinc]
  · simp [weakOf, deref_of_ne hne, hblk]
  · intro b hb
    simp [hb]
  · simp [isLive, deref_of_ne hne]

/-- C13, on `p = MakeShared<T>(0); q = p`. -/
theorem copy_construct_increments_witness :
    run [Op.make_shared (some 0)] = some oneBlockDemo ∧
      getVar oneBlockDemo.strong 0 = some { block_ := 1, object_ := ObjPtr.inline 1 } ∧
      SharedPtr.use_count oneBlockDemo.mem { block_ := 1, object_ := ObjPtr.inline 1 }
        = some 1 ∧
      ∃ s1,
        step oneBlockDemo (Op.sp_copy 0) = some s1 ∧
        getVar s1.strong oneBlockDemo.strong.length
          = some { block_ := 1, object_ := ObjPtr.inline 1 } ∧
        getVar s1.strong 0 = some { block_ := 1, object_ := ObjPtr.inline 1 } ∧
        SharedPtr.get { block_ := 1, object_ := ObjPtr.inline 1 }
          = SharedPtr.get { block_ := 1, object_ := ObjPtr.inline 1 } ∧
        SharedPtr.use_count s1.mem { block_ := 1, object_ := ObjPtr.inline 1 } = some (1 + 1) ∧
        SharedPtr.use_count s1.mem { block_ := 1, object_ := ObjPtr.inline 1 } = some (1 + 1) ∧
        weakOf s1.mem 1 = weakOf oneBlockDemo.mem 1 ∧
        s1.mem.trace = oneBlockDemo.mem.trace ∧ s1.mem.next = oneBlockDemo.mem.next ∧
        s1.weak = oneBlockDemo.weak ∧
        (∀ b, b ≠ 1 → s1.mem.blocks b = oneBlockDemo.mem.blocks b) ∧
        isLive s1.mem 1 = true :=
  ⟨rfl, rfl, rfl,
    @copy_construct_increments Nat [Op.make_shared (some 0)] oneBlockDemo 0 1
      { block_ := 1, object_ := ObjPtr.inline 1 } rfl rfl (by decide) rfl⟩

/-- C14: for every strong handle variable `h` (empty or engaged), in any state, move
construction returns a handle `m` with the pointers `h` had, so `m.get()` and
`m.use_count()` are the values of `h` before the move; `h` is left empty
(`get() == null`, `use_count() == 0`); and memory is untouched: both counters of every
control block are unchanged and no call is made. -/
theorem move_construct_transfers (s : State α) (i : Nat) (h : Handle)
    (hg : getVar s.strong i = some h) :
    ∃ s1,
      step s (Op.sp_move i) = some s1 ∧
      s1.mem = s.mem ∧ s1.weak = s.weak ∧
      (SharedPtr.move h).1 = { block_ := h.block_, object_ := h.object_ } ∧
      (SharedPtr.move h).2 = Handle.null ∧
      getVar s1.strong s.strong.length = some { block_ := h.block_, object_ := h.object_ } ∧
      SharedPtr.get { block_ := h.block_, object_ := h.object_ } = SharedPtr.get h ∧
      SharedPtr.use_count s1.mem { block_ := h.block_, object_ := h.object_ }
        = SharedPtr.use_count s.mem h ∧
      getVar s1.strong i = some Handle.null ∧
      SharedPtr.get Handle.null = ObjPtr.null ∧
      SharedPtr.use_count s1.mem Handle.null = some 0 ∧
      (∀ k, k ≠ i → k < s.strong.length → getVar s1.strong k = getVar s.strong k) := by
  have hi := getVar_lt hg
  have hst : step s (Op.sp_move i) = some
      { mem := s.mem,
        strong := s.strong.set i (some Handle.null) ++
          [some { block_ := h.block_, object_ := h.object_ }],
        weak := s.weak } := by
    simp only [step, hg]
    rfl
  refine ⟨_, hst, rfl, rfl, rfl, rfl, ?_, rfl, rfl, ?_, rfl, rfl, ?_⟩
  · show getVar (s.strong.set i _ ++ [_]) s.strong.length = _
    have hlen : (s.strong.set i (some Handle.null)).length = s.strong.length := by simp
    rw [← hlen]
    exact getVar_append_length _ _
  · show getVar (s.strong.set i _ ++ [_]) i = _
    rw [getVar_append_left (by simpa using hi)]
    exact getVar_set_self hi
  · intro k hk hlt
    show getVar (s.strong.set i _ ++ [_]) k = _
    rw [getVar_append_left (by simpa using hlt)]
    exact getVar_set_ne (fun hc => hk hc.symm)

/-- C14, on `p = MakeShared<T>(0); q = std::move(p)`. -/
theorem move_construct_transfers_witness :
    getVar oneBlockDemo.strong 0 = some { block_ := 1, object_ := ObjPtr.inline 1 } ∧
      ∃ s1,
        step oneBlockDemo (Op.sp_move 0) = some s1 ∧
        s1.mem = oneBlockDemo.mem ∧ s1.weak = oneBlockDemo.weak ∧
        (SharedPtr.move { block_ := 1, object_ := ObjPtr.inline 1 }).1
          = { block_ := 1, object_ := ObjPtr.inline 1 } ∧
        (SharedPtr.move { block_ := 1, object_ := ObjPtr.inline 1 }).2 = Handle.null ∧
        getVar s1.strong oneBlockDemo.strong.length
          = some { block_ := 1, object_ := ObjPtr.inline 1 } ∧
        SharedPtr.get { block_ := 1, object_ := ObjPtr.inline 1 }
          = SharedPtr.get { block_ := 1, object_ := ObjPtr.inline 1 } ∧
        SharedPtr.use_count s1.mem { block_ := 1, object_ := ObjPtr.inline 1 }
          = SharedPtr.use_count oneBlockDemo.mem { block_ := 1, object_ := ObjPtr.inline 1 } ∧
        getVar s1.strong 0 = some Handle.null ∧
        SharedPtr.get Handle.null = ObjPtr.null ∧
        SharedPtr.use_count s1.mem Handle.null = some 0 ∧
        (∀ k, k ≠ 0 → k < oneBlockDemo.strong.length →
          getVar s1.strong k = getVar oneBlockDemo.strong k) :=
  ⟨rfl, move_construct_transfers oneBlockDemo 0 { block_ := 1, object_ := ObjPtr.inline 1 } rfl⟩

/-- C15: in every state a program reaches, for an engaged strong handle variable `h`,
copy-constructing `c` from `h` and then destroying `c` restores the memory exactly
(every control block with both counters, and the calls made: neither `destroy_object` nor
`destroy_and_deallocate_block` is called), leaves every earlier variable as it was, so
`h.use_count()`, `h.get()` and `weak_count` have their original values, and leaves only
the dead variable `c` behind. -/
theorem copy_then_destroy_restores (ops : List (Op α)) (s : State α) (i : Nat) (h : Handle)
    (hr : run ops = some s) (hg : getVar s.strong i = some h) (hne : h.block_ ≠ 0) :
    ∃ s1 s2,
      step s (Op.sp_copy i) = some s1 ∧
      getVar s1.strong s.strong.length = some { block_ := h.block_, object_ := h.object_ } ∧
      step s1 (Op.sp_destroy s.strong.length) = some s2 ∧
      s2.mem = s.mem ∧ s2.weak = s.weak ∧ s2.strong = s.strong ++ [none] ∧
      getVar s2.strong i = some h ∧
      SharedPtr.use_count s2.mem h = SharedPtr.use_count s.mem h ∧
      weakOf s2.mem h.block_ = weakOf s.mem h.block_ ∧
      destroyCount s2.mem h.block_ = destroyCount s.mem h.block_ ∧
      deallocCount s2.mem h.block_ = deallocCount s.mem h.block_ := by
  have hok := run_ok hr
  obtain ⟨blk, hblk, hsc, hnz⟩ := hok.strong_block hg hne
  have hle : refs s.strong h.block_ ≤ live s.strong := refs_le_live _ _
  have hcap := hok.cap.1
  have hinc : blk.shared_count + 1 < SIZE_MOD := by omega
  have hc : SharedPtr.copy s.mem h = some
      (s.mem.setBlock h.block_ (some { blk with shared_count := size_inc blk.shared_count }),
        { block_ := h.block_, object_ := h.object_ }) := by
    simp [SharedPtr.copy, deref_of_ne hne, hblk]
  have hst : step s (Op.sp_copy i) = some
      { mem := s.mem.setBlock h.block_
          (some { blk with shared_count := size_inc blk.shared_count }),
        strong := s.strong ++ [some { block_ := h.block_, object_ := h.object_ }],
        weak := s.weak } := by
    simp only [step, hg, hc]
    rfl
  have hd1 : (s.mem.setBlock h.block_
      (some { blk with shared_count := size_inc blk.shared_count })).deref h.block_
        = some { blk with shared_count := size_inc blk.shared_count } := by
    rw [deref_of_ne hne]
    simp
  have hkeep := shared_destructor_keep hd1 (by
    show size_dec (size_inc blk.shared_count) ≠ 0
    rw [size_dec_size_inc hinc]
    exact hnz)
  have hmem : (s.mem.setBlock h.block_
      (some { blk with shared_count := size_inc blk.shared_count })).setBlock h.block_
        (some { shared_count := size_dec (size_inc blk.shared_count),
                weak_count := blk.weak_count, kind := blk.kind }) = s.mem := by
    rw [size_dec_size_inc hinc]
    exact setBlock_self hblk _
  have hk2 : SharedPtr.destructor
      (s.mem.setBlock h.block_ (some { blk with shared_count := size_inc blk.shared_count }))
      { block_ := h.block_, object_ := h.object_ } = some s.mem :=
    hkeep.trans (congrArg some hmem)
  have hst2 : step
      { mem := s.mem.setBlock h.block_
          (some { blk with shared_count := size_inc blk.shared_count }),
        strong := s.strong ++ [some { block_ := h.block_, object_ := h.object_ }],
        weak := s.weak } (Op.sp_destroy s.strong.length)
      = some { mem := s.mem, strong := s.strong ++ [none], weak := s.weak } := by
    simp only [step, getVar_append_length, hk2, Option.map_some']
    rw [set_length_append]
  refine ⟨_, _, hst, getVar_append_length _ _, hst2, rfl, rfl, rfl, ?_, rfl, rfl, rfl, rfl⟩
  show getVar (s.strong ++ [none]) i = some h
  rw [getVar_append_left (getVar_lt hg)]
  exact hg

/-- C15, on `p = MakeShared<T>(0); { q = p; }`. -/
theorem copy_then_destroy_restores_witness :
    run [Op.make_shared (some 0)] = some oneBlockDemo ∧
      getVar oneBlockDemo.strong 0 = some { block_ := 1, object_ := ObjPtr.inline 1 } ∧
      ∃ s1 s2,
        step oneBlockDemo (Op.sp_copy 0) = some s1 ∧
        getVar s1.strong oneBlockDemo.strong.length
          = some { block_ := 1, object_ := ObjPtr.inline 1 } ∧
        step s1 (Op.sp_destroy oneBlockDemo.strong.length) = some s2 ∧
        s2.mem = oneBlockDemo.mem ∧ s2.weak = oneBlockDemo.weak ∧
        s2.strong = oneBlockDemo.strong ++ [none] ∧
        getVar s2.strong 0 = some { block_ := 1, object_ := ObjPtr.inline 1 } ∧
        SharedPtr.use_count s2.mem { block_ := 1, object_ := ObjPtr.inline 1 }
          = SharedPtr.use_count oneBlockDemo.mem { block_ := 1, object_ := ObjPtr.inline 1 } ∧
        weakOf s2.mem 1 = weakOf oneBlockDemo.mem 1 ∧
        destroyCount s2.mem 1 = destroyCount oneBlockDemo.mem 1 ∧
        deallocCount s2.mem 1 = deallocCount oneBlockDemo.mem 1 :=
  ⟨rfl, rfl,
    @copy_then_destroy_restores Nat [Op.make_shared (some 0)] oneBlockDemo 0
      { block_ := 1, object_ := ObjPtr.inline 1 } rfl rfl (by decide)⟩

/-- C16: in every state a program reaches, for an engaged strong handle variable `h`,
constructing a weak handle from `h` gives a weak handle with the two pointers of `h`,
increments `weak_count` of the block by exactly 1, and leaves `shared_count`,
`h.use_count()`, every strong variable (so `h.get()`), every other block and the calls
made unchanged. -/
theorem weak_from_strong_frame (ops : List (Op α)) (s : State α) (i : Nat) (h : Handle)
    (hr : run ops = some s) (hg : getVar s.strong i = some h) (hne : h.block_ ≠ 0) :
    ∃ s1,
      step s (Op.wp_from_shared i) = some s1 ∧
      getVar s1.weak s.weak.length = some { block_ := h.block_, object_ := h.object_ } ∧
      weakOf s1.mem h.block_ = weakOf s.mem h.block_ + 1 ∧
      sharedOf s1.mem h.block_ = sharedOf s.mem h.block_ ∧
      SharedPtr.use_count s1.mem h = SharedPtr.use_count s.mem h ∧
      s1.strong = s.strong ∧ getVar s1.strong i = some h ∧
      SharedPtr.get h = h.object_ ∧
      s1.mem.trace = s.mem.trace ∧
      (∀ b, b ≠ h.block_ → s1.mem.blocks b = s.mem.blocks b) ∧
      (∀ k, k < s.weak.length → getVar s1.weak k = getVar s.weak k) := by
  have hok := run_ok hr
  obtain ⟨blk, hblk, hsc, hnz⟩ := hok.strong_block hg hne
  have hwc := (hok.1.counts _ _ hblk).2
  have hle : refs s.weak h.block_ ≤ live s.weak := refs_le_live _ _
  have hcap := hok.cap.2
  have hinc : blk.weak_count + 1 < SIZE_MOD := by omega
  have hc : WeakPtr.copy s.mem h = some
      (s.mem.setBlock h.block_ (some { blk with weak_count := size_inc blk.weak_count }),
        { block_ := h.block_, object_ := h.object_ }) := by
    simp [WeakPtr.copy, deref_of_ne hne, hblk]
  have hst : step s (Op.wp_from_shared i) = some
      { mem := s.mem.setBlock h.block_
          (some { blk with weak_count := size_inc blk.weak_count }),
        strong := s.strong,
        weak := s.weak ++ [some { block_ := h.block_, object_ := h.object_ }] } := by
    simp only [step, hg, hc]
    rfl
  refine ⟨_, hst, getVar_append_length _ _, ?_, ?_, ?_, rfl, hg, rfl, rfl, ?_, ?_⟩
  · simp [weakOf, deref_of_ne hne, hblk, size_inc_eq hinc]
  · simp [sharedOf, deref_of_ne hne, hblk]
  · simp [SharedPtr.use_count, hne, deref_of_ne hne, hblk]
  · intro b hb
    simp [hb]
  · intro k hk
    exact getVar_append_left hk

/-- C16, on `p = MakeShared<T>(0); w = WeakPtr(p)`. -/
theorem weak_from_strong_frame_witness :
    run [Op.make_shared (some 0)] = some oneBlockDemo ∧
      getVar oneBlockDemo.strong 0 = some { block_ := 1, object_ := ObjPtr.inline 1 } ∧
      ∃ s1,
        step oneBlockDemo (Op.wp_from_shared 0) = some s1 ∧
        getVar s1.weak oneBlockDemo.weak.length
          = some { block_ := 1, object_ := ObjPtr.inline 1 } ∧
        weakOf s1.mem 1 = weakOf oneBlockDemo.mem 1 + 1 ∧
        sharedOf s1.mem 1 = sharedOf oneBlockDemo.mem 1 ∧
        SharedPtr.use_count s1.mem { block_ := 1, object_ := ObjPtr.inline 1 }
          = SharedPtr.use_count oneBlockDemo.mem { block_ := 1, object_ := ObjPtr.inline 1 } ∧
        s1.strong = oneBlockDemo.strong ∧
        getVar s1.strong 0 = some { block_ := 1, object_ := ObjPtr.inline 1 } ∧
        SharedPtr.get { block_ := 1, object_ := ObjPtr.inline 1 } = ObjPtr.inline 1 ∧
        s1.mem.trace = oneBlockDemo.mem.trace ∧
        (∀ b, b ≠ 1 → s1.mem.blocks b = oneBlockDemo.mem.blocks b) ∧
        (∀ k, k < oneBlockDemo.weak.length → getVar s1.weak k = getVar oneBlockDemo.weak k) :=
  ⟨rfl, rfl,
    @weak_from_strong_frame Nat [Op.make_shared (some 0)] oneBlockDemo 0
      { block_ := 1, object_ := ObjPtr.inline 1 } rfl rfl (by decide)⟩

/-- C17: the handle built by `SharedPtr()`, by `SharedPtr(nullptr)` and left in a
moved-from object is the empty handle; it has `use_count() == 0` and `get() == null` in
every memory; and its destructor returns the memory it was given, whatever that memory
is: no control block is read or written and no `destroy_object` or
`destroy_and_deallocate_block` call is made. Destroying a variable that holds it only
marks the variable dead. -/
theorem empty_handle_inert (m : Mem α) (s : State α) (i : Nat) :
    SharedPtr.default = Handle.null ∧ SharedPtr.nullptr = Handle.null ∧
      (∀ h, (SharedPtr.move h).2 = Handle.null) ∧
      SharedPtr.use_count m Handle.null = some 0 ∧
      SharedPtr.get Handle.null = ObjPtr.null ∧
      SharedPtr.destructor m Handle.null = some m ∧
      (getVar s.strong i = some Handle.null →
        step s (Op.sp_destroy i)
          = some { mem := s.mem, strong := s.strong.set i none, weak := s.weak }) := by
  refine ⟨rfl, rfl, fun _ => rfl, rfl, rfl, rfl, ?_⟩
  intro hg
  simp only [step, hg]
  rfl

/-! ### Expired handles, dangling handles, self move assignment -/

theorem expired_eq_some_true {m : Mem α} {w : Handle}
    (h : WeakPtr.expired m w = some true) :
    ∃ blk, m.deref w.block_ = some blk ∧ blk.shared_count = 0 := by
  unfold WeakPtr.expired at h
  cases hd : m.deref w.block_ with
  | none => simp [hd] at h
  | some blk =>
    refine ⟨blk, rfl, ?_⟩
    simpa [hd] using h

theorem size_inc_zero : size_inc 0 = 1 := by
  unfold size_inc SIZE_MOD
  norm_num

/-- C18: `lock()` does not test `expired()`. In every state a program reaches, for a weak
handle variable `w` whose block has `shared_count == 0` (`destroy_object` has been called
once, the block is kept by `w`), `w.lock()` succeeds and returns a strong handle on that
block with `use_count() == 1`, and destroying that handle calls `destroy_object` on the
block a second time. -/
theorem lock_on_expired_revives (ops : List (Op α)) (s : State α) (i : Nat) (w : Handle)
    (hr : run ops = some s) (hg : getVar s.weak i = some w)
    (hex : WeakPtr.expired s.mem w = some true) :
    ∃ s1 s2,
      sharedOf s.mem w.block_ = 0 ∧ isLive s.mem w.block_ = true ∧
      destroyCount s.mem w.block_ = 1 ∧
      step s (Op.wp_lock i) = some s1 ∧
      getVar s1.strong s.strong.length = some { block_ := w.block_, object_ := w.object_ } ∧
      SharedPtr.use_count s1.mem { block_ := w.block_, object_ := w.object_ } = some 1 ∧
      destroyCount s1.mem w.block_ = 1 ∧
      step s1 (Op.sp_destroy s.strong.length) = some s2 ∧
      destroyCount s2.mem w.block_ = 2 ∧ isLive s2.mem w.block_ = true := by
  have hok := run_ok hr
  obtain ⟨blk, hd, hz⟩ := expired_eq_some_true hex
  obtain ⟨hne, hbl⟩ := deref_eq_some hd
  obtain ⟨blk2, hbl2, hwc, hwnz⟩ := hok.weak_block hg hne
  rw [hbl] at hbl2
  cases hbl2
  have hsc := (hok.1.counts _ _ hbl).1
  have hdc : destroyCount s.mem w.block_ = 1 := by
    rw [(hok.1.live_trace _ _ hbl).2, ← hsc, hz]
    rfl
  have hst : step s (Op.wp_lock i) = some
      { mem := s.mem.setBlock w.block_
          (some { blk with shared_count := size_inc blk.shared_count }),
        strong := s.strong ++ [some { block_ := w.block_, object_ := w.object_ }],
        weak := s.weak } := by
    simp only [step, hg, WeakPtr.lock, SharedPtr.fromBlock, hd]
    rfl
  have hd1 : (s.mem.setBlock w.block_
      (some { blk with shared_count := size_inc blk.shared_count })).deref
        (Handle.mk w.block_ w.object_).block_
        = some { blk with shared_count := size_inc blk.shared_count } := by
    show Mem.deref _ w.block_ = _
    rw [deref_of_ne hne]
    simp
  obtain ⟨m2, es, k, hdes, _, htr, _, hcd, _, hbb⟩ := SharedPtr.shared_destructor_spec hd1
  have hsd : size_dec (size_inc blk.shared_count) = 0 := by
    rw [hz, size_inc_zero, size_dec_one]
  have hst2 : step
      { mem := s.mem.setBlock w.block_
          (some { blk with shared_count := size_inc blk.shared_count }),
        strong := s.strong ++ [some { block_ := w.block_, object_ := w.object_ }],
        weak := s.weak } (Op.sp_destroy s.strong.length)
      = some { mem := m2,
               strong := List.set (s.strong ++ [some (Handle.mk w.block_ w.object_)])
                 s.strong.length none,
               weak := s.weak } := by
    simp only [step, getVar_append_length, hdes, Option.map_some']
  refine ⟨_, _, ?_, ?_, hdc, hst, getVar_append_length _ _, ?_, hdc, hst2, ?_, ?_⟩
  · simp [sharedOf, hd, hz]
  · simp [isLive, hd]
  · simp [SharedPtr.use_count, hne, deref_of_ne hne, hz, size_inc_zero]
  · show destroyCount m2 w.block_ = 2
    rw [destroyCount_of_trace htr, hcd]
    have : destroyCount (s.mem.setBlock w.block_
        (some { blk with shared_count := size_inc blk.shared_count })) w.block_ = 1 := hdc
    rw [this]
    simp [hsd]
  · show isLive m2 w.block_ = true
    have hb2 : m2.blocks w.block_ = _ := hbb
    simp only [isLive, deref_of_ne hne, hb2]
    rw [if_neg (fun hc => hwnz hc.2)]
    rfl

/-- C18, on `p = MakeShared<T>(0); w = WeakPtr(p); destroy p; q = w.lock(); destroy q`:
the trace then holds two destructor calls for the object. -/
theorem lock_on_expired_revives_witness :
    run [Op.make_shared (some 0), Op.wp_from_shared 0, Op.sp_destroy 0] = some expiredDemo ∧
      getVar expiredDemo.weak 0 = some { block_ := 1, object_ := ObjPtr.inline 1 } ∧
      WeakPtr.expired expiredDemo.mem { block_ := 1, object_ := ObjPtr.inline 1 }
        = some true ∧
      (∃ s1 s2,
        sharedOf expiredDemo.mem 1 = 0 ∧ isLive expiredDemo.mem 1 = true ∧
        destroyCount expiredDemo.mem 1 = 1 ∧
        step expiredDemo (Op.wp_lock 0) = some s1 ∧
        getVar s1.strong expiredDemo.strong.length
          = some { block_ := 1, object_ := ObjPtr.inline 1 } ∧
        SharedPtr.use_count s1.mem { block_ := 1, object_ := ObjPtr.inline 1 } = some 1 ∧
        destroyCount s1.mem 1 = 1 ∧
        step s1 (Op.sp_destroy expiredDemo.strong.length) = some s2 ∧
        destroyCount s2.mem 1 = 2 ∧ isLive s2.mem 1 = true) ∧
      ((step revivedDemo (Op.sp_destroy 1)).map (fun s2 => s2.mem.trace))
        = some [Event.allocate 0 1, Event.destructor 1 (ObjPtr.inline 1),
                Event.destructor 1 (ObjPtr.inline 1)] :=
  ⟨rfl, rfl, rfl,
    @lock_on_expired_revives Nat
      [Op.make_shared (some 0), Op.wp_from_shared 0, Op.sp_destroy 0] expiredDemo 0
      { block_ := 1, object_ := ObjPtr.inline 1 } rfl rfl rfl,
    rfl⟩

/-- A strong handle among the handles of the invariant points at a block with
`shared_count` at least one. -/
theorem Inv.shared_pos {m : Mem α} {S W : List (Option Handle)} (hI : Inv m S W)
    {t : Handle} (hm : some t ∈ S) (hb : t.block_ ≠ 0) : 1 ≤ sharedOf m t.block_ := by
  have hpos := refs_pos_of_mem hm
  obtain ⟨blk, hblk⟩ := hI.block_of_strong hb hpos
  rw [hI.sharedOf_eq hblk]
  exact hpos

/-- A weak handle among the handles of the invariant points at a block with `weak_count`
at least one. -/
theorem Inv.weak_pos {m : Mem α} {S W : List (Option Handle)} (hI : Inv m S W)
    {t : Handle} (hm : some t ∈ W) (hb : t.block_ ≠ 0) : 1 ≤ weakOf m t.block_ := by
  have hpos := refs_pos_of_mem hm
  obtain ⟨blk, hblk⟩ := hI.block_of_weak hb hpos
  rw [hI.weakOf_eq hblk]
  exact hpos

/-- C19: in every state a program reaches (with `lock()` only on weak handles that are
not expired), every engaged strong handle points at a constructed block on which neither
`destroy_and_deallocate_block` nor `destroy_object` has been called and whose
`shared_count` is at least 1; every engaged weak handle points at a constructed block on
which `destroy_and_deallocate_block` has not been called and whose `weak_count` is at
least 1; and the destructor call a statement makes runs on an empty handle or on a block
whose counter is at least 1, so no counter is decremented below 0. -/
theorem no_dangling_handles (ops : List (Op α)) (s : State α) (hr : run ops = some s) :
    (∀ i h, getVar s.strong i = some h → h.block_ ≠ 0 →
      isLive s.mem h.block_ = true ∧ deallocCount s.mem h.block_ = 0 ∧
        destroyCount s.mem h.block_ = 0 ∧ 1 ≤ sharedOf s.mem h.block_) ∧
    (∀ i h, getVar s.weak i = some h → h.block_ ≠ 0 →
      isLive s.mem h.block_ = true ∧ deallocCount s.mem h.block_ = 0 ∧
        1 ≤ weakOf s.mem h.block_) ∧
    (∀ op s1 wk m t, exec s op = some s1 → finalDestructor s op = some (wk, m, t) →
      (if wk = true then WeakPtr.destructor m t else SharedPtr.destructor m t) = some s1.mem ∧
      (t.block_ ≠ 0 →
        1 ≤ (if wk = true then weakOf m t.block_ else sharedOf m t.block_))) := by
  have hok := run_ok hr
  refine ⟨?_, ?_, ?_⟩
  · intro i h hg hne
    obtain ⟨blk, hblk, hsc, hnz⟩ := hok.strong_block hg hne
    have hlt := hok.1.live_trace _ _ hblk
    refine ⟨by rw [hok.1.isLive_eq, hblk]; rfl, hlt.1, ?_, hok.1.shared_pos (getVar_mem hg) hne⟩
    rw [hlt.2, if_neg (by rw [← hsc]; exact hnz)]
  · intro i h hg hne
    obtain ⟨blk, hblk, _, _⟩ := hok.weak_block hg hne
    have hlt := hok.1.live_trace _ _ hblk
    exact ⟨by rw [hok.1.isLive_eq, hblk]; rfl, hlt.1, hok.1.weak_pos (getVar_mem hg) hne⟩
  · intro op s1 wk m t he hf
    obtain ⟨_, hst, _⟩ := exec_eq_some he
    cases step_rel hst with
    | sp_default => simp [finalDestructor] at hf
    | sp_nullptr => simp [finalDestructor] at hf
    | sp_raw ptr del alloc => simp [finalDestructor] at hf
    | sp_copy hg hc => simp [finalDestructor] at hf
    | sp_move hg => simp [finalDestructor] at hf
    | sp_copy_assign hgi hgj hc hd =>
      simp only [finalDestructor, hgi, hgj, hc, Option.map_some', Option.some.injEq,
        Prod.mk.injEq] at hf
      obtain ⟨hwk, hm, ht⟩ := hf
      subst hwk
      subst hm
      subst ht
      refine ⟨hd, fun hne => ?_⟩
      have hI := hok.shared_copy hgj hc
      exact hI.shared_pos (List.mem_cons_of_mem _ (getVar_mem hgi)) hne
    | sp_move_assign hgi hgj hgu hd =>
      simp only [finalDestructor, hgi, hgj, Option.some.injEq, Prod.mk.injEq] at hf
      obtain ⟨hwk, hm, ht⟩ := hf
      subst hwk
      subst hm
      subst ht
      exact ⟨hd, fun hne => hok.1.shared_pos (getVar_mem hgi) hne⟩
    | sp_reset hgi hd =>
      simp only [finalDestructor, hgi, Option.map_some', Option.some.injEq,
        Prod.mk.injEq] at hf
      obtain ⟨hwk, hm, ht⟩ := hf
      subst hwk
      subst hm
      subst ht
      exact ⟨hd, fun hne => hok.1.shared_pos (getVar_mem hgi) hne⟩
    | sp_destroy hgi hd =>
      simp only [finalDestructor, hgi, Option.map_some', Option.some.injEq,
        Prod.mk.injEq] at hf
      obtain ⟨hwk, hm, ht⟩ := hf
      subst hwk
      subst hm
      subst ht
      exact ⟨hd, fun hne => hok.1.shared_pos (getVar_mem hgi) hne⟩
    | allocate_throws alloc => simp [finalDestructor] at hf
    | allocate_shared alloc v => simp [finalDestructor] at hf
    | make_throws => simp [finalDestructor] at hf
    | make_shared v => simp [finalDestructor] at hf
    | wp_default => simp [finalDestructor] at hf
    | wp_from_shared hg hc => simp [finalDestructor] at hf
    | wp_copy hg hc => simp [finalDestructor] at hf
    | wp_move hg => simp [finalDestructor] at hf
    | wp_copy_assign hgi hgj hc hd =>
      simp only [finalDestructor, hgi, hgj, hc, Option.map_some', Option.some.injEq,
        Prod.mk.injEq] at hf
      obtain ⟨hwk, hm, ht⟩ := hf
      subst hwk
      subst hm
      subst ht
      refine ⟨hd, fun hne => ?_⟩
      have hI := hok.weak_copy hc
      exact hI.weak_pos (List.mem_cons_of_mem _ (getVar_mem hgi)) hne
    | wp_move_assign hgi hgj hgu hd =>
      simp only [finalDestructor, hgi, hgj, Option.some.injEq, Prod.mk.injEq] at hf
      obtain ⟨hwk, hm, ht⟩ := hf
      subst hwk
      subst hm
      subst ht
      exact ⟨hd, fun hne => hok.1.weak_pos (getVar_mem hgi) hne⟩
    | wp_destroy hgi hd =>
      simp only [finalDestructor, hgi, Option.map_some', Option.some.injEq,
        Prod.mk.injEq] at hf
      obtain ⟨hwk, hm, ht⟩ := hf
      subst hwk
      subst hm
      subst ht
      exact ⟨hd, fun hne => hok.1.weak_pos (getVar_mem hgi) hne⟩
    | wp_lock hg hc => simp [finalDestructor] at hf

/-- C19, on `p = MakeShared<T>(0); w = WeakPtr(p); q = p`. -/
theorem no_dangling_handles_witness :
    run [Op.make_shared (some 0), Op.wp_from_shared 0, Op.sp_copy 0] = some sharedPairDemo ∧
    ((∀ i h, getVar sharedPairDemo.strong i = some h → h.block_ ≠ 0 →
      isLive sharedPairDemo.mem h.block_ = true ∧ deallocCount sharedPairDemo.mem h.block_ = 0 ∧
        destroyCount sharedPairDemo.mem h.block_ = 0 ∧
        1 ≤ sharedOf sharedPairDemo.mem h.block_) ∧
    (∀ i h, getVar sharedPairDemo.weak i = some h → h.block_ ≠ 0 →
      isLive sharedPairDemo.mem h.block_ = true ∧ deallocCount sharedPairDemo.mem h.block_ = 0 ∧
        1 ≤ weakOf sharedPairDemo.mem h.block_) ∧
    (∀ op s1 wk m t, exec sharedPairDemo op = some s1 →
      finalDestructor sharedPairDemo op = some (wk, m, t) →
      (if wk = true then WeakPtr.destructor m t else SharedPtr.destructor m t) = some s1.mem ∧
      (t.block_ ≠ 0 →
        1 ≤ (if wk = true then weakOf m t.block_ else sharedOf m t.block_)))) ∧
    sharedOf sharedPairDemo.mem 1 = 2 ∧ weakOf sharedPairDemo.mem 1 = 1 :=
  ⟨rfl,
    @no_dangling_handles Nat [Op.make_shared (some 0), Op.wp_from_shared 0, Op.sp_copy 0]
      sharedPairDemo rfl,
    rfl, rfl⟩

theorem weak_destructor_frame {m m1 : Mem α} {t : Handle}
    (hd : WeakPtr.destructor m t = some m1) (c : Nat) (hc : c ≠ t.block_) :
    m1.blocks c = m.blocks c := by
  rcases WeakPtr.weak_destructor_cases hd with he | ⟨blk, hb⟩
  · rw [he]
  · obtain ⟨m2, es, hd2, _, _, hbo, _⟩ := WeakPtr.weak_destructor_spec hb
    rw [hd] at hd2
    cases hd2
    exact hbo c hc

/-- C20: in every state a program reaches, self move assignment `h = std::move(h)` of an
engaged strong handle variable does not preserve `h`: it succeeds, leaves `h` empty
(`get() == null`, `use_count() == 0`) and leaves the memory `~SharedPtr()` leaves on the
old value of `h`, the same as destroying `h`; so when `use_count()` was 1
`destroy_object` is called, and the block is deallocated as well if `weak_count` was 0.
In the same way self move assignment of an engaged weak handle variable leaves it empty
and leaves the memory `~WeakPtr()` leaves on its old value, so when it was the only weak
handle of a block with `shared_count == 0` the block is deallocated. -/
theorem self_move_assign_releases (ops : List (Op α)) (s : State α)
    (hr : run ops = some s) :
    (∀ i h, getVar s.strong i = some h → h.block_ ≠ 0 →
      ∃ m1 s1 s2,
        SharedPtr.destructor s.mem h = some m1 ∧
        step s (Op.sp_move_assign i i) = some s1 ∧ s1.mem = m1 ∧ s1.weak = s.weak ∧
        step s (Op.sp_destroy i) = some s2 ∧ s2.mem = m1 ∧
        getVar s1.strong i = some Handle.null ∧
        SharedPtr.get Handle.null = ObjPtr.null ∧
        SharedPtr.use_count s1.mem Handle.null = some 0 ∧
        (∀ k, k ≠ i → getVar s1.strong k = getVar s.strong k) ∧
        (SharedPtr.use_count s.mem h = some 1 →
          destroyCount s1.mem h.block_ = destroyCount s.mem h.block_ + 1 ∧
          (weakOf s.mem h.block_ = 0 →
            isLive s1.mem h.block_ = false ∧
            deallocCount s1.mem h.block_ = deallocCount s.mem h.block_ + 1) ∧
          (weakOf s.mem h.block_ ≠ 0 →
            isLive s1.mem h.block_ = true ∧ sharedOf s1.mem h.block_ = 0 ∧
            deallocCount s1.mem h.block_ = deallocCount s.mem h.block_))) ∧
    (∀ j w, getVar s.weak j = some w → w.block_ ≠ 0 →
      ∃ m1 s1 s2,
        WeakPtr.destructor s.mem w = some m1 ∧
        step s (Op.wp_move_assign j j) = some s1 ∧ s1.mem = m1 ∧ s1.strong = s.strong ∧
        step s (Op.wp_destroy j) = some s2 ∧ s2.mem = m1 ∧
        getVar s1.weak j = some Handle.null ∧
        (∀ k, k ≠ j → getVar s1.weak k = getVar s.weak k) ∧
        destroyCount s1.mem w.block_ = destroyCount s.mem w.block_ ∧
        (weakOf s.mem w.block_ = 1 → sharedOf s.mem w.block_ = 0 →
          isLive s1.mem w.block_ = false ∧
          deallocCount s1.mem w.block_ = deallocCount s.mem w.block_ + 1) ∧
        (¬ (weakOf s.mem w.block_ = 1 ∧ sharedOf s.mem w.block_ = 0) →
          isLive s1.mem w.block_ = true ∧
          weakOf s1.mem w.block_ + 1 = weakOf s.mem w.block_ ∧
          deallocCount s1.mem w.block_ = deallocCount s.mem w.block_)) := by
  have hok := run_ok hr
  constructor
  · intro i h hg hne
    obtain ⟨m1, u, hd, hgu, _, hu2, hst, _⟩ := sp_move_assign_ok hok hg hg
    have hu := hu2 rfl
    subst hu
    obtain ⟨m2, hd2, hst2, _⟩ := sp_destroy_ok hok.1 hg
    rw [hd] at hd2
    cases hd2
    obtain ⟨blk, hblk, hsc, hnz⟩ := hok.strong_block hg hne
    have hder : s.mem.deref h.block_ = some blk := by
      rw [deref_of_ne hne]
      exact hblk
    obtain ⟨m3, es, k, hd3, _, htr, _, hcd, hca, hbb⟩ := SharedPtr.shared_destructor_spec hder
    rw [hd] at hd3
    cases hd3
    refine ⟨m1, _, _, hd, hst, rfl, rfl, hst2, rfl, ?_, rfl, rfl, ?_, ?_⟩
    · exact getVar_moveAssigned_other _ (getVar_lt hg)
    · intro k hk
      exact getVar_moveAssigned_ne _ hk hk
    · intro huc
      have hone : blk.shared_count = 1 := by
        simpa [SharedPtr.use_count, hne, hder] using huc
      have hsd : size_dec blk.shared_count = 0 := by
        rw [hone, size_dec_one]
      have hwk : weakOf s.mem h.block_ = blk.weak_count := by
        simp [weakOf, hder]
      refine ⟨?_, ?_, ?_⟩
      · show destroyCount m1 h.block_ = _
        rw [destroyCount_of_trace htr, hcd]
        simp [hsd]
      · intro hw
        rw [hwk] at hw
        constructor
        · show isLive m1 h.block_ = false
          simp [isLive, deref_of_ne hne, hbb, hsd, hw]
        · show deallocCount m1 h.block_ = _
          rw [deallocCount_of_trace htr, hca]
          simp [hsd, hw]
      · intro hw
        rw [hwk] at hw
        refine ⟨?_, ?_, ?_⟩
        · show isLive m1 h.block_ = true
          simp [isLive, deref_of_ne hne, hbb, hw]
        · show sharedOf m1 h.block_ = 0
          simp [sharedOf, deref_of_ne hne, hbb, hw, hsd]
        · show deallocCount m1 h.block_ = _
          rw [deallocCount_of_trace htr, hca]
          simp [hw]
  · intro j w hg hne
    obtain ⟨m1, u, hd, hgu, _, hu2, hst, _⟩ := wp_move_assign_ok hok hg hg
    have hu := hu2 rfl
    subst hu
    obtain ⟨m2, hd2, hst2, _⟩ := wp_destroy_ok hok hg
    rw [hd] at hd2
    cases hd2
    obtain ⟨blk, hblk, hwc, hwnz⟩ := hok.weak_block hg hne
    have hder : s.mem.deref w.block_ = some blk := by
      rw [deref_of_ne hne]
      exact hblk
    have hle : refs s.weak w.block_ ≤ live s.weak := refs_le_live _ _
    have hcap := hok.cap.2
    have hsd : size_dec blk.weak_count + 1 = blk.weak_count := by
      rw [size_dec_eq (by omega) (by omega)]
      omega
    obtain ⟨m3, es, hd3, _, htr, _, hcd, hca, hbb⟩ := WeakPtr.weak_destructor_spec hder
    rw [hd] at hd3
    cases hd3
    have hwk : weakOf s.mem w.block_ = blk.weak_count := by
      simp [weakOf, hder]
    have hsh : sharedOf s.mem w.block_ = blk.shared_count := by
      simp [sharedOf, hder]
    refine ⟨m1, _, _, hd, hst, rfl, rfl, hst2, rfl, ?_, ?_, ?_, ?_, ?_⟩
    · exact getVar_moveAssigned_other _ (getVar_lt hg)
    · intro k hk
      exact getVar_moveAssigned_ne _ hk hk
    · show destroyCount m1 w.block_ = _
      rw [destroyCount_of_trace htr, hcd]
      rfl
    · intro h1 h0
      rw [hwk] at h1
      rw [hsh] at h0
      have hz : size_dec blk.weak_count = 0 := by omega
      constructor
      · show isLive m1 w.block_ = false
        simp [isLive, deref_of_ne hne, hbb, h0, hz]
      · show deallocCount m1 w.block_ = _
        rw [deallocCount_of_trace htr, hca]
        simp [h0, hz]
    · intro hnot
      rw [hwk, hsh] at hnot
      have hcond : ¬ (blk.shared_count = 0 ∧ size_dec blk.weak_count = 0) := by
        intro hc
        exact hnot ⟨by omega, hc.1⟩
      refine ⟨?_, ?_, ?_⟩
      · show isLive m1 w.block_ = true
        simp [isLive, deref_of_ne hne, hbb, hcond]
      · show weakOf m1 w.block_ + 1 = _
        rw [hwk]
        simp only [weakOf, deref_of_ne hne, hbb, if_neg hcond]
        exact hsd
      · show deallocCount m1 w.block_ = _
        rw [deallocCount_of_trace htr, hca, if_neg (fun hc => hcond hc.2)]
        rfl

/-- C20, on `p = MakeShared<T>(0); p = std::move(p)`: the object is destroyed and the
block deallocated. -/
theorem self_move_assign_releases_witness :
    run [Op.make_shared (some 0)] = some oneBlockDemo ∧
    ((∀ i h, getVar oneBlockDemo.strong i = some h → h.block_ ≠ 0 →
      ∃ m1 s1 s2,
        SharedPtr.destructor oneBlockDemo.mem h = some m1 ∧
        step oneBlockDemo (Op.sp_move_assign i i) = some s1 ∧ s1.mem = m1 ∧
        s1.weak = oneBlockDemo.weak ∧
        step oneBlockDemo (Op.sp_destroy i) = some s2 ∧ s2.mem = m1 ∧
        getVar s1.strong i = some Handle.null ∧
        SharedPtr.get Handle.null = ObjPtr.null ∧
        SharedPtr.use_count s1.mem Handle.null = some 0 ∧
        (∀ k, k ≠ i → getVar s1.strong k = getVar oneBlockDemo.strong k) ∧
        (SharedPtr.use_count oneBlockDemo.mem h = some 1 →
          destroyCount s1.mem h.block_ = destroyCount oneBlockDemo.mem h.block_ + 1 ∧
          (weakOf oneBlockDemo.mem h.block_ = 0 →
            isLive s1.mem h.block_ = false ∧
            deallocCount s1.mem h.block_ = deallocCount oneBlockDemo.mem h.block_ + 1) ∧
          (weakOf oneBlockDemo.mem h.block_ ≠ 0 →
            isLive s1.mem h.block_ = true ∧ sharedOf s1.mem h.block_ = 0 ∧
            deallocCount s1.mem h.block_ = deallocCount oneBlockDemo.mem h.block_))) ∧
    (∀ j w, getVar oneBlockDemo.weak j = some w → w.block_ ≠ 0 →
      ∃ m1 s1 s2,
        WeakPtr.destructor oneBlockDemo.mem w = some m1 ∧
        step oneBlockDemo (Op.wp_move_assign j j) = some s1 ∧ s1.mem = m1 ∧
        s1.strong = oneBlockDemo.strong ∧
        step oneBlockDemo (Op.wp_destroy j) = some s2 ∧ s2.mem = m1 ∧
        getVar s1.weak j = some Handle.null ∧
        (∀ k, k ≠ j → getVar s1.weak k = getVar oneBlockDemo.weak k) ∧
        destroyCount s1.mem w.block_ = destroyCount oneBlockDemo.mem w.block_ ∧
        (weakOf oneBlockDemo.mem w.block_ = 1 → sharedOf oneBlockDemo.mem w.block_ = 0 →
          isLive s1.mem w.block_ = false ∧
          deallocCount s1.mem w.block_ = deallocCount oneBlockDemo.mem w.block_ + 1) ∧
        (¬ (weakOf oneBlockDemo.mem w.block_ = 1 ∧ sharedOf oneBlockDemo.mem w.block_ = 0) →
          isLive s1.mem w.block_ = true ∧
          weakOf s1.mem w.block_ + 1 = weakOf oneBlockDemo.mem w.block_ ∧
          deallocCount s1.mem w.block_ = deallocCount oneBlockDemo.mem w.block_))) ∧
    ((step oneBlockDemo (Op.sp_move_assign 0 0)).map
        (fun s1 => (s1.strong, s1.mem.trace, s1.mem.blocks 1)))
      = some ([some Handle.null],
          [Event.allocate 0 1, Event.destructor 1 (ObjPtr.inline 1), Event.deallocate 0 1],
          none) :=
  ⟨rfl, @self_move_assign_releases Nat [Op.make_shared (some 0)] oneBlockDemo rfl, rfl⟩

end SmartPtr
